import Mathlib

/-!
# Verification of the sudoku solver library (src/sudoku.rs)

Shallow embedding of the constraint-propagation / backtracking sudoku engine.
Grids are lists of 81 naturals (0 = empty, 1-9 = clue), candidate masks are
9-bit naturals (bit i = digit i+1 possible), the solver state mirrors the Rust
struct `SudokuSolver` field by field.

The modules `types` (Mask, Entry), `positions` (zone topology) and `consts`
of the crate are not present in the sources; definitions taken from the
specification's description of those modules carry a doc comment starting
with `Modelled from the spec:`.  Everything else is translated directly from
`src/sudoku.rs`.
-/

namespace SudokuV

/-- A grid: 81 cells, row-major; 0 = empty, 1-9 = placed digit. -/
abbrev Grid := List Nat

/-- Modelled from the spec: candidate masks are bitsets over digits 1-9,
bit `i` standing for digit `i+1` (spec section 9, bitmask-over-9-digits). -/
abbrev Mask := Nat

/-- Modelled from the spec: the full mask, all nine digits possible. -/
def maskALL : Nat := 511

/-- Modelled from the spec: set difference on masks (`remove` / `without`). -/
def maskRemove (m other : Nat) : Nat := m - (m &&& other)

/-- Modelled from the spec: population count of a mask (u16 `count_ones`). -/
def popcnt (m : Nat) : Nat := ((List.range 16).filter (fun i => m.testBit i)).length

/-- Modelled from the spec: `lowest()` / `one_possibility`, the smallest
digit of the mask (position of lowest set bit, plus one). -/
def onePossibility (m : Nat) : Nat := ((List.range 16).findIdx (fun i => m.testBit i)) + 1

/-- Modelled from the spec: `iterate()`, the ascending list of digits of a mask. -/
def maskDigits (m : Nat) : List Nat :=
  ((List.range 16).filter (fun i => m.testBit i)).map (· + 1)

/-- Modelled from the spec: `unique_num` / `classify()`: an empty mask is a
contradiction, a singleton yields its digit, several candidates yield nothing. -/
def uniqueNum (m : Nat) : Except Unit (Option Nat) :=
  if m = 0 then .error ()
  else if popcnt m = 1 then .ok (some (onePossibility m))
  else .ok none

/-- Modelled from the spec: row of a cell (idx / 9). -/
def rowOf (c : Nat) : Nat := c / 9

/-- Modelled from the spec: column of a cell (idx % 9). -/
def colOf (c : Nat) : Nat := c % 9

/-- Modelled from the spec: box of a cell ((row/3)*3 + col/3). -/
def fieldOf (c : Nat) : Nat := (rowOf c / 3) * 3 + colOf c / 3

/-- Modelled from the spec: zone ids partition as rows 0-8, columns 9-17,
boxes 18-26 (ROW_OFFSET = 0, COL_OFFSET = 9, FIELD_OFFSET = 18). -/
def rowZone (c : Nat) : Nat := rowOf c

/-- Modelled from the spec: column zone id of a cell. -/
def colZone (c : Nat) : Nat := 9 + colOf c

/-- Modelled from the spec: box zone id of a cell. -/
def fieldZone (c : Nat) : Nat := 18 + fieldOf c

/-- Two distinct cells constrain each other iff they share a row, column or box. -/
def sameZoneB (a b : Nat) : Bool :=
  rowOf a == rowOf b || colOf a == colOf b || fieldOf a == fieldOf b

/-- Modelled from the spec: the 20 constraint neighbours of a cell. -/
def neighbours (c : Nat) : List Nat :=
  (List.range 81).filter (fun j => j != c && sameZoneB j c)

/-- Modelled from the spec: the 9 member cells of a zone (zone ids 0-26). -/
def cellsOfZone (z : Nat) : List Nat :=
  (List.range 81).filter (fun c => rowZone c == z || colZone c == z || fieldZone c == z)

/-- Modelled from the spec: an Entry is a (cell, digit) placement. -/
structure Entry where
  cell : Nat
  num : Nat
deriving DecidableEq

/-- Modelled from the spec: the digit mask of an entry (`entry.mask()`). -/
def Entry.emask (e : Entry) : Nat := 1 <<< (e.num - 1)

/-- The solver state, mirroring the Rust struct `SudokuSolver`
(grid, n_solved_cells, cell_poss_digits, zone_solved_digits, last_cell). -/
structure Solver where
  grid : Grid
  nSolved : Nat
  cellPoss : List Mask
  zoneSolved : List Mask
  lastCell : Nat
deriving DecidableEq

/-- `SudokuSolver::new`: empty grid, all digits possible everywhere,
no digit placed in any zone, cursor at 0. -/
def Solver.new : Solver :=
  { grid := List.replicate 81 0
            , nSolved := 0
            , cellPoss := List.replicate 81 maskALL
            , zoneSolved := List.replicate 27 0
            , lastCell := 0 }

/-- Candidate mask of a cell (out-of-range reads give 0). -/
def Solver.mask (s : Solver) (c : Nat) : Nat := s.cellPoss.getD c 0

/-- Solved-digit mask of a zone. -/
def Solver.zmask (s : Solver) (z : Nat) : Nat := s.zoneSolved.getD z 0

/-- Union of the solved-digit masks of the three zones of a cell
(the `zones_mask` used in batch recomputation). -/
def Solver.zonesMaskOf (s : Solver) (c : Nat) : Nat :=
  s.zmask (rowZone c) ||| s.zmask (colZone c) ||| s.zmask (fieldZone c)

/-- `SudokuSolver::_insert_entry`: commit an entry -- mark the cell solved,
write the digit, empty its mask, OR the digit into its three zone masks. -/
def insertEntry (s : Solver) (e : Entry) : Solver :=
  { grid := s.grid.set e.cell e.num
            , nSolved := s.nSolved + 1
            , cellPoss := s.cellPoss.set e.cell 0
            , zoneSolved :=
                let z1 := s.zoneSolved.set (rowZone e.cell)
                  (s.zoneSolved.getD (rowZone e.cell) 0 ||| e.emask)
                let z2 := z1.set (colZone e.cell)
                  (z1.getD (colZone e.cell) 0 ||| e.emask)
                z2.set (fieldZone e.cell)
                  (z2.getD (fieldZone e.cell) 0 ||| e.emask)
            , lastCell := s.lastCell }

/-! ## Basic lemmas on masks and lists -/

theorem maskRemove_eq_ldiff (m o : Nat) : maskRemove m o = Nat.ldiff m o := by
  induction m using Nat.binaryRec generalizing o with
  | z =>
      have h0 : Nat.ldiff 0 o = 0 := by
        apply Nat.eq_of_testBit_eq
        intro i
        simp [Nat.testBit_ldiff, Nat.zero_testBit]
      simp [maskRemove, h0]
  | f a m ih =>
      conv_lhs => rw [show o = Nat.bit o.bodd o.div2 from (Nat.bit_decomp o).symm]
      conv_rhs => rw [show o = Nat.bit o.bodd o.div2 from (Nat.bit_decomp o).symm]
      rw [Nat.ldiff_bit]
      unfold maskRemove
      rw [Nat.land_bit]
      have hle : m &&& o.div2 ≤ m := Nat.and_le_left
      have ihd := ih o.div2
      unfold maskRemove at ihd
      rw [Nat.bit_val, Nat.bit_val, Nat.bit_val]
      generalize hL : m.ldiff o.div2 = L at ihd ⊢
      cases a <;> cases o.bodd <;>
        simp only [Bool.and_false, Bool.and_true, Bool.not_true, Bool.not_false,
          Bool.false_and, Bool.true_and, Bool.toNat_true, Bool.toNat_false] <;>
        omega

theorem maskRemove_testBit (m o i : Nat) :
    (maskRemove m o).testBit i = (m.testBit i && !(o.testBit i)) := by
  rw [maskRemove_eq_ldiff, Nat.testBit_ldiff]

theorem land_eq_zero_of (m x : Nat)
    (h : ∀ i, m.testBit i = true → x.testBit i = false) : m &&& x = 0 := by
  apply Nat.eq_of_testBit_eq
  intro i
  rw [Nat.testBit_land, Nat.zero_testBit]
  cases hm : m.testBit i
  · simp
  · simp [h i hm]

theorem testBit_eq_false_of_land_eq_zero {m x : Nat} (h : m &&& x = 0) (i : Nat)
    (hm : m.testBit i = true) : x.testBit i = false := by
  by_contra hx
  have hx' : x.testBit i = true := by
    cases h' : x.testBit i
    · exact absurd h' hx
    · rfl
  have : (m &&& x).testBit i = true := by
    rw [Nat.testBit_land, hm, hx']
    rfl
  rw [h, Nat.zero_testBit] at this
  exact Bool.false_ne_true this

theorem maskRemove_land_right (m o : Nat) : maskRemove m o &&& o = 0 := by
  apply land_eq_zero_of
  intro i h
  rw [maskRemove_testBit] at h
  cases ho : o.testBit i
  · rfl
  · rw [ho] at h
    simp at h

theorem maskRemove_subset {m o : Nat} (i : Nat)
    (h : (maskRemove m o).testBit i = true) : m.testBit i = true := by
  rw [maskRemove_testBit] at h
  exact (Bool.and_eq_true _ _ |>.mp h).1

theorem maskRemove_land_zero {m o x : Nat} (h : m &&& x = 0) :
    maskRemove m o &&& x = 0 := by
  apply land_eq_zero_of
  intro i hi
  exact testBit_eq_false_of_land_eq_zero h i (maskRemove_subset i hi)

theorem maskRemove_le (m o : Nat) : maskRemove m o ≤ m :=
  Nat.sub_le _ _

/-- Bits at or above position 16 are clear in any value below 2^16. -/
theorem testBit_high_false {m i : Nat} (hm : m < 65536) (hi : 16 ≤ i) :
    m.testBit i = false := by
  apply Nat.testBit_eq_false_of_lt
  calc m < 65536 := hm
    _ = 2 ^ 16 := by norm_num
    _ ≤ 2 ^ i := Nat.pow_le_pow_right (by norm_num) hi

theorem popcnt_eq_zero_iff {m : Nat} (hm : m < 65536) : popcnt m = 0 ↔ m = 0 := by
  constructor
  · intro h
    apply Nat.eq_of_testBit_eq
    intro i
    rw [Nat.zero_testBit]
    rcases Nat.lt_or_ge i 16 with hi | hi
    · by_contra hb
      have hb' : m.testBit i = true := by
        cases h' : m.testBit i
        · exact absurd h' hb
        · rfl
      have : i ∈ (List.range 16).filter (fun j => m.testBit j) :=
        List.mem_filter.mpr ⟨List.mem_range.mpr hi, hb'⟩
      have hlen : 0 < ((List.range 16).filter (fun j => m.testBit j)).length :=
        List.length_pos.mpr (List.ne_nil_of_mem this)
      unfold popcnt at h
      omega
    · exact testBit_high_false hm hi
  · intro h
    subst h
    simp [popcnt, Nat.zero_testBit]

theorem popcnt_pos {m : Nat} (hm : m < 65536) (h : m ≠ 0) : 0 < popcnt m := by
  rcases Nat.eq_zero_or_pos (popcnt m) with h0 | h0
  · exact absurd ((popcnt_eq_zero_iff hm).mp h0) h
  · exact h0

/-- The lowest-bit digit of a nonzero 16-bit mask is a set bit of the mask. -/
theorem onePossibility_mem {m : Nat} (hm : m < 65536) (h : m ≠ 0) :
    m.testBit (onePossibility m - 1) = true := by
  have hex : ∃ x ∈ List.range 16, m.testBit x = true := by
    by_contra hno
    push_neg at hno
    apply h
    apply Nat.eq_of_testBit_eq
    intro i
    rw [Nat.zero_testBit]
    rcases Nat.lt_or_ge i 16 with hi | hi
    · have := hno i (List.mem_range.mpr hi)
      cases h' : m.testBit i
      · rfl
      · exact absurd h' this
    · exact testBit_high_false hm hi
  have hlt : (List.range 16).findIdx (fun i => m.testBit i) < (List.range 16).length :=
    List.findIdx_lt_length_of_exists hex
  have := @List.findIdx_getElem _ (fun i => m.testBit i) (List.range 16) hlt
  rw [List.getElem_range] at this
  unfold onePossibility
  simpa using this

/-- The lowest-bit digit of a nonzero 9-bit mask lies in 1..9. -/
theorem onePossibility_bounds {m : Nat} (hm : m ≤ 511) (h : m ≠ 0) :
    1 ≤ onePossibility m ∧ onePossibility m ≤ 9 := by
  refine ⟨Nat.le_add_left 1 _, ?_⟩
  have hmem := onePossibility_mem (by omega) h
  by_contra hgt
  push_neg at hgt
  have h9 : 9 ≤ onePossibility m - 1 := by omega
  have : m.testBit (onePossibility m - 1) = false := by
    apply Nat.testBit_eq_false_of_lt
    calc m ≤ 511 := hm
      _ < 2 ^ 9 := by norm_num
      _ ≤ 2 ^ (onePossibility m - 1) := Nat.pow_le_pow_right (by norm_num) h9
  rw [this] at hmem
  exact Bool.false_ne_true hmem

theorem uniqueNum_error_iff (m : Nat) : uniqueNum m = .error () ↔ m = 0 := by
  unfold uniqueNum
  constructor
  · intro h
    by_contra hm
    rw [if_neg hm] at h
    by_cases h1 : popcnt m = 1 <;> simp [h1] at h
  · intro h
    simp [h]

theorem uniqueNum_some {m num : Nat} (h : uniqueNum m = .ok (some num)) :
    m ≠ 0 ∧ popcnt m = 1 ∧ num = onePossibility m := by
  unfold uniqueNum at h
  by_cases h0 : m = 0
  · simp [h0] at h
  · rw [if_neg h0] at h
    by_cases h1 : popcnt m = 1
    · rw [if_pos h1] at h
      simp at h
      exact ⟨h0, h1, h.symm⟩
    · simp [h1] at h

/-- getD after set at the same (in-bounds) index. -/
theorem getD_set_self {α : Type} (l : List α) (i : Nat) (v d : α) (h : i < l.length) :
    (l.set i v).getD i d = v := by
  rw [List.getD_eq_getElem?_getD, List.getElem?_set_self (by omega)]
  rfl

/-- getD after set at a different index. -/
theorem getD_set_ne {α : Type} (l : List α) {i j : Nat} (v d : α) (h : i ≠ j) :
    (l.set i v).getD j d = l.getD j d := by
  rw [List.getD_eq_getElem?_getD, List.getElem?_set_ne h]
  rw [List.getD_eq_getElem?_getD]

/-- Counting over a range after flipping exactly one index from true to false. -/
theorem countP_range_point (f g : Nat → Bool) (n k : Nat) (hk : k < n)
    (hfk : f k = true) (hgk : g k = false) (h : ∀ i, i ≠ k → f i = g i) :
    (List.range n).countP g + 1 = (List.range n).countP f := by
  induction n with
  | zero => omega
  | succ n ih =>
      rw [List.range_succ, List.countP_append, List.countP_append]
      have hone : ∀ (p : Nat → Bool), List.countP p [n] = if p n = true then 1 else 0 := by
        intro p
        by_cases hp : p n <;> simp [List.countP_cons, hp]
      rw [hone, hone]
      rcases Nat.lt_or_ge k n with h1 | h1
      · have heq : f n = g n := h n (by omega)
        have hih := ih h1
        by_cases hfn : f n = true
        · rw [if_pos hfn, if_pos (heq ▸ hfn)]
          omega
        · rw [if_neg hfn, if_neg (fun hc => hfn (heq ▸ hc))]
          omega
      · have hkn : k = n := by omega
        subst hkn
        have hgf : (List.range k).countP f = (List.range k).countP g := by
          apply List.countP_congr
          intro x hx
          have hxk : x ≠ k := by
            have := List.mem_range.mp hx
            omega
          rw [h x hxk]
        rw [if_pos hfk, if_neg (by rw [hgk]; exact Bool.false_ne_true)]
        omega

/-- `SudokuSolver::remove_impossibilities`: delete the digits of `imp` from
the cell's mask; an emptied mask is a contradiction, a singleton pushes the
forced entry onto the stack. -/
def removeImposs (s : Solver) (cell : Nat) (imp : Nat) (stack : List Entry) :
    Except Unit (Solver × List Entry) :=
  match uniqueNum (maskRemove (s.mask cell) imp) with
  | .error _ => .error ()
  | .ok (some num) =>
      .ok ({ s with cellPoss := s.cellPoss.set cell (maskRemove (s.mask cell) imp) },
        (⟨cell, num⟩ : Entry) :: stack)
  | .ok none =>
      .ok ({ s with cellPoss := s.cellPoss.set cell (maskRemove (s.mask cell) imp) }, stack)

/-! ## Termination measures for the propagation loops -/

/-- Number of unsolved cells: cells whose candidate mask is nonempty. -/
def unsolvedCount (s : Solver) : Nat :=
  (List.range s.cellPoss.length).countP (fun c => !(s.cellPoss.getD c 0 == 0))

/-- Stack entries whose cell is already solved in the given state. -/
def solvedWeight (s : Solver) (st : List Entry) : Nat :=
  st.countP (fun e => s.cellPoss.getD e.cell 0 == 0)

/-- Elementary facts about a successful `remove_impossibilities` call. -/
theorem removeImposs_ok {s : Solver} {cell : Nat} {imp : Nat} {st : List Entry}
    {s' : Solver} {st' : List Entry}
    (h : removeImposs s cell imp st = .ok (s', st')) :
    s'.grid = s.grid ∧ s'.nSolved = s.nSolved ∧ s'.zoneSolved = s.zoneSolved ∧
    s'.lastCell = s.lastCell ∧
    s'.cellPoss = s.cellPoss.set cell (maskRemove (s.mask cell) imp) ∧
    maskRemove (s.mask cell) imp ≠ 0 ∧
    (st' = st ∨
      st' = (⟨cell, onePossibility (maskRemove (s.mask cell) imp)⟩ : Entry) :: st) := by
  unfold removeImposs at h
  rcases hu : uniqueNum (maskRemove (s.mask cell) imp) with hu' | ho
  · rw [hu] at h
    exact absurd h (by simp)
  · have hne : maskRemove (s.mask cell) imp ≠ 0 := by
      intro h0
      have := (uniqueNum_error_iff (maskRemove (s.mask cell) imp)).mpr h0
      rw [this] at hu
      exact absurd hu (by simp)
    rcases ho with _ | num
    · rw [hu] at h
      simp only [Except.ok.injEq, Prod.mk.injEq] at h
      exact ⟨by rw [← h.1], by rw [← h.1], by rw [← h.1], by rw [← h.1],
        by rw [← h.1], hne, Or.inl h.2.symm⟩
    · rw [hu] at h
      simp only [Except.ok.injEq, Prod.mk.injEq] at h
      have hnum := uniqueNum_some hu
      exact ⟨by rw [← h.1], by rw [← h.1], by rw [← h.1], by rw [← h.1],
        by rw [← h.1], hne, Or.inr (by rw [← h.2, hnum.2.2])⟩

/-- A successful removal never changes which cells are solved. -/
theorem removeImposs_mask_zero_iff {s : Solver} {cell : Nat} {imp : Nat}
    {st : List Entry} {s' : Solver} {st' : List Entry}
    (h : removeImposs s cell imp st = .ok (s', st')) :
    ∀ d, (s'.mask d = 0 ↔ s.mask d = 0) := by
  obtain ⟨-, -, -, -, hposs, hne, -⟩ := removeImposs_ok h
  intro d
  by_cases hd : cell = d
  · subst hd
    have hcl : cell < s.cellPoss.length := by
      by_contra hge
      push_neg at hge
      have : s.mask cell = 0 := by
        unfold Solver.mask
        rw [List.getD_eq_getElem?_getD, List.getElem?_eq_none (by omega)]
        rfl
      apply hne
      rw [this]
      unfold maskRemove
      simp
    have h1 : s'.mask cell = maskRemove (s.mask cell) imp := by
      unfold Solver.mask
      rw [hposs]
      exact getD_set_self _ _ _ _ hcl
    have h2 : s.mask cell ≠ 0 := by
      intro h0
      apply hne
      rw [h0]
      unfold maskRemove
      simp
    rw [h1]
    exact ⟨fun hx => absurd hx hne, fun hx => absurd hx h2⟩
  · unfold Solver.mask
    rw [hposs, getD_set_ne _ _ _ hd]

theorem removeImposs_length {s : Solver} {cell : Nat} {imp : Nat}
    {st : List Entry} {s' : Solver} {st' : List Entry}
    (h : removeImposs s cell imp st = .ok (s', st')) :
    s'.cellPoss.length = s.cellPoss.length := by
  obtain ⟨-, -, -, -, hposs, -, -⟩ := removeImposs_ok h
  rw [hposs, List.length_set]

/-- Two states with pointwise equally-solved cells have equal unsolved counts. -/
theorem unsolvedCount_congr {s s' : Solver}
    (hlen : s'.cellPoss.length = s.cellPoss.length)
    (h : ∀ d, (s'.mask d = 0 ↔ s.mask d = 0)) :
    unsolvedCount s' = unsolvedCount s := by
  unfold unsolvedCount
  rw [hlen]
  apply List.countP_congr
  intro c _
  have := h c
  unfold Solver.mask at this
  constructor
  · intro hx
    simp only [Bool.not_eq_true', beq_eq_false_iff_ne, ne_eq] at hx ⊢
    intro h0
    exact hx (this.mpr h0)
  · intro hx
    simp only [Bool.not_eq_true', beq_eq_false_iff_ne, ne_eq] at hx ⊢
    intro h0
    exact hx (this.mp h0)

theorem removeImposs_unsolved {s : Solver} {cell : Nat} {imp : Nat}
    {st : List Entry} {s' : Solver} {st' : List Entry}
    (h : removeImposs s cell imp st = .ok (s', st')) :
    unsolvedCount s' = unsolvedCount s :=
  unsolvedCount_congr (removeImposs_length h) (removeImposs_mask_zero_iff h)

/-- Committing an entry at an unsolved cell decreases the unsolved count. -/
theorem insertEntry_unsolved {s : Solver} {e : Entry} (h : s.mask e.cell ≠ 0) :
    unsolvedCount (insertEntry s e) + 1 = unsolvedCount s := by
  have hcl : e.cell < s.cellPoss.length := by
    by_contra hge
    push_neg at hge
    apply h
    unfold Solver.mask
    rw [List.getD_eq_getElem?_getD, List.getElem?_eq_none (by omega)]
    rfl
  unfold unsolvedCount insertEntry
  simp only [List.length_set]
  apply countP_range_point _ _ _ e.cell hcl
  · simp only [Bool.not_eq_true', beq_eq_false_iff_ne, ne_eq]
    unfold Solver.mask at h
    simpa using h
  · have hz : (s.cellPoss.set e.cell 0).getD e.cell 0 = 0 := getD_set_self _ _ _ _ hcl
    rw [List.getD_eq_getElem?_getD] at hz
    simp [hz]
  · intro i hi
    rw [getD_set_ne _ _ _ (fun hc => hi hc.symm)]

theorem insertEntry_length {s : Solver} {e : Entry} :
    (insertEntry s e).cellPoss.length = s.cellPoss.length := by
  simp [insertEntry]

/-- The eager neighbour loop of `insert_entries_singly`: for every neighbour
whose mask still contains the inserted digit, remove that digit (possibly
pushing forced singles, failing on an emptied mask). -/
def neighFold (s : Solver) (ns : List Nat) (em : Nat) (st : List Entry) :
    Except Unit (Solver × List Entry) :=
  match ns with
  | [] => .ok (s, st)
  | c :: cs =>
    if em &&& s.mask c ≠ 0 then
      match removeImposs s c em st with
      | .error _ => .error ()
      | .ok (s', st') => neighFold s' cs em st'
    else neighFold s cs em st

theorem neighFold_unsolved {ns : List Nat} {s : Solver} {em : Nat}
    {st : List Entry} {s' : Solver} {st' : List Entry}
    (h : neighFold s ns em st = .ok (s', st')) :
    unsolvedCount s' = unsolvedCount s ∧ s'.cellPoss.length = s.cellPoss.length := by
  induction ns generalizing s st with
  | nil =>
      unfold neighFold at h
      simp only [Except.ok.injEq, Prod.mk.injEq] at h
      rw [← h.1]
      exact ⟨rfl, rfl⟩
  | cons c cs ih =>
      unfold neighFold at h
      by_cases hc : em &&& s.mask c ≠ 0
      · rw [if_pos hc] at h
        rcases hr : removeImposs s c em st with _ | ⟨s1, st1⟩
        · rw [hr] at h
          exact absurd h (by simp)
        · rw [hr] at h
          have h1 := ih h
          have h2 := removeImposs_unsolved hr
          have h3 := removeImposs_length hr
          omega
      · rw [if_neg hc] at h
        exact ih h

/-- `SudokuSolver::insert_entries_singly`: pop entries one at a time (the list
head is the top of the Rust Vec); skip already-solved cells, fail when the
entry's digit is no longer possible, otherwise commit it and eagerly remove
the digit from the 20 neighbours; return early once the stack exceeds 4. -/
def insertEntriesSingly (s : Solver) (stack : List Entry) :
    Except Unit (Solver × List Entry) :=
  match stack with
  | [] => .ok (s, [])
  | e :: rest =>
    if hskip : s.mask e.cell = 0 then insertEntriesSingly s rest
    else if s.mask e.cell &&& e.emask = 0 then .error ()
    else
      match hnf : neighFold (insertEntry s e) (neighbours e.cell) e.emask rest with
      | .error _ => .error ()
      | .ok (s2, st2) =>
        if st2.length > 4 then .ok (s2, st2)
        else insertEntriesSingly s2 st2
termination_by (unsolvedCount s, stack.length)
decreasing_by
  · exact Prod.Lex.right _ (Nat.lt_succ_self _)
  · apply Prod.Lex.left
    have h1 := insertEntry_unsolved hskip
    have h2 := (neighFold_unsolved hnf).1
    omega

/-- The drain loop of `batch_insert_entries`, processing entries in Vec order
(first element first): skip already-solved cells, reject an entry whose digit
is already placed in its row, column or box zone, commit the rest.  Returns
the state reached together with the success flag (false = contradiction);
the caller `is_solved` reads `n_solved_cells` off this state even after a
failed drain, which is why the state is returned in both cases. -/
def batchDrainP (s : Solver) (entries : List Entry) : Solver × Bool :=
  match entries with
  | [] => (s, true)
  | e :: rest =>
    if s.mask e.cell = 0 then batchDrainP s rest
    else if s.zmask (rowZone e.cell) &&& e.emask ≠ 0 ∨
            s.zmask (colZone e.cell) &&& e.emask ≠ 0 ∨
            s.zmask (fieldZone e.cell) &&& e.emask ≠ 0 then (s, false)
    else batchDrainP (insertEntry s e) rest

/-- The recomputation loop of `batch_insert_entries`: every still-unsolved
cell's mask loses the union of its three zone masks, with the usual
classification (fail on empty, push forced singles). -/
def batchRecompute (s : Solver) (cells : List Nat) (stack : List Entry) :
    Except Unit (Solver × List Entry) :=
  match cells with
  | [] => .ok (s, stack)
  | c :: cs =>
    if s.mask c = 0 then batchRecompute s cs stack
    else
      match removeImposs s c (s.zonesMaskOf c) stack with
      | .error _ => .error ()
      | .ok (s', st') => batchRecompute s' cs st'

/-- `SudokuSolver::batch_insert_entries`: drain the whole stack with
zone-level validity checks, then recompute all unsolved cell masks. -/
def batchInsertEntries (s : Solver) (entries : List Entry) :
    Except Unit (Solver × List Entry) :=
  match batchDrainP s entries with
  | (_, false) => .error ()
  | (s1, true) => batchRecompute s1 (List.range 81) []

theorem batchDrain_mono {es : List Entry} {s s' : Solver} {b : Bool}
    (h : batchDrainP s es = (s', b)) :
    unsolvedCount s' ≤ unsolvedCount s ∧ s'.cellPoss.length = s.cellPoss.length := by
  induction es generalizing s with
  | nil =>
      unfold batchDrainP at h
      simp only [Prod.mk.injEq] at h
      rw [← h.1]
      exact ⟨Nat.le_refl _, rfl⟩
  | cons e rest ih =>
      unfold batchDrainP at h
      by_cases h0 : s.mask e.cell = 0
      · rw [if_pos h0] at h
        exact ih h
      · rw [if_neg h0] at h
        by_cases hz : s.zmask (rowZone e.cell) &&& e.emask ≠ 0 ∨
            s.zmask (colZone e.cell) &&& e.emask ≠ 0 ∨
            s.zmask (fieldZone e.cell) &&& e.emask ≠ 0
        · rw [if_pos hz] at h
          simp only [Prod.mk.injEq] at h
          rw [← h.1]
          exact ⟨Nat.le_refl _, rfl⟩
        · rw [if_neg hz] at h
          have h1 := ih h
          have h2 := insertEntry_unsolved h0
          have h3 := @insertEntry_length s e
          omega

/-- A completed drain either solved at least one new cell, or touched nothing
(every drained entry was for an already-solved cell). -/
theorem batchDrain_cases {es : List Entry} {s s' : Solver}
    (h : batchDrainP s es = (s', true)) :
    unsolvedCount s' < unsolvedCount s ∨
      (s' = s ∧ ∀ e ∈ es, s.mask e.cell = 0) := by
  induction es generalizing s with
  | nil =>
      unfold batchDrainP at h
      simp only [Prod.mk.injEq] at h
      exact Or.inr ⟨h.1.symm, by intro e he; exact absurd he (List.not_mem_nil e)⟩
  | cons e rest ih =>
      unfold batchDrainP at h
      by_cases h0 : s.mask e.cell = 0
      · rw [if_pos h0] at h
        rcases ih h with h1 | ⟨h1, h2⟩
        · exact Or.inl h1
        · refine Or.inr ⟨h1, ?_⟩
          intro e' he'
          rcases List.mem_cons.mp he' with he' | he'
          · rw [he']
            exact h0
          · exact h2 e' he'
      · rw [if_neg h0] at h
        by_cases hz : s.zmask (rowZone e.cell) &&& e.emask ≠ 0 ∨
            s.zmask (colZone e.cell) &&& e.emask ≠ 0 ∨
            s.zmask (fieldZone e.cell) &&& e.emask ≠ 0
        · rw [if_pos hz] at h
          simp at h
        · rw [if_neg hz] at h
          have h1 := batchDrain_mono h
          have h2 := insertEntry_unsolved h0
          exact Or.inl (by omega)

theorem batchRecompute_zero_iff {cells : List Nat} {s : Solver} {st : List Entry}
    {s' : Solver} {st' : List Entry}
    (h : batchRecompute s cells st = .ok (s', st')) :
    (∀ d, (s'.mask d = 0 ↔ s.mask d = 0)) ∧
      s'.cellPoss.length = s.cellPoss.length := by
  induction cells generalizing s st with
  | nil =>
      unfold batchRecompute at h
      simp only [Except.ok.injEq, Prod.mk.injEq] at h
      rw [← h.1]
      exact ⟨fun d => Iff.rfl, rfl⟩
  | cons c cs ih =>
      unfold batchRecompute at h
      by_cases h0 : s.mask c = 0
      · rw [if_pos h0] at h
        exact ih h
      · rw [if_neg h0] at h
        rcases hr : removeImposs s c (s.zonesMaskOf c) st with _ | ⟨s1, st1⟩
        · rw [hr] at h
          exact absurd h (by simp)
        · rw [hr] at h
          have h1 := ih h
          have h2 := removeImposs_mask_zero_iff hr
          have h3 := removeImposs_length hr
          exact ⟨fun d => (h1.1 d).trans (h2 d), by omega⟩

/-- Entries on the stack after recomputation are either inherited from the
accumulator or sit at a still-unsolved cell. -/
theorem batchRecompute_stack {cells : List Nat} {s : Solver} {st : List Entry}
    {s' : Solver} {st' : List Entry}
    (h : batchRecompute s cells st = .ok (s', st')) :
    ∀ e ∈ st', e ∈ st ∨ s'.mask e.cell ≠ 0 := by
  induction cells generalizing s st with
  | nil =>
      unfold batchRecompute at h
      simp only [Except.ok.injEq, Prod.mk.injEq] at h
      intro e he
      rw [← h.2] at he
      exact Or.inl he
  | cons c cs ih =>
      unfold batchRecompute at h
      by_cases h0 : s.mask c = 0
      · rw [if_pos h0] at h
        exact ih h
      · rw [if_neg h0] at h
        rcases hr : removeImposs s c (s.zonesMaskOf c) st with _ | ⟨s1, st1⟩
        · rw [hr] at h
          exact absurd h (by simp)
        · rw [hr] at h
          intro e he
          rcases ih h e he with h1 | h1
          · obtain ⟨-, -, -, -, hposs, hne, hst⟩ := removeImposs_ok hr
            rcases hst with hst | hst
            · rw [hst] at h1
              exact Or.inl h1
            · rw [hst] at h1
              rcases List.mem_cons.mp h1 with h1 | h1
              · refine Or.inr ?_
                rw [h1]
                have hmask1 : s1.mask c = maskRemove (s.mask c) (s.zonesMaskOf c) := by
                  unfold Solver.mask
                  rw [hposs]
                  apply getD_set_self
                  by_contra hge
                  push_neg at hge
                  apply h0
                  unfold Solver.mask
                  rw [List.getD_eq_getElem?_getD, List.getElem?_eq_none (by omega)]
                  rfl
                have hiff := ((batchRecompute_zero_iff h).1 c)
                simp only [ne_eq]
                intro hzero
                rw [hiff] at hzero
                rw [hmask1] at hzero
                exact hne hzero
              · exact Or.inl h1
          · exact Or.inr h1

theorem solvedWeight_cons (s : Solver) (e : Entry) (l : List Entry) :
    solvedWeight s (e :: l) =
      solvedWeight s l + (if s.mask e.cell = 0 then 1 else 0) := by
  unfold solvedWeight Solver.mask
  rw [List.countP_cons]
  by_cases h : s.cellPoss.getD e.cell 0 = 0 <;> simp [h]

theorem singly_nil (s : Solver) : insertEntriesSingly s [] = .ok (s, []) := by
  unfold insertEntriesSingly
  rfl

/-- A successful eager pass on a nonempty stack either solves a cell or
consists purely of skips of already-solved entries. -/
theorem singly_measure {s : Solver} {stack : List Entry} {s' : Solver} {st' : List Entry}
    (h : insertEntriesSingly s stack = .ok (s', st')) (hne : stack ≠ []) :
    unsolvedCount s' < unsolvedCount s ∨
      (s' = s ∧ solvedWeight s st' < solvedWeight s stack) := by
  induction s, stack using insertEntriesSingly.induct with
  | case1 s =>
      exact absurd rfl hne
  | case2 s e rest hskip ih =>
      rw [insertEntriesSingly] at h
      rw [dif_pos hskip] at h
      rcases List.eq_nil_or_concat rest with hrest | _
      · subst hrest
        rw [singly_nil] at h
        simp only [Except.ok.injEq, Prod.mk.injEq] at h
        refine Or.inr ⟨h.1.symm, ?_⟩
        rw [← h.2, solvedWeight_cons, if_pos hskip]
        unfold solvedWeight
        simp
      · have hrne : rest ≠ [] := by
          rename_i hx
          obtain ⟨l, a, hla⟩ := hx
          subst hla
          simp
        rcases ih h hrne with h1 | ⟨h1, h2⟩
        · exact Or.inl h1
        · refine Or.inr ⟨h1, ?_⟩
          rw [solvedWeight_cons, if_pos hskip]
          omega
  | case3 s e rest hskip himp =>
      rw [insertEntriesSingly] at h
      rw [dif_neg hskip, if_pos himp] at h
      exact absurd h (by simp)
  | case4 s e rest hskip himp u hequ =>
      rw [insertEntriesSingly] at h
      rw [dif_neg hskip, if_neg himp] at h
      split at h
      · exact absurd h (by simp)
      · rename_i s2 st2 heq
        rw [hequ] at heq
        exact absurd heq (by simp)
  | case5 s e rest hskip himp s2 st2 hnf hlen =>
      rw [insertEntriesSingly] at h
      rw [dif_neg hskip, if_neg himp] at h
      split at h
      · rename_i heq
        rw [hnf] at heq
        exact absurd heq (by simp)
      · rename_i s2' st2' heq
        rw [hnf] at heq
        simp only [Except.ok.injEq, Prod.mk.injEq] at heq
        obtain ⟨hs2, hst2⟩ := heq
        subst hs2
        subst hst2
        rw [if_pos hlen] at h
        simp only [Except.ok.injEq, Prod.mk.injEq] at h
        have h1 := insertEntry_unsolved hskip
        have h2 := (neighFold_unsolved hnf).1
        rw [← h.1]
        exact Or.inl (by omega)
  | case6 s e rest hskip himp s2 st2 hnf hlen ih =>
      rw [insertEntriesSingly] at h
      rw [dif_neg hskip, if_neg himp] at h
      split at h
      · rename_i heq
        rw [hnf] at heq
        exact absurd heq (by simp)
      · rename_i s2' st2' heq
        rw [hnf] at heq
        simp only [Except.ok.injEq, Prod.mk.injEq] at heq
        obtain ⟨hs2, hst2⟩ := heq
        subst hs2
        subst hst2
        rw [if_neg hlen] at h
        have h1 := insertEntry_unsolved hskip
        have h2 := (neighFold_unsolved hnf).1
        rcases List.eq_nil_or_concat st2 with hst2 | hcat
        · subst hst2
          rw [singly_nil] at h
          simp only [Except.ok.injEq, Prod.mk.injEq] at h
          rw [← h.1]
          exact Or.inl (by omega)
        · have hrne : st2 ≠ [] := by
            obtain ⟨l, a, hla⟩ := hcat
            subst hla
            simp
          rcases ih h hrne with h3 | ⟨h3, h4⟩
          · exact Or.inl (by omega)
          · rw [h3]
            exact Or.inl (by omega)

/-- A successful batch pass either solves a cell, or (when every drained
entry was already solved) leaves the solved-cell set unchanged while the
returned stack holds only unsolved-cell entries. -/
theorem batch_measure {es : List Entry} {s s' : Solver} {st' : List Entry}
    (h : batchInsertEntries s es = .ok (s', st')) :
    unsolvedCount s' < unsolvedCount s ∨
      (unsolvedCount s' = unsolvedCount s ∧ solvedWeight s' st' = 0 ∧
        ∀ e ∈ es, s.mask e.cell = 0) := by
  unfold batchInsertEntries at h
  rcases hd : batchDrainP s es with ⟨s1, b⟩
  rw [hd] at h
  cases b
  · exact absurd h (by simp)
  · have hrec : unsolvedCount s' = unsolvedCount s1 :=
      unsolvedCount_congr (batchRecompute_zero_iff h).2 (batchRecompute_zero_iff h).1
    rcases batchDrain_cases hd with h1 | ⟨h1, h2⟩
    · exact Or.inl (by omega)
    · subst h1
      refine Or.inr ⟨by omega, ?_, h2⟩
      rw [solvedWeight, List.countP_eq_zero]
      intro e he
      rcases batchRecompute_stack h e he with hmem | hmem
      · exact absurd hmem (List.not_mem_nil e)
      · unfold Solver.mask at hmem
        simpa using hmem

/-- `SudokuSolver::insert_entries`: loop until the stack is empty, dispatching
on its current size -- 1 to 4 entries propagate eagerly, 5 or more in batch. -/
def insertEntries (s : Solver) (stack : List Entry) : Except Unit Solver :=
  match stack with
  | [] => .ok s
  | e :: rest =>
    if (e :: rest).length ≤ 4 then
      match hs : insertEntriesSingly s (e :: rest) with
      | .error _ => .error ()
      | .ok (s', st') => insertEntries s' st'
    else
      match hb : batchInsertEntries s ((e :: rest).reverse) with
      | .error _ => .error ()
      | .ok (s', st') => insertEntries s' st'
termination_by (unsolvedCount s, solvedWeight s stack)
decreasing_by
  · rcases singly_measure hs (by simp) with h1 | ⟨h1, h2⟩
    · exact Prod.Lex.left _ _ h1
    · rw [h1]
      exact Prod.Lex.right _ h2
  · rcases batch_measure hb with h1 | ⟨h1, h2, h3⟩
    · exact Prod.Lex.left _ _ h1
    · rw [h1]
      apply Prod.Lex.right
      rw [h2]
      have he : s.mask e.cell = 0 := by
        apply h3
        simp
      rw [solvedWeight_cons, if_pos he]
      omega

/-! ## Kernel-evaluable form of the propagation loop

`insertEntriesSingly` and `insertEntries` recurse along a well-founded
measure, which the kernel cannot unfold on concrete inputs.  The `F`
functions below are the same recursions driven by a step counter, together
with agreement theorems at any sufficient budget; `insertEntriesRun`
instantiates the budget with a bound derived from the measure, giving a
definitionally-evaluating function provably equal to `insertEntries`. -/

theorem neighFold_stack_le {ns : List Nat} {s : Solver} {em : Nat}
    {st : List Entry} {s' : Solver} {st' : List Entry}
    (h : neighFold s ns em st = .ok (s', st')) :
    st'.length ≤ st.length + ns.length := by
  induction ns generalizing s st with
  | nil =>
      unfold neighFold at h
      simp only [Except.ok.injEq, Prod.mk.injEq] at h
      rw [← h.2]
      simp
  | cons c cs ih =>
      unfold neighFold at h
      by_cases hc : em &&& s.mask c ≠ 0
      · rw [if_pos hc] at h
        rcases hr : removeImposs s c em st with _ | ⟨s1, st1⟩
        · rw [hr] at h
          exact absurd h (by simp)
        · rw [hr] at h
          have h1 := ih h
          obtain ⟨-, -, -, -, -, -, hst⟩ := removeImposs_ok hr
          rcases hst with hst | hst <;> rw [hst] at h1 <;> simp at h1 ⊢ <;> omega
      · rw [if_neg hc] at h
        have h1 := ih h
        simp at h1 ⊢
        omega

theorem neighbours_length_le (c : Nat) : (neighbours c).length ≤ 81 := by
  unfold neighbours
  calc ((List.range 81).filter _).length ≤ (List.range 81).length :=
        List.length_filter_le _ _
    _ = 81 := by simp

/-- Unfolding equation for the eager pass at a committed entry. -/
theorem singly_cons_insert {s : Solver} {e : Entry} {rest : List Entry}
    (hskip : ¬s.mask e.cell = 0) (himp : ¬s.mask e.cell &&& e.emask = 0)
    {s2 : Solver} {st2 : List Entry}
    (hnf : neighFold (insertEntry s e) (neighbours e.cell) e.emask rest = .ok (s2, st2)) :
    insertEntriesSingly s (e :: rest) =
      if st2.length > 4 then .ok (s2, st2) else insertEntriesSingly s2 st2 := by
  rw [insertEntriesSingly]
  rw [dif_neg hskip, if_neg himp]
  split
  · rename_i heq
    rw [hnf] at heq
    exact absurd heq (by simp)
  · rename_i s2' st2' heq
    rw [hnf] at heq
    simp only [Except.ok.injEq, Prod.mk.injEq] at heq
    rw [heq.1, heq.2]

/-- Unfolding equation for the eager pass when neighbour propagation fails. -/
theorem singly_cons_err {s : Solver} {e : Entry} {rest : List Entry}
    (hskip : ¬s.mask e.cell = 0) (himp : ¬s.mask e.cell &&& e.emask = 0)
    {u : Unit}
    (hnf : neighFold (insertEntry s e) (neighbours e.cell) e.emask rest = .error u) :
    insertEntriesSingly s (e :: rest) = .error () := by
  rw [insertEntriesSingly]
  rw [dif_neg hskip, if_neg himp]
  split
  · rfl
  · rename_i s2' st2' heq
    rw [hnf] at heq
    exact absurd heq (by simp)

/-- Step-counted form of `insert_entries_singly` (one step per popped
entry); at budget 0 the remaining work is returned untouched. -/
def singlyF (fuel : Nat) (s : Solver) (stack : List Entry) :
    Except Unit (Solver × List Entry) :=
  match fuel, stack with
  | _, [] => .ok (s, [])
  | 0, stack => .ok (s, stack)
  | fuel + 1, e :: rest =>
    if s.mask e.cell = 0 then singlyF fuel s rest
    else if s.mask e.cell &&& e.emask = 0 then .error ()
    else
      match neighFold (insertEntry s e) (neighbours e.cell) e.emask rest with
      | .error _ => .error ()
      | .ok (s2, st2) =>
        if st2.length > 4 then .ok (s2, st2)
        else singlyF fuel s2 st2

/-- At any budget of at least `82 * unsolved + length + 1` steps, the
step-counted eager pass agrees with the recursive one. -/
theorem singlyF_agrees {s : Solver} {stack : List Entry} :
    ∀ fuel, 82 * unsolvedCount s + stack.length + 1 ≤ fuel →
      singlyF fuel s stack = insertEntriesSingly s stack := by
  induction s, stack using insertEntriesSingly.induct with
  | case1 s =>
      intro fuel hf
      rw [singly_nil]
      match fuel with
      | 0 => rfl
      | fuel + 1 => rfl
  | case2 s e rest hskip ih =>
      intro fuel hf
      match fuel, hf with
      | fuel + 1, hf =>
        rw [insertEntriesSingly]
        rw [dif_pos hskip]
        unfold singlyF
        rw [if_pos hskip]
        apply ih
        simp at hf ⊢
        omega
  | case3 s e rest hskip himp =>
      intro fuel hf
      match fuel, hf with
      | fuel + 1, hf =>
        rw [insertEntriesSingly]
        rw [dif_neg hskip, if_pos himp]
        unfold singlyF
        rw [if_neg hskip, if_pos himp]
  | case4 s e rest hskip himp u hequ =>
      intro fuel hf
      match fuel, hf with
      | fuel + 1, hf =>
        rw [singly_cons_err hskip himp hequ]
        unfold singlyF
        rw [if_neg hskip, if_neg himp]
        split
        · rfl
        · rename_i a b heq
          rw [hequ] at heq
          exact absurd heq (by simp)
  | case5 s e rest hskip himp s2 st2 hnf hlen =>
      intro fuel hf
      match fuel, hf with
      | fuel + 1, hf =>
        rw [singly_cons_insert hskip himp hnf, if_pos hlen]
        unfold singlyF
        rw [if_neg hskip, if_neg himp]
        split
        · rename_i heq
          rw [hnf] at heq
          exact absurd heq (by simp)
        · rename_i a b heq
          rw [hnf] at heq
          simp only [Except.ok.injEq, Prod.mk.injEq] at heq
          obtain ⟨ha, hb⟩ := heq
          subst ha
          subst hb
          rw [if_pos hlen]
  | case6 s e rest hskip himp s2 st2 hnf hlen ih =>
      intro fuel hf
      match fuel, hf with
      | fuel + 1, hf =>
        rw [singly_cons_insert hskip himp hnf, if_neg hlen]
        unfold singlyF
        rw [if_neg hskip, if_neg himp]
        split
        · rename_i heq
          rw [hnf] at heq
          exact absurd heq (by simp)
        · rename_i a b heq
          rw [hnf] at heq
          simp only [Except.ok.injEq, Prod.mk.injEq] at heq
          obtain ⟨ha, hb⟩ := heq
          subst ha
          subst hb
          rw [if_neg hlen]
          apply ih
          have h1 := insertEntry_unsolved hskip
          have h2 := (neighFold_unsolved hnf).1
          have h3 := neighFold_stack_le hnf
          have h4 := neighbours_length_le e.cell
          simp at hf
          omega

/-- A successful eager pass either empties the stack or stops right after
the push that grew it past 4 entries. -/
theorem singly_stack_le {s : Solver} {stack : List Entry} {s' : Solver}
    {st' : List Entry} (h : insertEntriesSingly s stack = .ok (s', st')) :
    st'.length ≤ max (stack.length + 81) 85 := by
  induction s, stack using insertEntriesSingly.induct with
  | case1 s =>
      rw [singly_nil] at h
      simp only [Except.ok.injEq, Prod.mk.injEq] at h
      rw [← h.2]
      simp
  | case2 s e rest hskip ih =>
      rw [insertEntriesSingly] at h
      rw [dif_pos hskip] at h
      have h1 := ih h
      simp at h1 ⊢
      omega
  | case3 s e rest hskip himp =>
      rw [insertEntriesSingly] at h
      rw [dif_neg hskip, if_pos himp] at h
      exact absurd h (by simp)
  | case4 s e rest hskip himp u hequ =>
      rw [insertEntriesSingly] at h
      rw [dif_neg hskip, if_neg himp] at h
      split at h
      · exact absurd h (by simp)
      · rename_i s2 st2 heq
        rw [hequ] at heq
        exact absurd heq (by simp)
  | case5 s e rest hskip himp s2 st2 hnf hlen =>
      rw [insertEntriesSingly] at h
      rw [dif_neg hskip, if_neg himp] at h
      split at h
      · rename_i heq
        rw [hnf] at heq
        exact absurd heq (by simp)
      · rename_i s2' st2' heq
        rw [hnf] at heq
        simp only [Except.ok.injEq, Prod.mk.injEq] at heq
        obtain ⟨hs2, hst2⟩ := heq
        subst hs2
        subst hst2
        rw [if_pos hlen] at h
        simp only [Except.ok.injEq, Prod.mk.injEq] at h
        have h1 := neighFold_stack_le hnf
        have h4 := neighbours_length_le e.cell
        rw [← h.2]
        simp at h1 ⊢
        omega
  | case6 s e rest hskip himp s2 st2 hnf hlen ih =>
      rw [insertEntriesSingly] at h
      rw [dif_neg hskip, if_neg himp] at h
      split at h
      · rename_i heq
        rw [hnf] at heq
        exact absurd heq (by simp)
      · rename_i s2' st2' heq
        rw [hnf] at heq
        simp only [Except.ok.injEq, Prod.mk.injEq] at heq
        obtain ⟨hs2, hst2⟩ := heq
        subst hs2
        subst hst2
        rw [if_neg hlen] at h
        have h1 := ih h
        simp at hlen
        omega

/-- Executable instantiation of the eager pass at a sufficient budget. -/
def singlyRun (s : Solver) (stack : List Entry) : Except Unit (Solver × List Entry) :=
  singlyF (82 * unsolvedCount s + stack.length + 1) s stack

theorem singlyRun_eq (s : Solver) (stack : List Entry) :
    singlyRun s stack = insertEntriesSingly s stack :=
  singlyF_agrees _ (Nat.le_refl _)

theorem batchRecompute_stack_le {cells : List Nat} {s : Solver} {st : List Entry}
    {s' : Solver} {st' : List Entry}
    (h : batchRecompute s cells st = .ok (s', st')) :
    st'.length ≤ st.length + cells.length := by
  induction cells generalizing s st with
  | nil =>
      unfold batchRecompute at h
      simp only [Except.ok.injEq, Prod.mk.injEq] at h
      rw [← h.2]
      simp
  | cons c cs ih =>
      unfold batchRecompute at h
      by_cases h0 : s.mask c = 0
      · rw [if_pos h0] at h
        have := ih h
        simp at this ⊢
        omega
      · rw [if_neg h0] at h
        rcases hr : removeImposs s c (s.zonesMaskOf c) st with _ | ⟨s1, st1⟩
        · rw [hr] at h
          exact absurd h (by simp)
        · rw [hr] at h
          have h1 := ih h
          obtain ⟨-, -, -, -, -, -, hst⟩ := removeImposs_ok hr
          rcases hst with hst | hst <;> rw [hst] at h1 <;> simp at h1 ⊢ <;> omega

theorem batch_stack_le {es : List Entry} {s s' : Solver} {st' : List Entry}
    (h : batchInsertEntries s es = .ok (s', st')) : st'.length ≤ 81 := by
  unfold batchInsertEntries at h
  rcases hd : batchDrainP s es with ⟨s1, b⟩
  rw [hd] at h
  cases b
  · exact absurd h (by simp)
  · have := batchRecompute_stack_le h
    simpa using this

/-- Unfolding equations for `insertEntries` on a nonempty stack. -/
theorem insertEntries_singly_err {s : Solver} {e : Entry} {rest : List Entry}
    (hlen : (e :: rest).length ≤ 4) {u : Unit}
    (hs : insertEntriesSingly s (e :: rest) = .error u) :
    insertEntries s (e :: rest) = .error () := by
  rw [insertEntries]
  rw [if_pos hlen]
  split
  · rfl
  · rename_i s2 st2 heq
    rw [hs] at heq
    exact absurd heq (by simp)

theorem insertEntries_singly_ok {s : Solver} {e : Entry} {rest : List Entry}
    (hlen : (e :: rest).length ≤ 4) {s' : Solver} {st' : List Entry}
    (hs : insertEntriesSingly s (e :: rest) = .ok (s', st')) :
    insertEntries s (e :: rest) = insertEntries s' st' := by
  rw [insertEntries]
  rw [if_pos hlen]
  split
  · rename_i heq
    rw [hs] at heq
    exact absurd heq (by simp)
  · rename_i s2 st2 heq
    rw [hs] at heq
    simp only [Except.ok.injEq, Prod.mk.injEq] at heq
    rw [heq.1, heq.2]

theorem insertEntries_batch_err {s : Solver} {e : Entry} {rest : List Entry}
    (hlen : ¬(e :: rest).length ≤ 4) {u : Unit}
    (hb : batchInsertEntries s ((e :: rest).reverse) = .error u) :
    insertEntries s (e :: rest) = .error () := by
  rw [insertEntries]
  rw [if_neg hlen]
  split
  · rfl
  · rename_i s2 st2 heq
    rw [hb] at heq
    exact absurd heq (by simp)

theorem insertEntries_batch_ok {s : Solver} {e : Entry} {rest : List Entry}
    (hlen : ¬(e :: rest).length ≤ 4) {s' : Solver} {st' : List Entry}
    (hb : batchInsertEntries s ((e :: rest).reverse) = .ok (s', st')) :
    insertEntries s (e :: rest) = insertEntries s' st' := by
  rw [insertEntries]
  rw [if_neg hlen]
  split
  · rename_i heq
    rw [hb] at heq
    exact absurd heq (by simp)
  · rename_i s2 st2 heq
    rw [hb] at heq
    simp only [Except.ok.injEq, Prod.mk.injEq] at heq
    rw [heq.1, heq.2]

theorem insertEntries_nil (s : Solver) : insertEntries s [] = .ok s := by
  rw [insertEntries]

/-- Step-counted form of `insert_entries` (one step per dispatch). -/
def insertEntriesF (fuel : Nat) (s : Solver) (stack : List Entry) :
    Except Unit Solver :=
  match fuel, stack with
  | _, [] => .ok s
  | 0, _ :: _ => .ok s
  | fuel + 1, e :: rest =>
    if (e :: rest).length ≤ 4 then
      match singlyRun s (e :: rest) with
      | .error _ => .error ()
      | .ok (s', st') => insertEntriesF fuel s' st'
    else
      match batchInsertEntries s ((e :: rest).reverse) with
      | .error _ => .error ()
      | .ok (s', st') => insertEntriesF fuel s' st'

/-- At any budget of at least `100 * unsolved + solved-weight + 1`
dispatches, the step-counted loop agrees with the recursive one. -/
theorem insertEntriesF_agrees {s : Solver} {stack : List Entry} :
    ∀ fuel, 100 * unsolvedCount s + solvedWeight s stack + 1 ≤ fuel →
      insertEntriesF fuel s stack = insertEntries s stack := by
  induction s, stack using insertEntries.induct with
  | case1 s =>
      intro fuel hf
      rw [insertEntries_nil]
      match fuel with
      | 0 => rfl
      | fuel + 1 => rfl
  | case2 s e rest hlen u hequ =>
      intro fuel hf
      match fuel, hf with
      | fuel + 1, hf =>
        rw [insertEntries_singly_err hlen hequ]
        unfold insertEntriesF
        rw [if_pos hlen, singlyRun_eq, hequ]
  | case3 s e rest hlen s' st' hs ih =>
      intro fuel hf
      match fuel, hf with
      | fuel + 1, hf =>
        rw [insertEntries_singly_ok hlen hs]
        unfold insertEntriesF
        rw [if_pos hlen, singlyRun_eq]
        split
        · rename_i heq
          rw [hs] at heq
          exact absurd heq (by simp)
        · rename_i a b heq
          rw [hs] at heq
          simp only [Except.ok.injEq, Prod.mk.injEq] at heq
          obtain ⟨ha, hb⟩ := heq
          subst ha
          subst hb
          apply ih
          have hst := singly_stack_le hs
          have hwle : solvedWeight s' st' ≤ st'.length := List.countP_le_length _
          have hlen' : (e :: rest).length ≤ 4 := hlen
          rcases singly_measure hs (by simp) with h1 | ⟨h1, h2⟩
          · simp at hst hlen'
            omega
          · subst h1
            omega
  | case4 s e rest hlen u hequ =>
      intro fuel hf
      match fuel, hf with
      | fuel + 1, hf =>
        rw [insertEntries_batch_err hlen hequ]
        unfold insertEntriesF
        rw [if_neg hlen, hequ]
  | case5 s e rest hlen s' st' hb ih =>
      intro fuel hf
      match fuel, hf with
      | fuel + 1, hf =>
        rw [insertEntries_batch_ok hlen hb]
        unfold insertEntriesF
        rw [if_neg hlen]
        split
        · rename_i heq
          rw [hb] at heq
          exact absurd heq (by simp)
        · rename_i a b heq
          rw [hb] at heq
          simp only [Except.ok.injEq, Prod.mk.injEq] at heq
          obtain ⟨ha, hb'⟩ := heq
          subst ha
          subst hb'
          apply ih
          have hst := batch_stack_le hb
          have hwle : solvedWeight s' st' ≤ st'.length := List.countP_le_length _
          rcases batch_measure hb with h1 | ⟨h1, h2, h3⟩
          · omega
          · have he : s.mask e.cell = 0 := by
              apply h3
              simp
            have hw : 1 ≤ solvedWeight s (e :: rest) := by
              rw [solvedWeight_cons, if_pos he]
              omega
            omega

/-- `insert_entries`, in the form the kernel can evaluate: the recursive
loop driven by a provably sufficient step budget. -/
def insertEntriesRun (s : Solver) (stack : List Entry) : Except Unit Solver :=
  insertEntriesF (100 * unsolvedCount s + solvedWeight s stack + 1) s stack

theorem insertEntriesRun_eq (s : Solver) (stack : List Entry) :
    insertEntriesRun s stack = insertEntries s stack :=
  insertEntriesF_agrees _ (Nat.le_refl _)

/-! ## Hidden singles, guess selection, and the search drivers -/

/-- The zone scan of `find_hidden_singles`: union of unsolved candidate
masks, and set of digits possible in two or more cells (`multiple_unsolved`
is updated with the pre-update union, as in the source). -/
def hsScan (s : Solver) (cells : List Nat) (unsolved multiple : Nat) : Nat × Nat :=
  match cells with
  | [] => (unsolved, multiple)
  | c :: cs => hsScan s cs (unsolved ||| s.mask c) (multiple ||| (unsolved &&& s.mask c))

/-- The assignment pass of `find_hidden_singles` on the chosen zone: a cell
whose mask meets the remaining singles in exactly one digit gets that digit
pushed, and the digit leaves the singles set; meeting several singles is a
contradiction; the source's early return once the set empties is observably
the same as finishing the scan (every later intersection is then empty). -/
def hsAssign (s : Solver) (cells : List Nat) (singles : Nat) (stack : List Entry) :
    Except Unit (List Entry) :=
  match cells with
  | [] => .ok stack
  | c :: cs =>
    match uniqueNum (s.mask c &&& singles) with
    | .error _ => hsAssign s cs singles stack
    | .ok none => .error ()
    | .ok (some num) =>
        hsAssign s cs (maskRemove singles (1 <<< (num - 1))) ((⟨c, num⟩ : Entry) :: stack)

/-- `SudokuSolver::find_hidden_singles`: walk the zones in order (rows,
columns, boxes); fail when (unsolved union ∪ zone solved mask) misses a
digit; resolve the first zone exhibiting hidden singles and stop.  At its
call sites the work stack is empty, so the forced entries are returned as a
fresh list. -/
def findHiddenSingles (s : Solver) (zones : List Nat) : Except Unit (List Entry) :=
  match zones with
  | [] => .ok []
  | z :: zs =>
    if (hsScan s (cellsOfZone z) 0 0).1 ||| s.zmask z ≠ maskALL then .error ()
    else
      if maskRemove (hsScan s (cellsOfZone z) 0 0).1 (hsScan s (cellsOfZone z) 0 0).2 = 0 then
        findHiddenSingles s zs
      else
        hsAssign s (cellsOfZone z)
          (maskRemove (hsScan s (cellsOfZone z) 0 0).1 (hsScan s (cellsOfZone z) 0 0).2) []

/-- The scan loop of `find_cell_min_poss` along the rotated cell order:
track the minimum positive candidate count and its cell, stop early on a
2-candidate cell; `cur` is the last examined cell (the new cursor). -/
def fcmAux (s : Solver) (cells : List Nat) (minP best cur : Nat) : Nat × Nat :=
  match cells with
  | [] => (best, cur)
  | c :: cs =>
    if 0 < popcnt (s.mask c) ∧ popcnt (s.mask c) < minP then
      if popcnt (s.mask c) = 2 then (c, c)
      else fcmAux s cs (popcnt (s.mask c)) c c
    else fcmAux s cs minP best c

/-- `SudokuSolver::find_cell_min_poss`: round-robin scan of all 81 cells
starting just after the remembered cursor; returns (best cell, new cursor).
An all-masks-empty state returns the out-of-range marker 100 (the Rust
index panic), unreachable from real searches. -/
def findCellMinPoss (s : Solver) : Nat × Nat :=
  fcmAux s ((List.range 81).map (fun i => (s.lastCell + 1 + i) % 81)) 10 100 s.lastCell

/-- `SudokuSolver::find_good_guess`: pick the scan's best cell and its
lowest candidate digit; the cursor update is returned as a new state. -/
def findGoodGuess (s : Solver) : Solver × Entry :=
  ({ s with lastCell := (findCellMinPoss s).2 },
    ⟨(findCellMinPoss s).1, onePossibility (s.mask (findCellMinPoss s).1)⟩)

/-- `SudokuSolver::find_good_random_guess`: same cell choice, digit drawn
uniformly among the cell's candidates; `r` models the `gen_range` draw. -/
def findGoodRandomGuess (s : Solver) (r : Nat) : Solver × Entry :=
  ({ s with lastCell := (findCellMinPoss s).2 },
    ⟨(findCellMinPoss s).1,
      (maskDigits (s.mask (findCellMinPoss s).1)).getD
        (r % popcnt (s.mask (findCellMinPoss s).1)) 0⟩)

/-- `SudokuSolver::_solve_at_most`, with an explicit step budget (`fuel`,
spent once per loop iteration and once per recursive branch; `none` =
budget exhausted) and, in the second component, the depth of guess
recursion actually used by the call. -/
def goSolve (fuel : Nat) (limit : Nat) (s : Solver) (stack : List Entry)
    (sols : List Grid) : Option (List Grid × Nat) :=
  match fuel with
  | 0 => none
  | fuel + 1 =>
    match insertEntriesRun s stack with
    | .error _ => some (sols, 0)
    | .ok s1 =>
      if s1.nSolved = 81 then some (sols ++ [s1.grid], 0)
      else
        match findHiddenSingles s1 (List.range 27) with
        | .error _ => some (sols, 0)
        | .ok st1 =>
          match st1 with
          | _ :: _ => goSolve fuel limit s1 st1 sols
          | [] =>
            match goSolve fuel limit (findGoodGuess s1).1 [(findGoodGuess s1).2] sols with
            | none => none
            | some (sols1, dchild) =>
              if sols1.length = limit then some (sols1, dchild + 1)
              else
                match removeImposs (findGoodGuess s1).1 (findGoodGuess s1).2.cell
                    (findGoodGuess s1).2.emask [] with
                | .error _ => some (sols1, dchild + 1)
                | .ok (s3, st3) =>
                  match goSolve fuel limit s3 st3 sols1 with
                  | none => none
                  | some (sols2, drest) => some (sols2, max (dchild + 1) drest)

/-- `SudokuSolver::_randomized_solve_one`: same skeleton, random digit
choice, stopping at the first solution; threads the random stream. -/
def goRandom (fuel : Nat) (rng : List Nat) (s : Solver) (stack : List Entry) :
    Option (Except Unit Grid × List Nat) :=
  match fuel with
  | 0 => none
  | fuel + 1 =>
    match insertEntriesRun s stack with
    | .error _ => some (.error (), rng)
    | .ok s1 =>
      if s1.nSolved = 81 then some (.ok s1.grid, rng)
      else
        match findHiddenSingles s1 (List.range 27) with
        | .error _ => some (.error (), rng)
        | .ok st1 =>
          match st1 with
          | _ :: _ => goRandom fuel rng s1 st1
          | [] =>
            match goRandom fuel rng.tail (findGoodRandomGuess s1 (rng.headD 0)).1
                [(findGoodRandomGuess s1 (rng.headD 0)).2] with
            | none => none
            | some (.ok g, rng2) => some (.ok g, rng2)
            | some (.error _, rng2) =>
              match removeImposs (findGoodRandomGuess s1 (rng.headD 0)).1
                  (findGoodRandomGuess s1 (rng.headD 0)).2.cell
                  (findGoodRandomGuess s1 (rng.headD 0)).2.emask [] with
              | .error _ => some (.error (), rng2)
              | .ok (s3, st3) => goRandom fuel rng2 s3 st3

/-! ## Public interface (`impl Sudoku`) -/

/-- Step budget covering every search (the sufficiency theorem below shows
2*(unsolved cells + total candidate bits) + 1 ≤ 1621 steps always suffice). -/
def driverFuel : Nat := 2000

/-- `SudokuSolver::stack_from_sudoku`: one entry per clue, in cell order
(the list head is the top of the stack, hence the reversal). -/
def stackFromSudoku (g : Grid) : List Entry :=
  ((List.range 81).filterMap
    (fun c => if g.getD c 0 = 0 then none else some (⟨c, g.getD c 0⟩ : Entry))).reverse

/-- `Sudoku::solve_at_most`. -/
def Sudoku.solveAtMost (g : Grid) (limit : Nat) : List Grid :=
  match goSolve driverFuel limit Solver.new (stackFromSudoku g) [] with
  | some (sols, _) => sols
  | none => []

/-- `Sudoku::solve_one`. -/
def Sudoku.solveOne (g : Grid) : Option Grid :=
  (Sudoku.solveAtMost g 1).head?

/-- `Sudoku::solve` (in-place completion, modeled as returning the new grid
alongside the success flag). -/
def Sudoku.solve (g : Grid) : Bool × Grid :=
  match Sudoku.solveOne g with
  | some sol => (true, sol)
  | none => (false, g)

/-- The clue count of `Sudoku::solve_unique` (`n_clues`). -/
def nClues (g : Grid) : Nat :=
  (List.range 81).countP (fun c => !(g.getD c 0 == 0))

/-- The clue digit bitmask of `Sudoku::solve_unique` (`nums_contained`,
bit `num` -- not `num - 1` -- per clue digit `num`). -/
def numsContained (g : Grid) : Nat :=
  (List.range 81).foldl
    (fun acc c => if g.getD c 0 = 0 then acc else acc ||| (1 <<< g.getD c 0)) 0

/-- `Sudoku::solve_unique`. -/
def Sudoku.solveUnique (g : Grid) : Option Grid :=
  if nClues g < 17 ∨ popcnt (numsContained g) < 8 then none
  else
    if (Sudoku.solveAtMost g 2).length = 1 then (Sudoku.solveAtMost g 2).head? else none

/-- The clue entries of a grid in ascending cell order (the Vec built by
`Sudoku::is_solved`, drained front first). -/
def gridEntriesAsc (g : Grid) : List Entry :=
  (List.range 81).filterMap
    (fun c => if g.getD c 0 = 0 then none else some (⟨c, g.getD c 0⟩ : Entry))

/-- `Sudoku::is_solved`: batch-insert all clues into a fresh solver, then
test `n_solved_cells == 81`.  The recomputation pass of
`batch_insert_entries` never touches `n_solved_cells`, so the check reads
exactly the drain state (also when the batch fails midway). -/
def Sudoku.isSolved (g : Grid) : Bool :=
  (batchDrainP Solver.new (gridEntriesAsc g)).1.nSolved == 81

/-- `Sudoku::from_bytes`: accept iff all values are at most 9. -/
def Sudoku.fromBytes (bytes : List Nat) : Option Grid :=
  if bytes.all (fun b => b ≤ 9) then some bytes else none

/-- `Sudoku::to_bytes`. -/
def Sudoku.toBytes (g : Grid) : List Nat := g

/-- The first-row seed of `Sudoku::generate_filled`: entries (0, perm[0]),
..., (8, perm[8]) pushed in order. -/
def seedStack (perm : List Nat) : List Entry :=
  (((List.range 9).zip perm).map (fun p => (⟨p.1, p.2⟩ : Entry))).reverse

/-- `Sudoku::generate_filled`, the randomness made explicit: `perm` models
the shuffled first row, `rng` the stream of `gen_range` draws; the Rust
`.unwrap()` cannot fail there, so an Err (or exhausted budget) is `none`. -/
def generateFilled (perm : List Nat) (rng : List Nat) : Option Grid :=
  match goRandom driverFuel rng Solver.new (seedStack perm) with
  | some (.ok g, _) => some g
  | _ => none

/-! ## Zone topology facts -/

theorem rowZone_lt {c : Nat} (h : c < 81) : rowZone c < 9 := by
  unfold rowZone rowOf
  omega

theorem colZone_bounds (c : Nat) : 9 ≤ colZone c ∧ colZone c < 18 := by
  unfold colZone colOf
  omega

theorem fieldZone_bounds {c : Nat} (h : c < 81) : 18 ≤ fieldZone c ∧ fieldZone c < 27 := by
  unfold fieldZone fieldOf rowOf colOf
  omega

theorem mem_cellsOfZone {c z : Nat} :
    c ∈ cellsOfZone z ↔ c < 81 ∧ (rowZone c = z ∨ colZone c = z ∨ fieldZone c = z) := by
  unfold cellsOfZone
  rw [List.mem_filter, List.mem_range]
  constructor
  · rintro ⟨h1, h2⟩
    refine ⟨h1, ?_⟩
    simp only [Bool.or_eq_true, beq_iff_eq] at h2
    tauto
  · rintro ⟨h1, h2⟩
    refine ⟨h1, ?_⟩
    simp only [Bool.or_eq_true, beq_iff_eq]
    tauto

theorem mem_neighbours {j c : Nat} :
    j ∈ neighbours c ↔ j < 81 ∧ j ≠ c ∧
      (rowOf j = rowOf c ∨ colOf j = colOf c ∨ fieldOf j = fieldOf c) := by
  unfold neighbours sameZoneB
  rw [List.mem_filter, List.mem_range]
  constructor
  · rintro ⟨h1, h2⟩
    simp only [Bool.and_eq_true, bne_iff_ne, ne_eq, Bool.or_eq_true, beq_iff_eq] at h2
    tauto
  · rintro ⟨h1, h2, h3⟩
    refine ⟨h1, ?_⟩
    simp only [Bool.and_eq_true, bne_iff_ne, ne_eq, Bool.or_eq_true, beq_iff_eq]
    tauto

theorem cellsOfZone_nodup (z : Nat) : (cellsOfZone z).Nodup :=
  (List.nodup_range 81).filter _

/-- Cells sharing a zone id share the corresponding row/column/box. -/
theorem sameZone_of_zone_eq {i j : Nat} (hi : i < 81) (hj : j < 81)
    (h : rowZone i = rowZone j ∨ colZone i = colZone j ∨ fieldZone i = fieldZone j) :
    rowOf i = rowOf j ∨ colOf i = colOf j ∨ fieldOf i = fieldOf j := by
  unfold rowZone colZone fieldZone at h
  rcases h with h | h | h
  · exact Or.inl h
  · exact Or.inr (Or.inl (by omega))
  · exact Or.inr (Or.inr (by omega))

/-- The three zone ids of distinct same-typed cells differ unless the cells
share that zone; zone ids of different types never collide (for cells
below 81 the three id ranges 0-8, 9-17, 18-26 are disjoint). -/
theorem not_sameZone_zones_ne {c cell : Nat} (hc : c < 81) (hcell : cell < 81)
    (h : ¬(rowOf c = rowOf cell ∨ colOf c = colOf cell ∨ fieldOf c = fieldOf cell)) :
    (rowZone c ≠ rowZone cell ∧ rowZone c ≠ colZone cell ∧ rowZone c ≠ fieldZone cell) ∧
    (colZone c ≠ rowZone cell ∧ colZone c ≠ colZone cell ∧ colZone c ≠ fieldZone cell) ∧
    (fieldZone c ≠ rowZone cell ∧ fieldZone c ≠ colZone cell ∧ fieldZone c ≠ fieldZone cell) := by
  push_neg at h
  obtain ⟨h1, h2, h3⟩ := h
  have hr1 := rowZone_lt hc
  have hr2 := rowZone_lt hcell
  have hc1 := colZone_bounds c
  have hc2 := colZone_bounds cell
  have hf1 := fieldZone_bounds hc
  have hf2 := fieldZone_bounds hcell
  unfold rowZone colZone fieldZone at *
  refine ⟨⟨?_, by omega, by omega⟩, ⟨by omega, ?_, by omega⟩, ⟨by omega, by omega, ?_⟩⟩
  · exact h1
  · intro hx
    exact h2 (by omega)
  · intro hx
    exact h3 (by omega)

/-- An entry's digit mask has exactly the bit `num - 1`. -/
theorem emask_testBit (e : Entry) (i : Nat) :
    e.emask.testBit i = decide (i = e.num - 1) := by
  unfold Entry.emask
  rw [Nat.one_shiftLeft, Nat.testBit_two_pow]
  simp [eq_comm]

theorem land_single_bit_ne_zero {x : Nat} {k : Nat} :
    x &&& (1 <<< k) ≠ 0 ↔ x.testBit k = true := by
  rw [Nat.one_shiftLeft]
  constructor
  · intro h
    by_contra hb
    apply h
    apply land_eq_zero_of
    intro i hi
    rw [Nat.testBit_two_pow]
    by_cases hik : k = i
    · subst hik
      exact absurd hi (by simp [hb])
    · simp [hik]
  · intro h h0
    have := testBit_eq_false_of_land_eq_zero h0 k h
    rw [Nat.testBit_two_pow] at this
    simp at this

/-! ## The solver-state invariant -/

/-- The digit mask a cell contributes to its zones (0 when empty). -/
def contrib (g : Grid) (c : Nat) : Nat :=
  if g.getD c 0 = 0 then 0 else 1 <<< (g.getD c 0 - 1)

/-- The union of the digit masks placed in a zone. -/
def zoneUnion (g : Grid) (z : Nat) : Nat :=
  (cellsOfZone z).foldr (fun c acc => contrib g c ||| acc) 0

/-- Two cells constrain each other (share a row, column or box). -/
def inSameZone (i j : Nat) : Prop :=
  rowOf i = rowOf j ∨ colOf i = colOf j ∨ fieldOf i = fieldOf j

instance (i j : Nat) : Decidable (inSameZone i j) := by
  unfold inSameZone
  infer_instance

/-- The solver-state invariant: list shapes, the mask/placement duality
(a cell's candidate mask is empty exactly when the cell is filled), digit
and mask ranges, zone masks tracking exactly the digits placed in their
zone, candidate masks disjoint from their zones' solved digits, no
duplicated digit inside any zone, and an accurate solved-cell counter. -/
structure Inv (s : Solver) : Prop where
  glen : s.grid.length = 81
  plen : s.cellPoss.length = 81
  zlen : s.zoneSolved.length = 27
  maskZero : ∀ c, c < 81 → (s.mask c = 0 ↔ s.grid.getD c 0 ≠ 0)
  gridLe : ∀ c, c < 81 → s.grid.getD c 0 ≤ 9
  maskLe : ∀ c, c < 81 → s.mask c ≤ 511
  zoneEq : ∀ z, z < 27 → s.zmask z = zoneUnion s.grid z
  disj : ∀ c, c < 81 → s.mask c &&& s.zonesMaskOf c = 0
  nodup : ∀ i j, i < 81 → j < 81 → i ≠ j → inSameZone i j →
    s.grid.getD i 0 ≠ 0 → s.grid.getD i 0 ≠ s.grid.getD j 0
  count : s.nSolved = (List.range 81).countP (fun c => !(s.grid.getD c 0 == 0))

/-- Well-formed work stacks: every entry's digit lies in 1..9. -/
def StackWF (st : List Entry) : Prop := ∀ e ∈ st, 1 ≤ e.num ∧ e.num ≤ 9

theorem StackWF_nil : StackWF [] := by
  intro e he
  exact absurd he (List.not_mem_nil e)

theorem getD_replicate {α : Type} (n i : Nat) (a d : α) :
    (List.replicate n a).getD i d = if i < n then a else d := by
  rw [List.getD_eq_getElem?_getD, List.getElem?_replicate]
  by_cases h : i < n <;> simp [h]

theorem inv_new : Inv Solver.new := by
  refine ⟨rfl, rfl, rfl, by decide, by decide, by decide, by decide, by decide, ?_, rfl⟩
  intro i j hi hj hij hsz h0
  rw [show Solver.new.grid = List.replicate 81 0 from rfl, getD_replicate] at h0
  simp [hi] at h0

/-- Bit-level description of a zone union. -/
theorem zoneUnion_testBit (g : Grid) (z i : Nat) :
    (zoneUnion g z).testBit i =
      (cellsOfZone z).any (fun c => (contrib g c).testBit i) := by
  unfold zoneUnion
  induction cellsOfZone z with
  | nil => simp [Nat.zero_testBit]
  | cons c cs ih => simp [Nat.testBit_lor, ih]

theorem zoneUnion_congr {g g' : Grid} {z : Nat}
    (h : ∀ c ∈ cellsOfZone z, g'.getD c 0 = g.getD c 0) :
    zoneUnion g' z = zoneUnion g z := by
  apply Nat.eq_of_testBit_eq
  intro i
  rw [zoneUnion_testBit, zoneUnion_testBit]
  cases hx : (cellsOfZone z).any fun c => (contrib g c).testBit i
  · rw [List.any_eq_false] at hx ⊢
    intro c hc
    unfold contrib
    rw [h c hc]
    exact hx c hc
  · rw [List.any_eq_true] at hx ⊢
    obtain ⟨c, hc, hb⟩ := hx
    refine ⟨c, hc, ?_⟩
    unfold contrib
    rw [h c hc]
    exact hb

/-- Setting a digit on an empty member cell adds exactly its bit to the
zone union. -/
theorem zoneUnion_set {g : Grid} {z cell num : Nat} (hz : cell ∈ cellsOfZone z)
    (h0 : g.getD cell 0 = 0) (hnum : 1 ≤ num) (hlen : cell < g.length) :
    zoneUnion (g.set cell num) z = zoneUnion g z ||| (1 <<< (num - 1)) := by
  apply Nat.eq_of_testBit_eq
  intro i
  rw [zoneUnion_testBit, Nat.testBit_lor, zoneUnion_testBit]
  by_cases hb : i = num - 1
  · subst hb
    have hhit : (cellsOfZone z).any
        (fun c => (contrib (g.set cell num) c).testBit (num - 1)) = true := by
      rw [List.any_eq_true]
      refine ⟨cell, hz, ?_⟩
      unfold contrib
      rw [getD_set_self _ _ _ _ hlen]
      rw [if_neg (by omega)]
      rw [Nat.one_shiftLeft, Nat.testBit_two_pow]
      simp
    rw [hhit]
    rw [Nat.one_shiftLeft, Nat.testBit_two_pow]
    simp
  · have hbit : (1 <<< (num - 1) : Nat).testBit i = false := by
      rw [Nat.one_shiftLeft, Nat.testBit_two_pow]
      simp only [decide_eq_false_iff_not]
      exact fun hc => hb hc.symm
    rw [hbit, Bool.or_false]
    cases hx : (cellsOfZone z).any fun c => (contrib g c).testBit i
    · rw [List.any_eq_false] at hx ⊢
      intro c hc
      by_cases hcc : c = cell
      · subst hcc
        unfold contrib
        rw [getD_set_self _ _ _ _ hlen, if_neg (by omega)]
        rw [Nat.one_shiftLeft, Nat.testBit_two_pow]
        simp only [decide_eq_true_eq]
        exact fun hc' => hb hc'.symm
      · unfold contrib
        rw [getD_set_ne _ _ _ (fun hc' => hcc hc'.symm)]
        exact hx c hc
    · rw [List.any_eq_true] at hx ⊢
      obtain ⟨c, hc, hcb⟩ := hx
      refine ⟨c, hc, ?_⟩
      by_cases hcc : c = cell
      · subst hcc
        unfold contrib at hcb
        rw [if_pos h0] at hcb
        rw [Nat.zero_testBit] at hcb
        exact absurd hcb (by simp)
      · unfold contrib at hcb ⊢
        rw [getD_set_ne _ _ _ (fun hc' => hcc hc'.symm)]
        exact hcb

/-- A placed digit's bit is present in its zones' unions. -/
theorem zoneUnion_testBit_of_placed {g : Grid} {z c : Nat}
    (hc : c ∈ cellsOfZone z) (h0 : g.getD c 0 ≠ 0) :
    (zoneUnion g z).testBit (g.getD c 0 - 1) = true := by
  rw [zoneUnion_testBit, List.any_eq_true]
  refine ⟨c, hc, ?_⟩
  unfold contrib
  rw [if_neg h0, Nat.one_shiftLeft, Nat.testBit_two_pow]
  simp

/-- Conversely, every bit of a zone union comes from some placed digit. -/
theorem zoneUnion_testBit_inv {g : Grid} {z i : Nat}
    (h : (zoneUnion g z).testBit i = true) :
    ∃ c ∈ cellsOfZone z, g.getD c 0 ≠ 0 ∧ g.getD c 0 - 1 = i := by
  rw [zoneUnion_testBit, List.any_eq_true] at h
  obtain ⟨c, hc, hb⟩ := h
  unfold contrib at hb
  by_cases h0 : g.getD c 0 = 0
  · rw [if_pos h0, Nat.zero_testBit] at hb
    exact absurd hb (by simp)
  · rw [if_neg h0, Nat.one_shiftLeft, Nat.testBit_two_pow] at hb
    simp only [decide_eq_true_eq] at hb
    exact ⟨c, hc, h0, hb⟩

theorem land_lor_eq_zero_iff {x a b : Nat} :
    x &&& (a ||| b) = 0 ↔ x &&& a = 0 ∧ x &&& b = 0 := by
  constructor
  · intro h
    constructor <;>
      · apply land_eq_zero_of
        intro i hi
        have := testBit_eq_false_of_land_eq_zero h i hi
        rw [Nat.testBit_lor] at this
        cases ha : a.testBit i <;> cases hb : b.testBit i <;>
          rw [ha, hb] at this <;> simp_all
  · rintro ⟨h1, h2⟩
    apply land_eq_zero_of
    intro i hi
    rw [Nat.testBit_lor]
    rw [testBit_eq_false_of_land_eq_zero h1 i hi,
      testBit_eq_false_of_land_eq_zero h2 i hi]
    rfl

/-! ## Invariant preservation: removal and eager propagation -/

/-- Fields untouched by a successful neighbour-propagation pass. -/
theorem neighFold_frame {ns : List Nat} {s : Solver} {em : Nat}
    {st : List Entry} {s' : Solver} {st' : List Entry}
    (h : neighFold s ns em st = .ok (s', st')) :
    s'.grid = s.grid ∧ s'.zoneSolved = s.zoneSolved ∧
    s'.nSolved = s.nSolved ∧ s'.lastCell = s.lastCell := by
  induction ns generalizing s st with
  | nil =>
      unfold neighFold at h
      simp only [Except.ok.injEq, Prod.mk.injEq] at h
      rw [← h.1]
      exact ⟨rfl, rfl, rfl, rfl⟩
  | cons c cs ih =>
      unfold neighFold at h
      by_cases hc : em &&& s.mask c ≠ 0
      · rw [if_pos hc] at h
        rcases hr : removeImposs s c em st with _ | ⟨s1, st1⟩
        · rw [hr] at h
          exact absurd h (by simp)
        · rw [hr] at h
          have h1 := ih h
          obtain ⟨hg, hn, hz, hl, -, -, -⟩ := removeImposs_ok hr
          exact ⟨h1.1.trans hg, h1.2.1.trans hz, h1.2.2.1.trans hn, h1.2.2.2.trans hl⟩
      · rw [if_neg hc] at h
        exact ih h

theorem neighFold_zero_iff {ns : List Nat} {s : Solver} {em : Nat}
    {st : List Entry} {s' : Solver} {st' : List Entry}
    (h : neighFold s ns em st = .ok (s', st')) :
    ∀ d, (s'.mask d = 0 ↔ s.mask d = 0) := by
  induction ns generalizing s st with
  | nil =>
      unfold neighFold at h
      simp only [Except.ok.injEq, Prod.mk.injEq] at h
      rw [← h.1]
      exact fun d => Iff.rfl
  | cons c cs ih =>
      unfold neighFold at h
      by_cases hc : em &&& s.mask c ≠ 0
      · rw [if_pos hc] at h
        rcases hr : removeImposs s c em st with _ | ⟨s1, st1⟩
        · rw [hr] at h
          exact absurd h (by simp)
        · rw [hr] at h
          exact fun d => (ih h d).trans (removeImposs_mask_zero_iff hr d)
      · rw [if_neg hc] at h
        exact ih h

theorem neighFold_mask_outside {ns : List Nat} {s : Solver} {em : Nat}
    {st : List Entry} {s' : Solver} {st' : List Entry}
    (h : neighFold s ns em st = .ok (s', st')) :
    ∀ d, d ∉ ns → s'.mask d = s.mask d := by
  induction ns generalizing s st with
  | nil =>
      unfold neighFold at h
      simp only [Except.ok.injEq, Prod.mk.injEq] at h
      rw [← h.1]
      exact fun d _ => rfl
  | cons c cs ih =>
      unfold neighFold at h
      intro d hd
      have hdc : d ≠ c := fun hc => hd (hc ▸ List.mem_cons_self c cs)
      have hdcs : d ∉ cs := fun hc => hd (List.mem_cons_of_mem c hc)
      by_cases hc : em &&& s.mask c ≠ 0
      · rw [if_pos hc] at h
        rcases hr : removeImposs s c em st with _ | ⟨s1, st1⟩
        · rw [hr] at h
          exact absurd h (by simp)
        · rw [hr] at h
          rw [ih h d hdcs]
          obtain ⟨-, -, -, -, hposs, -, -⟩ := removeImposs_ok hr
          unfold Solver.mask
          rw [hposs, getD_set_ne _ _ _ (fun hx => hdc hx.symm)]
      · rw [if_neg hc] at h
        exact ih h d hdcs

theorem neighFold_mask_le {ns : List Nat} {s : Solver} {em : Nat}
    {st : List Entry} {s' : Solver} {st' : List Entry}
    (h : neighFold s ns em st = .ok (s', st')) :
    ∀ d, s'.mask d ≤ s.mask d := by
  induction ns generalizing s st with
  | nil =>
      unfold neighFold at h
      simp only [Except.ok.injEq, Prod.mk.injEq] at h
      rw [← h.1]
      exact fun d => Nat.le_refl _
  | cons c cs ih =>
      unfold neighFold at h
      intro d
      by_cases hc : em &&& s.mask c ≠ 0
      · rw [if_pos hc] at h
        rcases hr : removeImposs s c em st with _ | ⟨s1, st1⟩
        · rw [hr] at h
          exact absurd h (by simp)
        · rw [hr] at h
          refine (ih h d).trans ?_
          obtain ⟨-, -, -, -, hposs, -, -⟩ := removeImposs_ok hr
          unfold Solver.mask
          rw [hposs]
          by_cases hdc : c = d
          · subst hdc
            by_cases hcl : c < s.cellPoss.length
            · rw [getD_set_self _ _ _ _ hcl]
              exact maskRemove_le _ _
            · rw [List.set_eq_of_length_le (by omega)]
          · rw [getD_set_ne _ _ _ hdc]
      · rw [if_neg hc] at h
        exact ih h d

/-- A land-with-zero fact survives neighbour propagation (masks only shrink). -/
theorem neighFold_land_zero {ns : List Nat} {s : Solver} {em : Nat}
    {st : List Entry} {s' : Solver} {st' : List Entry}
    (h : neighFold s ns em st = .ok (s', st')) :
    ∀ d x, s.mask d &&& x = 0 → s'.mask d &&& x = 0 := by
  induction ns generalizing s st with
  | nil =>
      unfold neighFold at h
      simp only [Except.ok.injEq, Prod.mk.injEq] at h
      rw [← h.1]
      exact fun d x hx => hx
  | cons c cs ih =>
      unfold neighFold at h
      intro d x hx
      by_cases hc : em &&& s.mask c ≠ 0
      · rw [if_pos hc] at h
        rcases hr : removeImposs s c em st with _ | ⟨s1, st1⟩
        · rw [hr] at h
          exact absurd h (by simp)
        · rw [hr] at h
          apply ih h
          obtain ⟨-, -, -, -, hposs, -, -⟩ := removeImposs_ok hr
          unfold Solver.mask
          rw [hposs]
          by_cases hdc : c = d
          · subst hdc
            by_cases hcl : c < s.cellPoss.length
            · rw [getD_set_self _ _ _ _ hcl]
              exact maskRemove_land_zero hx
            · rw [List.set_eq_of_length_le (by omega)]
              exact hx
          · rw [getD_set_ne _ _ _ hdc]
            exact hx
      · rw [if_neg hc] at h
        exact ih h d x hx

/-- After the pass, no listed neighbour's mask still contains the digit. -/
theorem neighFold_clears {ns : List Nat} {s : Solver} {em : Nat}
    {st : List Entry} {s' : Solver} {st' : List Entry}
    (h : neighFold s ns em st = .ok (s', st')) :
    ∀ n ∈ ns, s'.mask n &&& em = 0 := by
  induction ns generalizing s st with
  | nil =>
      intro n hn
      exact absurd hn (List.not_mem_nil n)
  | cons c cs ih =>
      unfold neighFold at h
      intro n hn
      by_cases hc : em &&& s.mask c ≠ 0
      · rw [if_pos hc] at h
        rcases hr : removeImposs s c em st with _ | ⟨s1, st1⟩
        · rw [hr] at h
          exact absurd h (by simp)
        · rw [hr] at h
          rcases List.mem_cons.mp hn with hn | hn
          · subst hn
            apply neighFold_land_zero h
            obtain ⟨-, -, -, -, hposs, hne, -⟩ := removeImposs_ok hr
            have hcl : n < s.cellPoss.length := by
              by_contra hge
              push_neg at hge
              apply hne
              have : s.mask n = 0 := by
                unfold Solver.mask
                rw [List.getD_eq_getElem?_getD, List.getElem?_eq_none (by omega)]
                rfl
              rw [this]
              unfold maskRemove
              simp
            unfold Solver.mask
            rw [hposs, getD_set_self _ _ _ _ hcl]
            exact maskRemove_land_right _ _
          · exact ih h n hn
      · rw [if_neg hc] at h
        rcases List.mem_cons.mp hn with hn | hn
        · subst hn
          apply neighFold_land_zero h
          push_neg at hc
          rw [Nat.land_comm] at hc
          exact hc
        · exact ih h n hn

/-- Pushes made during neighbour propagation are well-formed entries. -/
theorem neighFold_stackwf {ns : List Nat} {s : Solver} {em : Nat}
    {st : List Entry} {s' : Solver} {st' : List Entry}
    (h : neighFold s ns em st = .ok (s', st'))
    (hle : ∀ d, s.mask d ≤ 511) (hwf : StackWF st) : StackWF st' := by
  induction ns generalizing s st with
  | nil =>
      unfold neighFold at h
      simp only [Except.ok.injEq, Prod.mk.injEq] at h
      rw [← h.2]
      exact hwf
  | cons c cs ih =>
      unfold neighFold at h
      by_cases hc : em &&& s.mask c ≠ 0
      · rw [if_pos hc] at h
        rcases hr : removeImposs s c em st with _ | ⟨s1, st1⟩
        · rw [hr] at h
          exact absurd h (by simp)
        · rw [hr] at h
          obtain ⟨-, -, -, -, hposs, hne, hst⟩ := removeImposs_ok hr
          have hle1 : ∀ d, s1.mask d ≤ 511 := by
            intro d
            unfold Solver.mask
            rw [hposs]
            by_cases hdc : c = d
            · subst hdc
              by_cases hcl : c < s.cellPoss.length
              · rw [getD_set_self _ _ _ _ hcl]
                exact (maskRemove_le _ _).trans (hle c)
              · rw [List.set_eq_of_length_le (by omega)]
                exact hle c
            · rw [getD_set_ne _ _ _ hdc]
              exact hle d
          apply ih h hle1
          rcases hst with hst | hst
          · rw [hst]
            exact hwf
          · rw [hst]
            intro e he
            rcases List.mem_cons.mp he with he | he
            · subst he
              have := onePossibility_bounds
                (m := maskRemove (s.mask c) em) ((maskRemove_le _ _).trans (hle c)) hne
              simpa using this
            · exact hwf e he
      · rw [if_neg hc] at h
        exact ih h hle hwf

/-- Zone masks after `_insert_entry`: the entry's three zones gain its digit,
all other zones are untouched. -/
theorem insertEntry_zmask {s : Solver} {e : Entry} (hcell : e.cell < 81)
    (hz : s.zoneSolved.length = 27) (z : Nat) :
    (insertEntry s e).zmask z =
      if z = rowZone e.cell ∨ z = colZone e.cell ∨ z = fieldZone e.cell
      then s.zmask z ||| e.emask else s.zmask z := by
  have hr := rowZone_lt hcell
  have hco := colZone_bounds e.cell
  have hf := fieldZone_bounds hcell
  unfold insertEntry Solver.zmask
  simp only
  by_cases h1 : z = rowZone e.cell
  · subst h1
    rw [if_pos (Or.inl rfl)]
    rw [getD_set_ne _ _ _ (by omega), getD_set_ne _ _ _ (by omega),
      getD_set_self _ _ _ _ (by omega)]
  · by_cases h2 : z = colZone e.cell
    · subst h2
      rw [if_pos (Or.inr (Or.inl rfl))]
      rw [getD_set_ne _ _ _ (by omega),
        getD_set_self _ _ _ _ (by rw [List.length_set]; omega),
        getD_set_ne _ _ _ (by omega)]
    · by_cases h3 : z = fieldZone e.cell
      · subst h3
        rw [if_pos (Or.inr (Or.inr rfl))]
        rw [getD_set_self _ _ _ _ (by rw [List.length_set, List.length_set]; omega),
          getD_set_ne _ _ _ (by omega), getD_set_ne _ _ _ (by omega)]
      · rw [if_neg (by tauto)]
        rw [getD_set_ne _ _ _ (fun hx => h3 hx.symm),
          getD_set_ne _ _ _ (fun hx => h2 hx.symm),
          getD_set_ne _ _ _ (fun hx => h1 hx.symm)]

/-- Neighbour propagation only ever removes candidate bits. -/
theorem neighFold_testBit {ns : List Nat} {s : Solver} {em : Nat}
    {st : List Entry} {s' : Solver} {st' : List Entry}
    (h : neighFold s ns em st = .ok (s', st')) :
    ∀ d i, (s'.mask d).testBit i = true → (s.mask d).testBit i = true := by
  induction ns generalizing s st with
  | nil =>
      unfold neighFold at h
      simp only [Except.ok.injEq, Prod.mk.injEq] at h
      rw [← h.1]
      exact fun d i hi => hi
  | cons c cs ih =>
      unfold neighFold at h
      intro d i hi
      by_cases hc : em &&& s.mask c ≠ 0
      · rw [if_pos hc] at h
        rcases hr : removeImposs s c em st with _ | ⟨s1, st1⟩
        · rw [hr] at h
          exact absurd h (by simp)
        · rw [hr] at h
          have h1 := ih h d i hi
          obtain ⟨-, -, -, -, hposs, -, -⟩ := removeImposs_ok hr
          unfold Solver.mask at h1 ⊢
          rw [hposs] at h1
          by_cases hdc : c = d
          · subst hdc
            by_cases hcl : c < s.cellPoss.length
            · rw [getD_set_self _ _ _ _ hcl] at h1
              exact maskRemove_subset i h1
            · rw [List.set_eq_of_length_le (by omega)] at h1
              exact h1
          · rw [getD_set_ne _ _ _ hdc] at h1
            exact h1
      · rw [if_neg hc] at h
        exact ih h d i hi

theorem inSameZone_symm {i j : Nat} (h : inSameZone i j) : inSameZone j i := by
  unfold inSameZone at h ⊢
  tauto

/-- The digit placed at a constraint-mate of `c` appears in the union of
`c`'s three zone masks (only the zone-tracking part of the invariant is
needed). -/
theorem digit_in_zones {s : Solver}
    (hzeq : ∀ z, z < 27 → s.zmask z = zoneUnion s.grid z) {c j : Nat} (hc : c < 81)
    (hj : j < 81) (hcj : inSameZone c j) (hj0 : s.grid.getD j 0 ≠ 0) :
    (s.zonesMaskOf c).testBit (s.grid.getD j 0 - 1) = true := by
  have hstep : ∀ z, z < 27 → j ∈ cellsOfZone z →
      (z = rowZone c ∨ z = colZone c ∨ z = fieldZone c) →
      (s.zonesMaskOf c).testBit (s.grid.getD j 0 - 1) = true := by
    intro z hzlt hmem hzc
    have hbit : (s.zmask z).testBit (s.grid.getD j 0 - 1) = true := by
      rw [hzeq z hzlt]
      exact zoneUnion_testBit_of_placed hmem hj0
    unfold Solver.zonesMaskOf
    rw [Nat.testBit_lor, Nat.testBit_lor]
    rcases hzc with hzc | hzc | hzc <;> rw [← hzc] <;> rw [hbit] <;> simp
  rcases hcj with hrc | hcc | hfc
  · refine hstep (rowZone c) (by have := rowZone_lt hc; omega) ?_ (Or.inl rfl)
    exact mem_cellsOfZone.mpr ⟨hj, Or.inl (by unfold rowZone; omega)⟩
  · refine hstep (colZone c) (by have := colZone_bounds c; omega) ?_ (Or.inr (Or.inl rfl))
    exact mem_cellsOfZone.mpr ⟨hj, Or.inr (Or.inl (by unfold colZone; omega))⟩
  · refine hstep (fieldZone c) (by have := fieldZone_bounds hc; omega) ?_
      (Or.inr (Or.inr rfl))
    exact mem_cellsOfZone.mpr ⟨hj, Or.inr (Or.inr (by unfold fieldZone; omega))⟩

/-- `_insert_entry` followed by a successful eager neighbour pass preserves
the state invariant and pushes only well-formed entries.  This is the
invariant step for the eager (`insert_entries_singly`) path. -/
theorem insert_propagate_inv {s : Solver} {e : Entry} {rest : List Entry}
    {s2 : Solver} {st2 : List Entry}
    (inv : Inv s) (hnum1 : 1 ≤ e.num) (hnum9 : e.num ≤ 9)
    (himp : s.mask e.cell &&& e.emask ≠ 0)
    (hnf : neighFold (insertEntry s e) (neighbours e.cell) e.emask rest = .ok (s2, st2)) :
    Inv s2 ∧ (StackWF rest → StackWF st2) := by
  have hm0 : s.mask e.cell ≠ 0 := by
    intro h0
    apply himp
    rw [h0]
    simp
  have hcell : e.cell < 81 := by
    by_contra hge
    push_neg at hge
    apply hm0
    unfold Solver.mask
    rw [List.getD_eq_getElem?_getD, List.getElem?_eq_none (by rw [inv.plen]; omega)]
    rfl
  have hgrid0 : s.grid.getD e.cell 0 = 0 := by
    by_contra hg
    exact hm0 ((inv.maskZero e.cell hcell).mpr hg)
  have himp' : s.mask e.cell &&& (1 <<< (e.num - 1)) ≠ 0 := himp
  have hbitnum : (s.mask e.cell).testBit (e.num - 1) = true :=
    land_single_bit_ne_zero.mp himp'
  have hforb : (s.zonesMaskOf e.cell).testBit (e.num - 1) = false :=
    testBit_eq_false_of_land_eq_zero (inv.disj e.cell hcell) _ hbitnum
  obtain ⟨hfg, hfz, hfn, hfl⟩ := neighFold_frame hnf
  have hs1g : (insertEntry s e).grid = s.grid.set e.cell e.num := rfl
  have hs1p : (insertEntry s e).cellPoss = s.cellPoss.set e.cell 0 := rfl
  have hs1n : (insertEntry s e).nSolved = s.nSolved + 1 := rfl
  have hz1 := insertEntry_zmask hcell inv.zlen
  have hplen1 : (insertEntry s e).cellPoss.length = 81 := by
    rw [hs1p, List.length_set]
    exact inv.plen
  have hmask1ne : ∀ d, d ≠ e.cell → (insertEntry s e).mask d = s.mask d := by
    intro d hd
    unfold Solver.mask
    rw [hs1p, getD_set_ne _ _ _ (fun hx => hd hx.symm)]
  have hmask1self : (insertEntry s e).mask e.cell = 0 := by
    unfold Solver.mask
    rw [hs1p, getD_set_self _ _ _ _ (by rw [inv.plen]; omega)]
  have hle1all : ∀ d, (insertEntry s e).mask d ≤ 511 := by
    intro d
    by_cases hdc : d = e.cell
    · subst hdc
      rw [hmask1self]
      omega
    · rw [hmask1ne d hdc]
      rcases Nat.lt_or_ge d 81 with hd | hd
      · exact inv.maskLe d hd
      · unfold Solver.mask
        rw [List.getD_eq_getElem?_getD, List.getElem?_eq_none (by rw [inv.plen]; omega)]
        simp
  have hzmof2 : ∀ c, s2.zonesMaskOf c = (insertEntry s e).zonesMaskOf c := by
    intro c
    unfold Solver.zonesMaskOf Solver.zmask
    rw [hfz]
  refine ⟨⟨?_, ?_, ?_, ?_, ?_, ?_, ?_, ?_, ?_, ?_⟩, ?_⟩
  -- glen
  · rw [hfg, hs1g, List.length_set]
    exact inv.glen
  -- plen
  · rw [(neighFold_unsolved hnf).2, hplen1]
  -- zlen
  · rw [hfz]
    have hlz : (insertEntry s e).zoneSolved.length = s.zoneSolved.length := by
      simp [insertEntry]
    rw [hlz]
    exact inv.zlen
  -- maskZero
  · intro c hc
    rw [hfg]
    refine (neighFold_zero_iff hnf c).trans ?_
    by_cases hdc : c = e.cell
    · subst hdc
      rw [hmask1self, hs1g, getD_set_self _ _ _ _ (by rw [inv.glen]; omega)]
      constructor
      · intro _
        omega
      · intro _
        rfl
    · rw [hmask1ne c hdc, hs1g, getD_set_ne _ _ _ (fun hx => hdc hx.symm)]
      exact inv.maskZero c hc
  -- gridLe
  · intro c hc
    rw [hfg, hs1g]
    by_cases hdc : c = e.cell
    · subst hdc
      rw [getD_set_self _ _ _ _ (by rw [inv.glen]; omega)]
      exact hnum9
    · rw [getD_set_ne _ _ _ (fun hx => hdc hx.symm)]
      exact inv.gridLe c hc
  -- maskLe
  · intro c hc
    exact (neighFold_mask_le hnf c).trans (hle1all c)
  -- zoneEq
  · intro z hzz
    have hzm : s2.zmask z = (insertEntry s e).zmask z := by
      unfold Solver.zmask
      rw [hfz]
    rw [hzm, hz1 z, hfg, hs1g]
    by_cases hmem : z = rowZone e.cell ∨ z = colZone e.cell ∨ z = fieldZone e.cell
    · rw [if_pos hmem]
      have hcz : e.cell ∈ cellsOfZone z :=
        mem_cellsOfZone.mpr ⟨hcell, by tauto⟩
      rw [inv.zoneEq z hzz,
        zoneUnion_set hcz hgrid0 hnum1 (by rw [inv.glen]; omega)]
      rfl
    · rw [if_neg hmem]
      rw [inv.zoneEq z hzz]
      apply (zoneUnion_congr ?_).symm
      intro c hc
      have hcne : c ≠ e.cell := by
        intro hx
        subst hx
        have := mem_cellsOfZone.mp hc
        tauto
      rw [getD_set_ne _ _ _ (fun hx => hcne hx.symm)]
  -- disj
  · intro c hc
    rw [hzmof2 c]
    by_cases hdc : c = e.cell
    · subst hdc
      have h20 : s2.mask e.cell = 0 := by
        rw [neighFold_mask_outside hnf e.cell
          (fun hx => absurd ((mem_neighbours.mp hx).2.1) (by simp))]
        exact hmask1self
      rw [h20]
      simp
    · by_cases hnb : c ∈ neighbours e.cell
      · apply land_eq_zero_of
        intro i hi
        have hbs : (s.mask c).testBit i = true := by
          have h1 := neighFold_testBit hnf c i hi
          rwa [hmask1ne c hdc] at h1
        have hold : (s.zonesMaskOf c).testBit i = false :=
          testBit_eq_false_of_land_eq_zero (inv.disj c hc) i hbs
        have hem : e.emask.testBit i = false :=
          testBit_eq_false_of_land_eq_zero (neighFold_clears hnf c hnb) i hi
        unfold Solver.zonesMaskOf at hold ⊢
        rw [Nat.testBit_lor, Nat.testBit_lor] at hold ⊢
        have hcmp : ∀ z, ((insertEntry s e).zmask z).testBit i = true →
            (s.zmask z).testBit i = true ∨ e.emask.testBit i = true := by
          intro z hbit
          rw [hz1 z] at hbit
          by_cases hmem : z = rowZone e.cell ∨ z = colZone e.cell ∨ z = fieldZone e.cell
          · rw [if_pos hmem, Nat.testBit_lor] at hbit
            rcases Bool.or_eq_true _ _ |>.mp hbit with hb | hb
            · exact Or.inl hb
            · exact Or.inr hb
          · rw [if_neg hmem] at hbit
            exact Or.inl hbit
        cases hr1 : ((insertEntry s e).zmask (rowZone c)).testBit i <;>
          cases hr2 : ((insertEntry s e).zmask (colZone c)).testBit i <;>
          cases hr3 : ((insertEntry s e).zmask (fieldZone c)).testBit i <;>
          simp_all [hem]
      · have hnsz : ¬inSameZone c e.cell := by
          intro hsz
          exact hnb (mem_neighbours.mpr ⟨hc, hdc, hsz⟩)
        have hzz := not_sameZone_zones_ne hc hcell (by exact hnsz)
        have hzfix : (insertEntry s e).zonesMaskOf c = s.zonesMaskOf c := by
          unfold Solver.zonesMaskOf
          rw [hz1, hz1, hz1,
            if_neg (by tauto), if_neg (by tauto), if_neg (by tauto)]
        rw [hzfix]
        have hms : s2.mask c = s.mask c := by
          rw [neighFold_mask_outside hnf c hnb]
          exact hmask1ne c hdc
        rw [hms]
        exact inv.disj c hc
  -- nodup
  · intro i j hi hj hij hsz h0
    rw [hfg, hs1g] at h0 ⊢
    by_cases hic : i = e.cell
    · subst hic
      rw [getD_set_self _ _ _ _ (by rw [inv.glen]; omega)] at h0 ⊢
      rw [getD_set_ne _ _ _ hij]
      by_cases hj0 : s.grid.getD j 0 = 0
      · rw [hj0]
        omega
      · have hd9 := inv.gridLe j hj
        have hdig := digit_in_zones inv.zoneEq hi hj hsz hj0
        intro heq
        rw [← heq] at hdig
        rw [hdig] at hforb
        simp at hforb
    · rw [getD_set_ne _ _ _ (fun hx => hic hx.symm)] at h0
      by_cases hjc : j = e.cell
      · subst hjc
        rw [getD_set_ne _ _ _ (fun hx => hic hx.symm),
          getD_set_self _ _ _ _ (by rw [inv.glen]; omega)]
        have hdig := digit_in_zones inv.zoneEq hj hi (inSameZone_symm hsz) h0
        intro heq
        rw [heq] at hdig
        rw [hdig] at hforb
        simp at hforb
      · rw [getD_set_ne _ _ _ (fun hx => hic hx.symm),
          getD_set_ne _ _ _ (fun hx => hjc hx.symm)]
        exact inv.nodup i j hi hj hij hsz h0
  -- count
  · rw [hfn, hs1n, inv.count, hfg, hs1g]
    apply countP_range_point _ _ _ e.cell hcell
    · simp only [Bool.not_eq_true', beq_eq_false_iff_ne, ne_eq]
      rw [getD_set_self _ _ _ _ (by rw [inv.glen]; omega)]
      omega
    · show (!(s.grid.getD e.cell 0 == 0)) = false
      rw [hgrid0]
      rfl
    · intro x hx
      rw [getD_set_ne _ _ _ (fun hc => hx hc.symm)]
  -- StackWF
  · intro hwf
    exact neighFold_stackwf hnf hle1all hwf

/-! ## Invariant preservation: batch path and removals -/

/-- The invariant minus candidate/zone disjointness: what holds midway
through a batch insertion, before the recomputation pass restores
disjointness. -/
structure InvB (s : Solver) : Prop where
  glen : s.grid.length = 81
  plen : s.cellPoss.length = 81
  zlen : s.zoneSolved.length = 27
  maskZero : ∀ c, c < 81 → (s.mask c = 0 ↔ s.grid.getD c 0 ≠ 0)
  gridLe : ∀ c, c < 81 → s.grid.getD c 0 ≤ 9
  maskLe : ∀ c, c < 81 → s.mask c ≤ 511
  zoneEq : ∀ z, z < 27 → s.zmask z = zoneUnion s.grid z
  nodup : ∀ i j, i < 81 → j < 81 → i ≠ j → inSameZone i j →
    s.grid.getD i 0 ≠ 0 → s.grid.getD i 0 ≠ s.grid.getD j 0
  count : s.nSolved = (List.range 81).countP (fun c => !(s.grid.getD c 0 == 0))

theorem Inv.toB {s : Solver} (inv : Inv s) : InvB s :=
  ⟨inv.glen, inv.plen, inv.zlen, inv.maskZero, inv.gridLe, inv.maskLe,
    inv.zoneEq, inv.nodup, inv.count⟩

theorem InvB.withDisj {s : Solver} (inv : InvB s)
    (hd : ∀ c, c < 81 → s.mask c &&& s.zonesMaskOf c = 0) : Inv s :=
  ⟨inv.glen, inv.plen, inv.zlen, inv.maskZero, inv.gridLe, inv.maskLe,
    inv.zoneEq, hd, inv.nodup, inv.count⟩

/-- A zone-guarded `_insert_entry` (the batch drain step) preserves the
partial invariant. -/
theorem insertEntry_invB {s : Solver} {e : Entry} (inv : InvB s)
    (hnum1 : 1 ≤ e.num) (hnum9 : e.num ≤ 9) (hm0 : s.mask e.cell ≠ 0)
    (hzg : e.emask &&& s.zonesMaskOf e.cell = 0) :
    InvB (insertEntry s e) := by
  have hcell : e.cell < 81 := by
    by_contra hge
    push_neg at hge
    apply hm0
    unfold Solver.mask
    rw [List.getD_eq_getElem?_getD, List.getElem?_eq_none (by rw [inv.plen]; omega)]
    rfl
  have hgrid0 : s.grid.getD e.cell 0 = 0 := by
    by_contra hg
    exact hm0 ((inv.maskZero e.cell hcell).mpr hg)
  have hforb : (s.zonesMaskOf e.cell).testBit (e.num - 1) = false := by
    apply testBit_eq_false_of_land_eq_zero hzg
    rw [show e.emask = 1 <<< (e.num - 1) from rfl, Nat.one_shiftLeft,
      Nat.testBit_two_pow]
    simp
  have hz1 := insertEntry_zmask hcell inv.zlen
  have hs1g : (insertEntry s e).grid = s.grid.set e.cell e.num := rfl
  have hs1p : (insertEntry s e).cellPoss = s.cellPoss.set e.cell 0 := rfl
  constructor
  · rw [hs1g, List.length_set]
    exact inv.glen
  · rw [hs1p, List.length_set]
    exact inv.plen
  · have hlz : (insertEntry s e).zoneSolved.length = s.zoneSolved.length := by
      simp [insertEntry]
    rw [hlz]
    exact inv.zlen
  · intro c hc
    by_cases hdc : c = e.cell
    · subst hdc
      unfold Solver.mask
      rw [hs1p, hs1g, getD_set_self _ _ _ _ (by rw [inv.plen]; omega),
        getD_set_self _ _ _ _ (by rw [inv.glen]; omega)]
      constructor
      · intro _
        omega
      · intro _
        rfl
    · unfold Solver.mask
      rw [hs1p, hs1g, getD_set_ne _ _ _ (fun hx => hdc hx.symm),
        getD_set_ne _ _ _ (fun hx => hdc hx.symm)]
      exact inv.maskZero c hc
  · intro c hc
    rw [hs1g]
    by_cases hdc : c = e.cell
    · subst hdc
      rw [getD_set_self _ _ _ _ (by rw [inv.glen]; omega)]
      exact hnum9
    · rw [getD_set_ne _ _ _ (fun hx => hdc hx.symm)]
      exact inv.gridLe c hc
  · intro c hc
    by_cases hdc : c = e.cell
    · subst hdc
      unfold Solver.mask
      rw [hs1p, getD_set_self _ _ _ _ (by rw [inv.plen]; omega)]
      omega
    · unfold Solver.mask
      rw [hs1p, getD_set_ne _ _ _ (fun hx => hdc hx.symm)]
      exact inv.maskLe c hc
  · intro z hzz
    rw [hz1 z, hs1g]
    by_cases hmem : z = rowZone e.cell ∨ z = colZone e.cell ∨ z = fieldZone e.cell
    · rw [if_pos hmem]
      have hcz : e.cell ∈ cellsOfZone z :=
        mem_cellsOfZone.mpr ⟨hcell, by tauto⟩
      rw [inv.zoneEq z hzz,
        zoneUnion_set hcz hgrid0 hnum1 (by rw [inv.glen]; omega)]
      rfl
    · rw [if_neg hmem]
      rw [inv.zoneEq z hzz]
      apply (zoneUnion_congr ?_).symm
      intro c hc
      have hcne : c ≠ e.cell := by
        intro hx
        subst hx
        have := mem_cellsOfZone.mp hc
        tauto
      rw [getD_set_ne _ _ _ (fun hx => hcne hx.symm)]
  · intro i j hi hj hij hsz h0
    rw [hs1g] at h0 ⊢
    by_cases hic : i = e.cell
    · subst hic
      rw [getD_set_self _ _ _ _ (by rw [inv.glen]; omega)] at h0 ⊢
      rw [getD_set_ne _ _ _ hij]
      by_cases hj0 : s.grid.getD j 0 = 0
      · rw [hj0]
        omega
      · have hdig := digit_in_zones inv.zoneEq hi hj hsz hj0
        intro heq
        rw [← heq] at hdig
        rw [hdig] at hforb
        simp at hforb
    · rw [getD_set_ne _ _ _ (fun hx => hic hx.symm)] at h0
      by_cases hjc : j = e.cell
      · subst hjc
        rw [getD_set_ne _ _ _ (fun hx => hic hx.symm),
          getD_set_self _ _ _ _ (by rw [inv.glen]; omega)]
        have hdig := digit_in_zones inv.zoneEq hj hi (inSameZone_symm hsz) h0
        intro heq
        rw [heq] at hdig
        rw [hdig] at hforb
        simp at hforb
      · rw [getD_set_ne _ _ _ (fun hx => hic hx.symm),
          getD_set_ne _ _ _ (fun hx => hjc hx.symm)]
        exact inv.nodup i j hi hj hij hsz h0
  · rw [show (insertEntry s e).nSolved = s.nSolved + 1 from rfl, inv.count, hs1g]
    apply countP_range_point _ _ _ e.cell hcell
    · simp only [Bool.not_eq_true', beq_eq_false_iff_ne, ne_eq]
      rw [getD_set_self _ _ _ _ (by rw [inv.glen]; omega)]
      omega
    · show (!(s.grid.getD e.cell 0 == 0)) = false
      rw [hgrid0]
      rfl
    · intro x hx
      rw [getD_set_ne _ _ _ (fun hc => hx hc.symm)]

/-- A successful removal preserves the partial invariant. -/
theorem removeImposs_invB {s : Solver} {cell : Nat} {imp : Nat}
    {st : List Entry} {s' : Solver} {st' : List Entry} (inv : InvB s)
    (h : removeImposs s cell imp st = .ok (s', st')) :
    InvB s' ∧ (StackWF st → StackWF st') := by
  obtain ⟨hg, hn, hz, hl, hposs, hne, hst⟩ := removeImposs_ok h
  have hcl : cell < s.cellPoss.length := by
    by_contra hge
    push_neg at hge
    apply hne
    have h0 : s.mask cell = 0 := by
      unfold Solver.mask
      rw [List.getD_eq_getElem?_getD, List.getElem?_eq_none (by omega)]
      rfl
    rw [h0]
    unfold maskRemove
    simp
  have hcell : cell < 81 := by
    rw [inv.plen] at hcl
    exact hcl
  have hmself : s'.mask cell = maskRemove (s.mask cell) imp := by
    unfold Solver.mask
    rw [hposs, getD_set_self _ _ _ _ hcl]
    rfl
  have hmne : ∀ d, d ≠ cell → s'.mask d = s.mask d := by
    intro d hd
    unfold Solver.mask
    rw [hposs, getD_set_ne _ _ _ (fun hx => hd hx.symm)]
  have hzm : ∀ z, s'.zmask z = s.zmask z := by
    intro z
    unfold Solver.zmask
    rw [hz]
  refine ⟨⟨?_, ?_, ?_, ?_, ?_, ?_, ?_, ?_, ?_⟩, ?_⟩
  · rw [hg]
    exact inv.glen
  · rw [hposs, List.length_set]
    exact inv.plen
  · rw [hz]
    exact inv.zlen
  · intro c hc
    rw [hg]
    by_cases hdc : c = cell
    · subst hdc
      rw [hmself]
      have hm0 : s.mask c ≠ 0 := by
        intro h0
        apply hne
        rw [h0]
        unfold maskRemove
        simp
      constructor
      · intro hx
        exact absurd hx hne
      · intro hgc
        exact absurd ((inv.maskZero c hc).mpr hgc) hm0
    · rw [hmne c hdc]
      exact inv.maskZero c hc
  · intro c hc
    rw [hg]
    exact inv.gridLe c hc
  · intro c hc
    by_cases hdc : c = cell
    · subst hdc
      rw [hmself]
      exact (maskRemove_le _ _).trans (inv.maskLe c hc)
    · rw [hmne c hdc]
      exact inv.maskLe c hc
  · intro z hzz
    rw [hzm z, hg]
    exact inv.zoneEq z hzz
  · intro i j hi hj hij hsz h0
    rw [hg] at h0 ⊢
    exact inv.nodup i j hi hj hij hsz h0
  · rw [hn, hg]
    exact inv.count
  · intro hwf
    rcases hst with hst | hst
    · rw [hst]
      exact hwf
    · rw [hst]
      intro e he
      rcases List.mem_cons.mp he with he | he
      · subst he
        have hb := onePossibility_bounds
          (m := maskRemove (s.mask cell) imp)
          ((maskRemove_le _ _).trans (inv.maskLe cell hcell)) hne
        simpa using hb
      · exact hwf e he

/-- A successful removal also preserves the full invariant. -/
theorem removeImposs_inv {s : Solver} {cell : Nat} {imp : Nat}
    {st : List Entry} {s' : Solver} {st' : List Entry} (inv : Inv s)
    (h : removeImposs s cell imp st = .ok (s', st')) :
    Inv s' ∧ (StackWF st → StackWF st') := by
  obtain ⟨invb, hwf⟩ := removeImposs_invB inv.toB h
  obtain ⟨hg, hn, hz, hl, hposs, hne, hst⟩ := removeImposs_ok h
  refine ⟨invb.withDisj ?_, hwf⟩
  intro c hc
  have hzm : s'.zonesMaskOf c = s.zonesMaskOf c := by
    unfold Solver.zonesMaskOf Solver.zmask
    rw [hz]
  rw [hzm]
  by_cases hdc : c = cell
  · subst hdc
    have hms : s'.mask c = maskRemove (s.mask c) imp := by
      unfold Solver.mask
      rw [hposs]
      apply getD_set_self
      by_contra hge
      push_neg at hge
      apply hne
      have h0 : s.mask c = 0 := by
        unfold Solver.mask
        rw [List.getD_eq_getElem?_getD, List.getElem?_eq_none (by omega)]
        rfl
      rw [h0]
      unfold maskRemove
      simp
    rw [hms]
    exact maskRemove_land_zero (inv.disj c hc)
  · have hms : s'.mask c = s.mask c := by
      unfold Solver.mask
      rw [hposs, getD_set_ne _ _ _ (fun hx => hdc hx.symm)]
    rw [hms]
    exact inv.disj c hc

theorem batchDrainP_invB {es : List Entry} {s s' : Solver} (inv : InvB s)
    (hwf : StackWF es) (h : batchDrainP s es = (s', true)) : InvB s' := by
  induction es generalizing s with
  | nil =>
      unfold batchDrainP at h
      simp only [Prod.mk.injEq] at h
      rw [← h.1]
      exact inv
  | cons e rest ih =>
      unfold batchDrainP at h
      have hwfr : StackWF rest := fun e' he' => hwf e' (List.mem_cons_of_mem e he')
      have hwfe := hwf e (List.mem_cons_self e rest)
      by_cases h0 : s.mask e.cell = 0
      · rw [if_pos h0] at h
        exact ih inv hwfr h
      · rw [if_neg h0] at h
        by_cases hz : s.zmask (rowZone e.cell) &&& e.emask ≠ 0 ∨
            s.zmask (colZone e.cell) &&& e.emask ≠ 0 ∨
            s.zmask (fieldZone e.cell) &&& e.emask ≠ 0
        · rw [if_pos hz] at h
          simp at h
        · rw [if_neg hz] at h
          push_neg at hz
          obtain ⟨hz1, hz2, hz3⟩ := hz
          have hzg : e.emask &&& s.zonesMaskOf e.cell = 0 := by
            unfold Solver.zonesMaskOf
            rw [land_lor_eq_zero_iff, land_lor_eq_zero_iff]
            rw [Nat.land_comm] at hz1 hz2 hz3
            exact ⟨⟨hz1, hz2⟩, hz3⟩
          exact ih (insertEntry_invB inv hwfe.1 hwfe.2 h0 hzg) hwfr h

theorem batchRecompute_frame {cells : List Nat} {s : Solver} {st : List Entry}
    {s' : Solver} {st' : List Entry}
    (h : batchRecompute s cells st = .ok (s', st')) :
    s'.grid = s.grid ∧ s'.zoneSolved = s.zoneSolved ∧
    s'.nSolved = s.nSolved ∧ s'.lastCell = s.lastCell := by
  induction cells generalizing s st with
  | nil =>
      unfold batchRecompute at h
      simp only [Except.ok.injEq, Prod.mk.injEq] at h
      rw [← h.1]
      exact ⟨rfl, rfl, rfl, rfl⟩
  | cons c cs ih =>
      unfold batchRecompute at h
      by_cases h0 : s.mask c = 0
      · rw [if_pos h0] at h
        exact ih h
      · rw [if_neg h0] at h
        rcases hr : removeImposs s c (s.zonesMaskOf c) st with _ | ⟨s1, st1⟩
        · rw [hr] at h
          exact absurd h (by simp)
        · rw [hr] at h
          have h1 := ih h
          obtain ⟨hg, hn, hz, hl, -, -, -⟩ := removeImposs_ok hr
          exact ⟨h1.1.trans hg, h1.2.1.trans hz, h1.2.2.1.trans hn, h1.2.2.2.trans hl⟩

theorem batchRecompute_invB {cells : List Nat} {s : Solver} {st : List Entry}
    {s' : Solver} {st' : List Entry} (inv : InvB s)
    (h : batchRecompute s cells st = .ok (s', st')) :
    InvB s' ∧ (StackWF st → StackWF st') := by
  induction cells generalizing s st with
  | nil =>
      unfold batchRecompute at h
      simp only [Except.ok.injEq, Prod.mk.injEq] at h
      rw [← h.1, ← h.2]
      exact ⟨inv, fun hw => hw⟩
  | cons c cs ih =>
      unfold batchRecompute at h
      by_cases h0 : s.mask c = 0
      · rw [if_pos h0] at h
        exact ih inv h
      · rw [if_neg h0] at h
        rcases hr : removeImposs s c (s.zonesMaskOf c) st with _ | ⟨s1, st1⟩
        · rw [hr] at h
          exact absurd h (by simp)
        · rw [hr] at h
          obtain ⟨inv1, hwf1⟩ := removeImposs_invB inv hr
          obtain ⟨inv2, hwf2⟩ := ih inv1 h
          exact ⟨inv2, fun hw => hwf2 (hwf1 hw)⟩

theorem batchRecompute_land_zero {cells : List Nat} {s : Solver} {st : List Entry}
    {s' : Solver} {st' : List Entry}
    (h : batchRecompute s cells st = .ok (s', st')) :
    ∀ d x, s.mask d &&& x = 0 → s'.mask d &&& x = 0 := by
  induction cells generalizing s st with
  | nil =>
      unfold batchRecompute at h
      simp only [Except.ok.injEq, Prod.mk.injEq] at h
      rw [← h.1]
      exact fun d x hx => hx
  | cons c cs ih =>
      unfold batchRecompute at h
      intro d x hx
      by_cases h0 : s.mask c = 0
      · rw [if_pos h0] at h
        exact ih h d x hx
      · rw [if_neg h0] at h
        rcases hr : removeImposs s c (s.zonesMaskOf c) st with _ | ⟨s1, st1⟩
        · rw [hr] at h
          exact absurd h (by simp)
        · rw [hr] at h
          apply ih h
          obtain ⟨-, -, -, -, hposs, -, -⟩ := removeImposs_ok hr
          unfold Solver.mask
          rw [hposs]
          by_cases hdc : c = d
          · subst hdc
            by_cases hcl : c < s.cellPoss.length
            · rw [getD_set_self _ _ _ _ hcl]
              exact maskRemove_land_zero hx
            · rw [List.set_eq_of_length_le (by omega)]
              exact hx
          · rw [getD_set_ne _ _ _ hdc]
            exact hx

/-- After the recomputation pass every listed cell's mask is disjoint from
its zones' solved digits. -/
theorem batchRecompute_disj {cells : List Nat} {s : Solver} {st : List Entry}
    {s' : Solver} {st' : List Entry}
    (h : batchRecompute s cells st = .ok (s', st')) :
    ∀ c ∈ cells, s'.mask c &&& s'.zonesMaskOf c = 0 := by
  induction cells generalizing s st with
  | nil =>
      intro c hc
      exact absurd hc (List.not_mem_nil c)
  | cons c0 cs ih =>
      unfold batchRecompute at h
      intro c hc
      have hzof : ∀ (t : Solver), t.zoneSolved = s.zoneSolved →
          t.zonesMaskOf c = s.zonesMaskOf c := by
        intro t ht
        unfold Solver.zonesMaskOf Solver.zmask
        rw [ht]
      by_cases h0 : s.mask c0 = 0
      · rw [if_pos h0] at h
        rcases List.mem_cons.mp hc with hcc | hcc
        · subst hcc
          have hz := (batchRecompute_zero_iff h).1 c
          rw [hz.mpr h0]
          simp
        · exact ih h c hcc
      · rw [if_neg h0] at h
        rcases hr : removeImposs s c0 (s.zonesMaskOf c0) st with _ | ⟨s1, st1⟩
        · rw [hr] at h
          exact absurd h (by simp)
        · rw [hr] at h
          rcases List.mem_cons.mp hc with hcc | hcc
          · subst hcc
            obtain ⟨-, -, hz1, -, hposs, hne, -⟩ := removeImposs_ok hr
            have hcl : c < s.cellPoss.length := by
              by_contra hge
              push_neg at hge
              apply h0
              unfold Solver.mask
              rw [List.getD_eq_getElem?_getD, List.getElem?_eq_none (by omega)]
              rfl
            have hm1 : s1.mask c = maskRemove (s.mask c) (s.zonesMaskOf c) := by
              unfold Solver.mask
              rw [hposs, getD_set_self _ _ _ _ hcl]
              rfl
            have hdisj1 : s1.mask c &&& s.zonesMaskOf c = 0 := by
              rw [hm1]
              exact maskRemove_land_right _ _
            have hdisj' : s'.mask c &&& s.zonesMaskOf c = 0 := by
              have := batchRecompute_land_zero h c (s.zonesMaskOf c)
              apply this
              exact hdisj1
            have hzf : s'.zonesMaskOf c = s.zonesMaskOf c := by
              apply hzof
              rw [(batchRecompute_frame h).2.1, hz1]
            rw [hzf]
            exact hdisj'
          · exact ih h c hcc

theorem batch_inv {es : List Entry} {s s' : Solver} {st' : List Entry}
    (inv : Inv s) (hwf : StackWF es)
    (h : batchInsertEntries s es = .ok (s', st')) : Inv s' ∧ StackWF st' := by
  unfold batchInsertEntries at h
  rcases hd : batchDrainP s es with ⟨s1, b⟩
  rw [hd] at h
  cases b
  · exact absurd h (by simp)
  · have inv1 : InvB s1 := batchDrainP_invB inv.toB hwf hd
    obtain ⟨inv2, hwf2⟩ := batchRecompute_invB inv1 h
    refine ⟨inv2.withDisj ?_, hwf2 StackWF_nil⟩
    intro c hc
    exact batchRecompute_disj h c (List.mem_range.mpr hc)

theorem singly_inv {s : Solver} {stack : List Entry} {s' : Solver}
    {st' : List Entry} (inv : Inv s) (hwf : StackWF stack)
    (h : insertEntriesSingly s stack = .ok (s', st')) : Inv s' ∧ StackWF st' := by
  induction s, stack using insertEntriesSingly.induct with
  | case1 s =>
      rw [singly_nil] at h
      simp only [Except.ok.injEq, Prod.mk.injEq] at h
      rw [← h.1, ← h.2]
      exact ⟨inv, StackWF_nil⟩
  | case2 s e rest hskip ih =>
      rw [insertEntriesSingly] at h
      rw [dif_pos hskip] at h
      exact ih inv (fun e' he' => hwf e' (List.mem_cons_of_mem e he')) h
  | case3 s e rest hskip himp =>
      rw [insertEntriesSingly] at h
      rw [dif_neg hskip, if_pos himp] at h
      exact absurd h (by simp)
  | case4 s e rest hskip himp u hequ =>
      rw [singly_cons_err hskip himp hequ] at h
      exact absurd h (by simp)
  | case5 s e rest hskip himp s2 st2 hnf hlen =>
      rw [singly_cons_insert hskip himp hnf, if_pos hlen] at h
      simp only [Except.ok.injEq, Prod.mk.injEq] at h
      have hwfe := hwf e (List.mem_cons_self e rest)
      obtain ⟨inv2, hwf2⟩ :=
        insert_propagate_inv inv hwfe.1 hwfe.2 himp hnf
      rw [← h.1, ← h.2]
      exact ⟨inv2, hwf2 (fun e' he' => hwf e' (List.mem_cons_of_mem e he'))⟩
  | case6 s e rest hskip himp s2 st2 hnf hlen ih =>
      rw [singly_cons_insert hskip himp hnf, if_neg hlen] at h
      have hwfe := hwf e (List.mem_cons_self e rest)
      obtain ⟨inv2, hwf2⟩ :=
        insert_propagate_inv inv hwfe.1 hwfe.2 himp hnf
      exact ih inv2 (hwf2 (fun e' he' => hwf e' (List.mem_cons_of_mem e he'))) h

theorem StackWF_reverse {st : List Entry} (hwf : StackWF st) :
    StackWF st.reverse := by
  intro e he
  exact hwf e (List.mem_reverse.mp he)

/-- The whole propagation loop preserves the state invariant. -/
theorem insertEntries_inv {s : Solver} {stack : List Entry} {s' : Solver}
    (inv : Inv s) (hwf : StackWF stack)
    (h : insertEntries s stack = .ok s') : Inv s' := by
  induction s, stack using insertEntries.induct with
  | case1 s =>
      rw [insertEntries_nil] at h
      simp only [Except.ok.injEq] at h
      rw [← h]
      exact inv
  | case2 s e rest hlen u hequ =>
      rw [insertEntries_singly_err hlen hequ] at h
      exact absurd h (by simp)
  | case3 s e rest hlen s1 st1 hs ih =>
      rw [insertEntries_singly_ok hlen hs] at h
      obtain ⟨inv1, hwf1⟩ := singly_inv inv hwf hs
      exact ih inv1 hwf1 h
  | case4 s e rest hlen u hequ =>
      rw [insertEntries_batch_err hlen hequ] at h
      exact absurd h (by simp)
  | case5 s e rest hlen s1 st1 hb ih =>
      rw [insertEntries_batch_ok hlen hb] at h
      obtain ⟨inv1, hwf1⟩ := batch_inv inv (StackWF_reverse hwf) hb
      exact ih inv1 hwf1 h

/-! ## Hidden singles and guess selection: well-formedness -/

theorem popcnt_le_9 {m : Nat} (hm : m ≤ 511) : popcnt m ≤ 9 := by
  unfold popcnt
  have h16 : (16 : Nat) = 9 + 7 := by norm_num
  rw [h16, List.range_add, List.filter_append, List.length_append]
  have hz : ((List.range 7).map (fun x => 9 + x)).filter (fun i => m.testBit i) = [] := by
    rw [List.filter_eq_nil]
    intro a ha
    rcases List.mem_map.mp ha with ⟨x, hx, hax⟩
    have h9 : 9 ≤ a := by omega
    simp only [Bool.not_eq_true]
    apply Nat.testBit_eq_false_of_lt
    calc m ≤ 511 := hm
      _ < 2 ^ 9 := by norm_num
      _ ≤ 2 ^ a := Nat.pow_le_pow_right (by norm_num) h9
  rw [hz]
  simp only [List.length_nil, Nat.add_zero]
  calc ((List.range 9).filter fun i => m.testBit i).length
      ≤ (List.range 9).length := List.length_filter_le _ _
    _ = 9 := by simp

/-- Entries well-formed relative to a state: digit in 1..9 and still in the
cell's candidate mask. -/
def StackOK (s : Solver) (st : List Entry) : Prop :=
  ∀ e ∈ st, 1 ≤ e.num ∧ e.num ≤ 9 ∧ s.mask e.cell &&& e.emask ≠ 0

theorem StackOK.toWF {s : Solver} {st : List Entry} (h : StackOK s st) :
    StackWF st := fun e he => ⟨(h e he).1, (h e he).2.1⟩

theorem StackOK_nil (s : Solver) : StackOK s [] := by
  intro e he
  exact absurd he (List.not_mem_nil e)

/-- Entries produced by the hidden-singles assignment pass are well-formed:
digit in range and still present in the cell's mask. -/
theorem hsAssign_ok {s : Solver} {cells : List Nat} {singles : Nat}
    {acc st : List Entry}
    (hle : ∀ c, s.mask c ≤ 511)
    (h : hsAssign s cells singles acc = .ok st) :
    ∀ e ∈ st, e ∈ acc ∨ (1 ≤ e.num ∧ e.num ≤ 9 ∧ s.mask e.cell &&& e.emask ≠ 0) := by
  induction cells generalizing singles acc with
  | nil =>
      unfold hsAssign at h
      simp only [Except.ok.injEq] at h
      intro e he
      rw [← h] at he
      exact Or.inl he
  | cons c cs ih =>
      unfold hsAssign at h
      rcases hu : uniqueNum (s.mask c &&& singles) with u | o
      · rw [hu] at h
        exact ih h
      · rcases o with _ | num
        · rw [hu] at h
          exact absurd h (by simp)
        · rw [hu] at h
          intro e he
          rcases ih h e he with hmem | hgood
          · rcases List.mem_cons.mp hmem with hmem | hmem
            · subst hmem
              obtain ⟨hne, hp1, hnum⟩ := uniqueNum_some hu
              have hm511 : s.mask c &&& singles ≤ 511 :=
                Nat.le_trans Nat.and_le_left (hle c)
              have hb := onePossibility_bounds hm511 hne
              have hbit : (s.mask c &&& singles).testBit (num - 1) = true := by
                rw [hnum]
                exact onePossibility_mem (by omega) hne
              rw [Nat.testBit_land] at hbit
              have hmb : (s.mask c).testBit (num - 1) = true :=
                (Bool.and_eq_true _ _ |>.mp hbit).1
              refine Or.inr ⟨?_, ?_, ?_⟩
              · show 1 ≤ num
                omega
              · show num ≤ 9
                omega
              · show s.mask c &&& (1 <<< (num - 1)) ≠ 0
                exact land_single_bit_ne_zero.mpr hmb
            · exact Or.inl hmem
          · exact Or.inr hgood

/-- The hidden-singles search returns well-formed forced entries. -/
theorem findHiddenSingles_ok {s : Solver} {zones : List Nat} {st : List Entry}
    (hle : ∀ c, s.mask c ≤ 511)
    (h : findHiddenSingles s zones = .ok st) : StackOK s st := by
  induction zones with
  | nil =>
      unfold findHiddenSingles at h
      simp only [Except.ok.injEq] at h
      rw [← h]
      exact StackOK_nil s
  | cons z zs ih =>
      unfold findHiddenSingles at h
      by_cases hcov : (hsScan s (cellsOfZone z) 0 0).1 ||| s.zmask z ≠ maskALL
      · rw [if_pos hcov] at h
        exact absurd h (by simp)
      · rw [if_neg hcov] at h
        by_cases hs0 : maskRemove (hsScan s (cellsOfZone z) 0 0).1
            (hsScan s (cellsOfZone z) 0 0).2 = 0
        · rw [if_pos hs0] at h
          exact ih h
        · rw [if_neg hs0] at h
          intro e he
          rcases hsAssign_ok hle h e he with hmem | hgood
          · exact absurd hmem (List.not_mem_nil e)
          · exact hgood

theorem inv_lastCell {s : Solver} (inv : Inv s) (l : Nat) :
    Inv { s with lastCell := l } :=
  ⟨inv.glen, inv.plen, inv.zlen, inv.maskZero, inv.gridLe, inv.maskLe,
    inv.zoneEq, inv.disj, inv.nodup, inv.count⟩

/-- The guess-cell scan returns a cell below 81 with a nonempty mask,
provided such a cell exists among the scanned ones with count below the
running minimum, or the carried best already qualifies. -/
theorem fcmAux_good {s : Solver} {cells : List Nat} {minP best cur : Nat}
    (hcells : ∀ c ∈ cells, c < 81)
    (hbase : (∃ c ∈ cells, 0 < popcnt (s.mask c) ∧ popcnt (s.mask c) < minP) ∨
      (best < 81 ∧ s.mask best ≠ 0)) :
    (fcmAux s cells minP best cur).1 < 81 ∧
      s.mask (fcmAux s cells minP best cur).1 ≠ 0 := by
  induction cells generalizing minP best cur with
  | nil =>
      rcases hbase with ⟨c, hc, -⟩ | hb
      · exact absurd hc (List.not_mem_nil c)
      · unfold fcmAux
        exact hb
  | cons c cs ih =>
      unfold fcmAux
      have hc81 : c < 81 := hcells c (List.mem_cons_self c cs)
      have hcs : ∀ c' ∈ cs, c' < 81 := fun c' hc' => hcells c' (List.mem_cons_of_mem c hc')
      have hmne : 0 < popcnt (s.mask c) → s.mask c ≠ 0 := by
        intro hp h0
        rw [h0] at hp
        have : popcnt 0 = 0 := by decide
        omega
      by_cases h1 : 0 < popcnt (s.mask c) ∧ popcnt (s.mask c) < minP
      · rw [if_pos h1]
        by_cases h2 : popcnt (s.mask c) = 2
        · rw [if_pos h2]
          exact ⟨hc81, hmne h1.1⟩
        · rw [if_neg h2]
          exact ih hcs (Or.inr ⟨hc81, hmne h1.1⟩)
      · rw [if_neg h1]
        apply ih hcs
        rcases hbase with ⟨c', hc', hp⟩ | hb
        · rcases List.mem_cons.mp hc' with hcc | hcc
          · subst hcc
            exact absurd hp h1
          · exact Or.inl ⟨c', hcc, hp⟩
        · exact Or.inr hb

/-- Under the invariant, an unsolved state yields a good guess cell. -/
theorem findCellMinPoss_good {s : Solver} (inv : Inv s) (hns : s.nSolved ≠ 81) :
    (findCellMinPoss s).1 < 81 ∧ s.mask (findCellMinPoss s).1 ≠ 0 := by
  have hex : ∃ c, c < 81 ∧ s.mask c ≠ 0 := by
    by_contra hno
    push_neg at hno
    apply hns
    rw [inv.count]
    have : ∀ c ∈ List.range 81, (fun c => !(s.grid.getD c 0 == 0)) c = true := by
      intro c hc
      have hc81 := List.mem_range.mp hc
      have hm := hno c hc81
      have := (inv.maskZero c hc81).mp hm
      simp only [Bool.not_eq_true', beq_eq_false_iff_ne, ne_eq]
      exact this
    rw [List.countP_eq_length.mpr this]
    simp
  obtain ⟨c, hc81, hcm⟩ := hex
  unfold findCellMinPoss
  apply fcmAux_good
  · intro c' hc'
    rcases List.mem_map.mp hc' with ⟨i, hi, hci⟩
    rw [← hci]
    exact Nat.mod_lt _ (by norm_num)
  · refine Or.inl ⟨c, ?_, ?_, ?_⟩
    · rw [List.mem_map]
      refine ⟨(c + 81 - (s.lastCell + 1) % 81) % 81, List.mem_range.mpr (Nat.mod_lt _ (by norm_num)), ?_⟩
      omega
    · exact popcnt_pos (by have := inv.maskLe c hc81; omega) hcm
    · exact popcnt_le_9 (inv.maskLe c hc81) |>.trans_lt (by norm_num)

/-! ## Validity of complete grids -/

/-- Every cell holds a digit 1-9. -/
def gridComplete (g : Grid) : Bool :=
  (List.range 81).all (fun c => decide (1 ≤ g.getD c 0) && decide (g.getD c 0 ≤ 9))

/-- No zone contains the same digit in two different cells. -/
def gridNoDup (g : Grid) : Bool :=
  (List.range 81).all (fun i => (List.range 81).all (fun j =>
    (i == j) || !(sameZoneB i j) || !(g.getD i 0 == g.getD j 0)))

/-- Every zone contains every digit exactly once. -/
def allDigitsOnce (g : Grid) : Bool :=
  (List.range 27).all (fun z => (List.range 9).all (fun k =>
    ((cellsOfZone z).map (fun c => g.getD c 0)).count (k + 1) == 1))

theorem cellsOfZone_length : ∀ z, z < 27 → (cellsOfZone z).length = 9 := by decide

theorem mem_cellsOfZone_sameZone {i j z : Nat} (hi : i ∈ cellsOfZone z)
    (hj : j ∈ cellsOfZone z) : inSameZone i j := by
  obtain ⟨hi81, hdi⟩ := mem_cellsOfZone.mp hi
  obtain ⟨hj81, hdj⟩ := mem_cellsOfZone.mp hj
  unfold inSameZone
  unfold rowZone colZone fieldZone at hdi hdj
  unfold rowOf colOf fieldOf rowOf colOf at *
  omega

/-- A solved state's grid is complete, duplicate-free, and covers every
digit in every zone. -/
theorem solved_grid_valid {s : Solver} (inv : Inv s) (hn : s.nSolved = 81) :
    gridComplete s.grid = true ∧ gridNoDup s.grid = true ∧
      allDigitsOnce s.grid = true := by
  have hall : ∀ c, c < 81 → s.grid.getD c 0 ≠ 0 := by
    intro c hc
    have hcnt : (List.range 81).countP (fun c => !(s.grid.getD c 0 == 0)) = 81 := by
      rw [← inv.count, hn]
    have hlen : (List.range 81).countP (fun c => !(s.grid.getD c 0 == 0)) =
        (List.range 81).length := by
      rw [hcnt]
      simp
    have := List.countP_eq_length.mp hlen c (List.mem_range.mpr hc)
    simp only [Bool.not_eq_true', beq_eq_false_iff_ne, ne_eq] at this
    exact this
  have hcomp : gridComplete s.grid = true := by
    unfold gridComplete
    rw [List.all_eq_true]
    intro c hc
    have hc81 := List.mem_range.mp hc
    have h1 := hall c hc81
    have h2 := inv.gridLe c hc81
    simp only [Bool.and_eq_true, decide_eq_true_eq]
    omega
  have hnd : gridNoDup s.grid = true := by
    unfold gridNoDup
    rw [List.all_eq_true]
    intro i hi
    rw [List.all_eq_true]
    intro j hj
    have hi81 := List.mem_range.mp hi
    have hj81 := List.mem_range.mp hj
    by_cases hij : i = j
    · simp [hij]
    · by_cases hsz : sameZoneB i j
      · have hsz' : inSameZone i j := by
          unfold sameZoneB at hsz
          simp only [Bool.or_eq_true, beq_iff_eq] at hsz
          unfold inSameZone
          tauto
        have := inv.nodup i j hi81 hj81 hij hsz' (hall i hi81)
        simp only [Bool.or_eq_true, beq_iff_eq, Bool.not_eq_true',
          beq_eq_false_iff_ne, ne_eq]
        tauto
      · simp [hsz]
  refine ⟨hcomp, hnd, ?_⟩
  unfold allDigitsOnce
  rw [List.all_eq_true]
  intro z hz
  rw [List.all_eq_true]
  intro k hk
  have hz27 := List.mem_range.mp hz
  have hk9 := List.mem_range.mp hk
  set l := (cellsOfZone z).map (fun c => s.grid.getD c 0) with hl
  have hlen : l.length = 9 := by
    rw [hl, List.length_map]
    exact cellsOfZone_length z hz27
  have hnodup : l.Nodup := by
    rw [hl]
    apply List.Nodup.map_on ?_ (cellsOfZone_nodup z)
    intro x hx y hy hxy
    by_contra hne
    exact inv.nodup x y (mem_cellsOfZone.mp hx).1 (mem_cellsOfZone.mp hy).1 hne
      (mem_cellsOfZone_sameZone hx hy) (hall x (mem_cellsOfZone.mp hx).1) hxy
  have hmemv : ∀ v ∈ l, v ∈ Finset.Icc 1 9 := by
    intro v hv
    rw [hl] at hv
    rcases List.mem_map.mp hv with ⟨c, hc, hcv⟩
    have hc81 := (mem_cellsOfZone.mp hc).1
    rw [Finset.mem_Icc]
    rw [← hcv]
    exact ⟨by have := hall c hc81; omega, inv.gridLe c hc81⟩
  have hsub : l.toFinset ⊆ Finset.Icc 1 9 := by
    intro v hv
    exact hmemv v (List.mem_toFinset.mp hv)
  have hcard : l.toFinset.card = 9 := by
    rw [List.toFinset_card_of_nodup hnodup, hlen]
  have hicc : l.toFinset = Finset.Icc 1 9 := by
    apply Finset.eq_of_subset_of_card_le hsub
    rw [hcard]
    simp
  have hmem : (k + 1) ∈ l := by
    rw [← List.mem_toFinset, hicc, Finset.mem_Icc]
    omega
  have h1 : 1 ≤ l.count (k + 1) := List.count_pos_iff.mpr hmem
  have h2 : l.count (k + 1) ≤ 1 := List.nodup_iff_count_le_one.mp hnodup (k + 1)
  have : l.count (k + 1) = 1 := by omega
  simp [this]

/-! ## Clue persistence through the search -/

/-- `g'` keeps every placed digit of `g`. -/
def Extends (g g' : Grid) : Prop :=
  ∀ c, c < 81 → g.getD c 0 ≠ 0 → g'.getD c 0 = g.getD c 0

theorem Extends.refl (g : Grid) : Extends g g := fun _ _ _ => rfl

theorem Extends.trans {g1 g2 g3 : Grid} (h12 : Extends g1 g2)
    (h23 : Extends g2 g3) : Extends g1 g3 := by
  intro c hc h0
  rw [h23 c hc (by rw [h12 c hc h0]; exact h0), h12 c hc h0]

/-- Writing into an empty cell keeps all placed digits. -/
theorem extends_set_zero {g : Grid} {cell num : Nat} (h0 : g.getD cell 0 = 0) :
    Extends g (g.set cell num) := by
  intro c hc hcz
  have hne : cell ≠ c := by
    intro hx
    subst hx
    exact hcz h0
  rw [getD_set_ne _ _ _ hne]

theorem singly_extends {s : Solver} {stack : List Entry} {s' : Solver}
    {st' : List Entry} (inv : Inv s) (hwf : StackWF stack)
    (h : insertEntriesSingly s stack = .ok (s', st')) :
    Extends s.grid s'.grid := by
  induction s, stack using insertEntriesSingly.induct with
  | case1 s =>
      rw [singly_nil] at h
      simp only [Except.ok.injEq, Prod.mk.injEq] at h
      rw [← h.1]
      exact Extends.refl _
  | case2 s e rest hskip ih =>
      rw [insertEntriesSingly] at h
      rw [dif_pos hskip] at h
      exact ih inv (fun e' he' => hwf e' (List.mem_cons_of_mem e he')) h
  | case3 s e rest hskip himp =>
      rw [insertEntriesSingly] at h
      rw [dif_neg hskip, if_pos himp] at h
      exact absurd h (by simp)
  | case4 s e rest hskip himp u hequ =>
      rw [singly_cons_err hskip himp hequ] at h
      exact absurd h (by simp)
  | case5 s e rest hskip himp s2 st2 hnf hlen =>
      rw [singly_cons_insert hskip himp hnf, if_pos hlen] at h
      simp only [Except.ok.injEq, Prod.mk.injEq] at h
      rw [← h.1]
      have hcell : e.cell < 81 := by
        by_contra hge
        push_neg at hge
        apply hskip
        unfold Solver.mask
        rw [List.getD_eq_getElem?_getD, List.getElem?_eq_none (by rw [inv.plen]; omega)]
        rfl
      have hgrid0 : s.grid.getD e.cell 0 = 0 := by
        by_contra hg
        exact hskip ((inv.maskZero e.cell hcell).mpr hg)
      have h1 : Extends s.grid (insertEntry s e).grid := extends_set_zero hgrid0
      rw [(neighFold_frame hnf).1]
      exact h1
  | case6 s e rest hskip himp s2 st2 hnf hlen ih =>
      rw [singly_cons_insert hskip himp hnf, if_neg hlen] at h
      have hcell : e.cell < 81 := by
        by_contra hge
        push_neg at hge
        apply hskip
        unfold Solver.mask
        rw [List.getD_eq_getElem?_getD, List.getElem?_eq_none (by rw [inv.plen]; omega)]
        rfl
      have hgrid0 : s.grid.getD e.cell 0 = 0 := by
        by_contra hg
        exact hskip ((inv.maskZero e.cell hcell).mpr hg)
      have h1 : Extends s.grid (insertEntry s e).grid := extends_set_zero hgrid0
      have h2 : Extends s.grid s2.grid := by
        have := (neighFold_frame hnf).1
        rw [this]
        exact h1
      have hwfe := hwf e (List.mem_cons_self e rest)
      obtain ⟨inv2, hwf2⟩ := insert_propagate_inv inv hwfe.1 hwfe.2 himp hnf
      exact h2.trans (ih inv2
        (hwf2 (fun e' he' => hwf e' (List.mem_cons_of_mem e he'))) h)

theorem batchDrainP_extends {es : List Entry} {s s' : Solver} (inv : InvB s)
    (hwf : StackWF es) (h : batchDrainP s es = (s', true)) :
    Extends s.grid s'.grid := by
  induction es generalizing s with
  | nil =>
      unfold batchDrainP at h
      simp only [Prod.mk.injEq] at h
      rw [← h.1]
      exact Extends.refl _
  | cons e rest ih =>
      unfold batchDrainP at h
      have hwfr : StackWF rest := fun e' he' => hwf e' (List.mem_cons_of_mem e he')
      have hwfe := hwf e (List.mem_cons_self e rest)
      by_cases h0 : s.mask e.cell = 0
      · rw [if_pos h0] at h
        exact ih inv hwfr h
      · rw [if_neg h0] at h
        by_cases hz : s.zmask (rowZone e.cell) &&& e.emask ≠ 0 ∨
            s.zmask (colZone e.cell) &&& e.emask ≠ 0 ∨
            s.zmask (fieldZone e.cell) &&& e.emask ≠ 0
        · rw [if_pos hz] at h
          simp at h
        · rw [if_neg hz] at h
          push_neg at hz
          obtain ⟨hz1, hz2, hz3⟩ := hz
          have hzg : e.emask &&& s.zonesMaskOf e.cell = 0 := by
            unfold Solver.zonesMaskOf
            rw [land_lor_eq_zero_iff, land_lor_eq_zero_iff]
            rw [Nat.land_comm] at hz1 hz2 hz3
            exact ⟨⟨hz1, hz2⟩, hz3⟩
          have hcell : e.cell < 81 := by
            by_contra hge
            push_neg at hge
            apply h0
            unfold Solver.mask
            rw [List.getD_eq_getElem?_getD,
              List.getElem?_eq_none (by rw [inv.plen]; omega)]
            rfl
          have hgrid0 : s.grid.getD e.cell 0 = 0 := by
            by_contra hg
            exact h0 ((inv.maskZero e.cell hcell).mpr hg)
          exact (extends_set_zero hgrid0).trans
            (ih (insertEntry_invB inv hwfe.1 hwfe.2 h0 hzg) hwfr h)

theorem batch_extends {es : List Entry} {s s' : Solver} {st' : List Entry}
    (inv : Inv s) (hwf : StackWF es)
    (h : batchInsertEntries s es = .ok (s', st')) :
    Extends s.grid s'.grid := by
  unfold batchInsertEntries at h
  rcases hd : batchDrainP s es with ⟨s1, b⟩
  rw [hd] at h
  cases b
  · exact absurd h (by simp)
  · have h2 : batchRecompute s1 (List.range 81) [] = .ok (s', st') := h
    have h1 := batchDrainP_extends inv.toB hwf hd
    rw [(batchRecompute_frame h2).1]
    exact h1

/-- The whole propagation loop keeps every already-placed digit. -/
theorem insertEntries_extends {s : Solver} {stack : List Entry} {s' : Solver}
    (inv : Inv s) (hwf : StackWF stack)
    (h : insertEntries s stack = .ok s') : Extends s.grid s'.grid := by
  induction s, stack using insertEntries.induct with
  | case1 s =>
      rw [insertEntries_nil] at h
      simp only [Except.ok.injEq] at h
      rw [← h]
      exact Extends.refl _
  | case2 s e rest hlen u hequ =>
      rw [insertEntries_singly_err hlen hequ] at h
      exact absurd h (by simp)
  | case3 s e rest hlen s1 st1 hs ih =>
      rw [insertEntries_singly_ok hlen hs] at h
      obtain ⟨inv1, hwf1⟩ := singly_inv inv hwf hs
      exact (singly_extends inv hwf hs).trans (ih inv1 hwf1 h)
  | case4 s e rest hlen u hequ =>
      rw [insertEntries_batch_err hlen hequ] at h
      exact absurd h (by simp)
  | case5 s e rest hlen s1 st1 hb ih =>
      rw [insertEntries_batch_ok hlen hb] at h
      obtain ⟨inv1, hwf1⟩ := batch_inv inv (StackWF_reverse hwf) hb
      exact (batch_extends inv (StackWF_reverse hwf) hb).trans (ih inv1 hwf1 h)

/-! ## Driver soundness: every produced grid is a valid completion -/

/-- A fully valid 81-cell solution grid. -/
def ValidGrid (g : Grid) : Prop :=
  gridComplete g = true ∧ gridNoDup g = true ∧ allDigitsOnce g = true ∧
    g.length = 81

theorem inv_maskLe_all {s : Solver} (inv : Inv s) : ∀ c, s.mask c ≤ 511 := by
  intro c
  by_cases hc : c < 81
  · exact inv.maskLe c hc
  · unfold Solver.mask
    rw [List.getD_eq_getElem?_getD, List.getElem?_eq_none (by rw [inv.plen]; omega)]
    decide

theorem maskDigits_getD_bounds {m r : Nat} (hm : m ≤ 511) (h0 : m ≠ 0) :
    1 ≤ (maskDigits m).getD (r % popcnt m) 0 ∧
      (maskDigits m).getD (r % popcnt m) 0 ≤ 9 := by
  have hlen : (maskDigits m).length = popcnt m := by
    unfold maskDigits popcnt
    rw [List.length_map]
  have hpos : 0 < popcnt m := popcnt_pos (by omega) h0
  have hidx : r % popcnt m < (maskDigits m).length := by
    rw [hlen]
    exact Nat.mod_lt _ hpos
  have hmem : (maskDigits m).getD (r % popcnt m) 0 ∈ maskDigits m := by
    rw [List.getD_eq_getElem?_getD, List.getElem?_eq_getElem hidx]
    apply List.getElem_mem
  rcases List.mem_map.mp hmem with ⟨i, hi, hmapeq⟩
  rcases List.mem_filter.mp hi with ⟨hir, hib⟩
  have hib' : m.testBit i = true := hib
  have hi9 : i ≤ 8 := by
    by_contra hgt
    push_neg at hgt
    have hf : m.testBit i = false := by
      apply Nat.testBit_eq_false_of_lt
      calc m ≤ 511 := hm
        _ < 2 ^ 9 := by norm_num
        _ ≤ 2 ^ i := Nat.pow_le_pow_right (by norm_num) (by omega)
    rw [hf] at hib'
    exact absurd hib' (by simp)
  have hval : (maskDigits m).getD (r % popcnt m) 0 = i + 1 := hmapeq.symm
  rw [hval]
  omega

/-- `_solve_at_most` only appends valid completions that preserve every
digit placed by the first propagation pass of the call. -/
theorem goSolve_sound {fuel : Nat} : ∀ {limit : Nat} {s : Solver}
    {stack : List Entry} {sols r : List Grid} {d : Nat},
    Inv s → StackWF stack → goSolve fuel limit s stack sols = some (r, d) →
    ∀ g ∈ r, g ∈ sols ∨ (ValidGrid g ∧
      ∃ s1, insertEntriesRun s stack = .ok s1 ∧ Extends s1.grid g) := by
  induction fuel with
  | zero =>
      intro limit s stack sols r d inv hwf h
      exact absurd h (by simp [goSolve])
  | succ fuel ih =>
      intro limit s stack sols r d inv hwf h
      unfold goSolve at h
      split at h
      · rename_i u hi
        simp only [Option.some.injEq, Prod.mk.injEq] at h
        intro g hg
        rw [← h.1] at hg
        exact Or.inl hg
      · rename_i s1 hi
        have hie : insertEntries s stack = .ok s1 := by
          rw [← insertEntriesRun_eq]
          exact hi
        have inv1 : Inv s1 := insertEntries_inv inv hwf hie
        split at h
        · rename_i hn
          simp only [Option.some.injEq, Prod.mk.injEq] at h
          intro g hg
          rw [← h.1] at hg
          rcases List.mem_append.mp hg with hg | hg
          · exact Or.inl hg
          · have hgs : g = s1.grid := by simpa using hg
            subst hgs
            obtain ⟨hc, hd2, ha⟩ := solved_grid_valid inv1 hn
            exact Or.inr ⟨⟨hc, hd2, ha, inv1.glen⟩, s1, hi, Extends.refl _⟩
        · rename_i hn
          split at h
          · rename_i u hf
            simp only [Option.some.injEq, Prod.mk.injEq] at h
            intro g hg
            rw [← h.1] at hg
            exact Or.inl hg
          · rename_i st1 hf
            have hwf1 : StackWF st1 :=
              (findHiddenSingles_ok (inv_maskLe_all inv1) hf).toWF
            split at h
            · intro g hg
              rcases ih inv1 hwf1 h g hg with hl | ⟨hv, s2, hrun2, hext2⟩
              · exact Or.inl hl
              · have hext12 : Extends s1.grid s2.grid :=
                  insertEntries_extends inv1 hwf1
                    (by rw [← insertEntriesRun_eq]; exact hrun2)
                exact Or.inr ⟨hv, s1, hi, hext12.trans hext2⟩
            · have inv2 : Inv (findGoodGuess s1).1 := inv_lastCell inv1 _
              have hgc := findCellMinPoss_good inv1 hn
              have hone := onePossibility_bounds (inv_maskLe_all inv1 _) hgc.2
              have hwfg : StackWF [(findGoodGuess s1).2] := by
                intro e' he'
                have he2 : e' = (findGoodGuess s1).2 := by simpa using he'
                subst he2
                exact hone
              split at h
              · exact absurd h (by simp)
              · rename_i sols1 dchild hchild
                have hchildIH : ∀ g ∈ sols1, g ∈ sols ∨
                    (ValidGrid g ∧ Extends s1.grid g) := by
                  intro g hg
                  rcases ih inv2 hwfg hchild g hg with hl | ⟨hv, s2, hrun2, hext2⟩
                  · exact Or.inl hl
                  · have hext12 : Extends (findGoodGuess s1).1.grid s2.grid :=
                      insertEntries_extends inv2 hwfg
                        (by rw [← insertEntriesRun_eq]; exact hrun2)
                    exact Or.inr ⟨hv, hext12.trans hext2⟩
                split at h
                · rename_i hlim
                  simp only [Option.some.injEq, Prod.mk.injEq] at h
                  intro g hg
                  rw [← h.1] at hg
                  rcases hchildIH g hg with hl | ⟨hv, hext⟩
                  · exact Or.inl hl
                  · exact Or.inr ⟨hv, s1, hi, hext⟩
                · rename_i hlim
                  split at h
                  · rename_i u hr
                    simp only [Option.some.injEq, Prod.mk.injEq] at h
                    intro g hg
                    rw [← h.1] at hg
                    rcases hchildIH g hg with hl | ⟨hv, hext⟩
                    · exact Or.inl hl
                    · exact Or.inr ⟨hv, s1, hi, hext⟩
                  · rename_i s3 st3 hr
                    have hri := removeImposs_inv inv2 hr
                    have inv3 : Inv s3 := hri.1
                    have hwf3 : StackWF st3 := hri.2 StackWF_nil
                    split at h
                    · exact absurd h (by simp)
                    · rename_i sols2 drest hrest
                      simp only [Option.some.injEq, Prod.mk.injEq] at h
                      intro g hg
                      rw [← h.1] at hg
                      rcases ih inv3 hwf3 hrest g hg with hl | ⟨hv, s4, hrun4, hext4⟩
                      · rcases hchildIH g hl with hl2 | ⟨hv, hext⟩
                        · exact Or.inl hl2
                        · exact Or.inr ⟨hv, s1, hi, hext⟩
                      · have hext34 : Extends s3.grid s4.grid :=
                          insertEntries_extends inv3 hwf3
                            (by rw [← insertEntriesRun_eq]; exact hrun4)
                        have hg3 : s3.grid = s1.grid := (removeImposs_ok hr).1
                        refine Or.inr ⟨hv, s1, hi, ?_⟩
                        rw [← hg3]
                        exact hext34.trans hext4

/-- `_randomized_solve_one` only reports valid completions preserving
everything placed by the call's first propagation pass. -/
theorem goRandom_sound {fuel : Nat} : ∀ {rng : List Nat} {s : Solver}
    {stack : List Entry} {g : Grid} {rng' : List Nat},
    Inv s → StackWF stack →
    goRandom fuel rng s stack = some (.ok g, rng') →
    ValidGrid g ∧ ∃ s1, insertEntriesRun s stack = .ok s1 ∧ Extends s1.grid g := by
  induction fuel with
  | zero =>
      intro rng s stack g rng' inv hwf h
      exact absurd h (by simp [goRandom])
  | succ fuel ih =>
      intro rng s stack g rng' inv hwf h
      unfold goRandom at h
      split at h
      · rename_i u hi
        simp at h
      · rename_i s1 hi
        have hie : insertEntries s stack = .ok s1 := by
          rw [← insertEntriesRun_eq]
          exact hi
        have inv1 : Inv s1 := insertEntries_inv inv hwf hie
        split at h
        · rename_i hn
          simp only [Option.some.injEq, Prod.mk.injEq] at h
          have hg : s1.grid = g := by
            have h1 := h.1
            simpa using h1
          subst hg
          obtain ⟨hc, hd2, ha⟩ := solved_grid_valid inv1 hn
          exact ⟨⟨hc, hd2, ha, inv1.glen⟩, s1, hi, Extends.refl _⟩
        · rename_i hn
          split at h
          · rename_i u hf
            simp at h
          · rename_i st1 hf
            have hwf1 : StackWF st1 :=
              (findHiddenSingles_ok (inv_maskLe_all inv1) hf).toWF
            split at h
            · obtain ⟨hv, s2, hrun2, hext2⟩ := ih inv1 hwf1 h
              have hext12 : Extends s1.grid s2.grid :=
                insertEntries_extends inv1 hwf1
                  (by rw [← insertEntriesRun_eq]; exact hrun2)
              exact ⟨hv, s1, hi, hext12.trans hext2⟩
            · have inv2 : Inv (findGoodRandomGuess s1 (rng.headD 0)).1 :=
                inv_lastCell inv1 _
              have hgc := findCellMinPoss_good inv1 hn
              have hmd := maskDigits_getD_bounds
                (m := s1.mask (findCellMinPoss s1).1) (r := rng.headD 0)
                (inv_maskLe_all inv1 _) hgc.2
              have hwfg : StackWF [(findGoodRandomGuess s1 (rng.headD 0)).2] := by
                intro e' he'
                have he2 : e' = (findGoodRandomGuess s1 (rng.headD 0)).2 := by
                  simpa using he'
                subst he2
                exact hmd
              split at h
              · exact absurd h (by simp)
              · rename_i g2 rng2 hchild
                obtain ⟨hv, s2, hrun2, hext2⟩ := ih inv2 hwfg hchild
                have hgg : g2 = g := by
                  simp only [Option.some.injEq, Prod.mk.injEq,
                    Except.ok.injEq] at h
                  exact h.1
                subst hgg
                have hext12 : Extends (findGoodRandomGuess s1 (rng.headD 0)).1.grid
                    s2.grid :=
                  insertEntries_extends inv2 hwfg
                    (by rw [← insertEntriesRun_eq]; exact hrun2)
                exact ⟨hv, s1, hi, hext12.trans hext2⟩
              · rename_i u2 rng2 hchild
                split at h
                · rename_i u3 hr
                  simp at h
                · rename_i s3 st3 hr
                  have hri := removeImposs_inv inv2 hr
                  obtain ⟨hv, s4, hrun4, hext4⟩ := ih hri.1 (hri.2 StackWF_nil) h
                  have hext34 : Extends s3.grid s4.grid :=
                    insertEntries_extends hri.1 (hri.2 StackWF_nil)
                      (by rw [← insertEntriesRun_eq]; exact hrun4)
                  have hg3 : s3.grid = s1.grid := (removeImposs_ok hr).1
                  refine ⟨hv, s1, hi, ?_⟩
                  rw [← hg3]
                  exact hext34.trans hext4

/-! ## The eager pass on a short fresh stack: no forced pushes -/

theorem maskRemove_idem (m o : Nat) : maskRemove (maskRemove m o) o = maskRemove m o := by
  have h1 : maskRemove (maskRemove m o) o = maskRemove m o - (maskRemove m o &&& o) := rfl
  rw [h1, maskRemove_land_right, Nat.sub_zero]

/-- Across one neighbour pass a cell's mask is untouched or loses exactly
the propagated digit. -/
theorem neighFold_mask_cases {ns : List Nat} {s : Solver} {em : Nat}
    {st : List Entry} {s' : Solver} {st' : List Entry}
    (h : neighFold s ns em st = .ok (s', st')) :
    ∀ d, s'.mask d = s.mask d ∨ s'.mask d = maskRemove (s.mask d) em := by
  induction ns generalizing s st with
  | nil =>
      unfold neighFold at h
      simp only [Except.ok.injEq, Prod.mk.injEq] at h
      rw [← h.1]
      exact fun d => Or.inl rfl
  | cons c cs ih =>
      unfold neighFold at h
      intro d
      by_cases hc : em &&& s.mask c ≠ 0
      · rw [if_pos hc] at h
        rcases hr : removeImposs s c em st with _ | ⟨s1, st1⟩
        · rw [hr] at h
          exact absurd h (by simp)
        · rw [hr] at h
          obtain ⟨-, -, -, -, hposs, -, -⟩ := removeImposs_ok hr
          have hstep : s1.mask d = s.mask d ∨ s1.mask d = maskRemove (s.mask d) em := by
            unfold Solver.mask
            rw [hposs]
            by_cases hdc : c = d
            · subst hdc
              by_cases hcl : c < s.cellPoss.length
              · rw [getD_set_self _ _ _ _ hcl]
                exact Or.inr rfl
              · rw [List.set_eq_of_length_le (by omega)]
                exact Or.inl rfl
            · rw [getD_set_ne _ _ _ hdc]
              exact Or.inl rfl
          rcases hstep with h1 | h1 <;> rcases ih h d with h2 | h2
          · exact Or.inl (h2.trans h1)
          · exact Or.inr (by rw [h2, h1])
          · exact Or.inr (h2.trans h1)
          · exact Or.inr (by rw [h2, h1, maskRemove_idem])
      · rw [if_neg hc] at h
        exact ih h d

theorem countP_triple {l : List Nat} {p q r : Nat → Bool}
    (h : ∀ a, p a = true → q a = true ∨ r a = true) :
    l.countP p ≤ l.countP q + l.countP r := by
  induction l with
  | nil => simp
  | cons a t ih =>
      rw [List.countP_cons, List.countP_cons, List.countP_cons]
      by_cases hp : p a = true
      · rcases h a hp with hq | hr
        · rw [if_pos hp, if_pos hq]
          omega
        · rw [if_pos hp, if_pos hr]
          omega
      · rw [if_neg hp]
        omega

/-- Removing a single digit drops the candidate count by at most one. -/
theorem popcnt_maskRemove_ge {m k : Nat} :
    popcnt m ≤ popcnt (maskRemove m (1 <<< k)) + 1 := by
  have hpc : ∀ x : Nat, popcnt x = (List.range 16).countP (fun i => x.testBit i) := by
    intro x
    unfold popcnt
    rw [List.countP_eq_length_filter]
  have hsplit : ∀ i : Nat, (fun i => m.testBit i) i = true →
      (fun i => (maskRemove m (1 <<< k)).testBit i) i = true ∨
        (fun i => i == k) i = true := by
    intro i hi
    by_cases hik : i = k
    · exact Or.inr (by simp [hik])
    · refine Or.inl ?_
      simp only at hi ⊢
      rw [maskRemove_testBit]
      have hb : (1 <<< k : Nat).testBit i = false := by
        rw [Nat.one_shiftLeft]
        exact Nat.testBit_two_pow_of_ne (fun hx => hik hx.symm)
      rw [hi, hb]
      rfl
  have hmain := countP_triple (l := List.range 16) hsplit
  have hk : (List.range 16).countP (fun i => i == k) ≤ 1 := by
    have hco : (List.range 16).countP (fun i => i == k) = (List.range 16).count k := rfl
    rw [hco]
    exact List.nodup_iff_count_le_one.mp (List.nodup_range 16) k
  rw [hpc m, hpc (maskRemove m (1 <<< k))]
  omega

/-- When every touched neighbour keeps at least two candidates, the pass
pushes nothing. -/
theorem neighFold_no_push {ns : List Nat} {s : Solver} {em : Nat}
    {st : List Entry} {s' : Solver} {st' : List Entry}
    (hbig : ∀ c ∈ ns, s.mask c ≠ 0 → 2 ≤ popcnt (maskRemove (s.mask c) em))
    (h : neighFold s ns em st = .ok (s', st')) : st' = st := by
  induction ns generalizing s st with
  | nil =>
      unfold neighFold at h
      simp only [Except.ok.injEq, Prod.mk.injEq] at h
      exact h.2.symm
  | cons c cs ih =>
      unfold neighFold at h
      by_cases hc : em &&& s.mask c ≠ 0
      · rw [if_pos hc] at h
        have hm0 : s.mask c ≠ 0 := by
          intro h0
          apply hc
          rw [h0]
          simp
        rcases hr : removeImposs s c em st with _ | ⟨s1, st1⟩
        · rw [hr] at h
          exact absurd h (by simp)
        · rw [hr] at h
          have hrm2 : 2 ≤ popcnt (maskRemove (s.mask c) em) :=
            hbig c (List.mem_cons_self c cs) hm0
          have hne0 : maskRemove (s.mask c) em ≠ 0 := by
            intro h0
            rw [h0] at hrm2
            have hz : popcnt 0 = 0 := by decide
            omega
          have hu : uniqueNum (maskRemove (s.mask c) em) = .ok none := by
            unfold uniqueNum
            rw [if_neg hne0, if_neg (by omega)]
          have hunf : removeImposs s c em st =
              .ok ({ s with cellPoss := s.cellPoss.set c (maskRemove (s.mask c) em) }, st) := by
            unfold removeImposs
            rw [hu]
          rw [hunf] at hr
          simp only [Except.ok.injEq, Prod.mk.injEq] at hr
          have hst1 : st1 = st := hr.2.symm
          have hs1 : s1 = { s with cellPoss := s.cellPoss.set c (maskRemove (s.mask c) em) } :=
            hr.1.symm
          subst hst1
          subst hs1
          have hbig2 : ∀ c' ∈ cs,
              ({ s with cellPoss := s.cellPoss.set c (maskRemove (s.mask c) em) } : Solver).mask c' ≠ 0 →
              2 ≤ popcnt (maskRemove (({ s with cellPoss := s.cellPoss.set c (maskRemove (s.mask c) em) } : Solver).mask c') em) := by
            intro c' hc' hne'
            have hmv : ({ s with cellPoss := s.cellPoss.set c (maskRemove (s.mask c) em) } : Solver).mask c' =
                s.mask c' ∨
                ({ s with cellPoss := s.cellPoss.set c (maskRemove (s.mask c) em) } : Solver).mask c' =
                maskRemove (s.mask c) em := by
              unfold Solver.mask
              simp only
              by_cases hdc : c = c'
              · subst hdc
                by_cases hcl : c < s.cellPoss.length
                · rw [getD_set_self _ _ _ _ hcl]
                  exact Or.inr rfl
                · rw [List.set_eq_of_length_le (by omega)]
                  exact Or.inl rfl
              · rw [getD_set_ne _ _ _ hdc]
                exact Or.inl rfl
            rcases hmv with hmv | hmv
            · rw [hmv] at hne' ⊢
              exact hbig c' (List.mem_cons_of_mem c hc') hne'
            · rw [hmv]
              rw [maskRemove_idem]
              exact hrm2
          exact ih hbig2 h
      · rw [if_neg hc] at h
        have hbig2 : ∀ c' ∈ cs, s.mask c' ≠ 0 → 2 ≤ popcnt (maskRemove (s.mask c') em) :=
          fun c' hc' => hbig c' (List.mem_cons_of_mem c hc')
        exact ih hbig2 h

/-- On a fresh-enough state (every unsolved mask keeps `9 - n_solved_cells`
candidates) a stack of at most `4 - n_solved_cells` distinct-cell entries is
inserted eagerly with no skip, no forced push and no emptied mask: success
places exactly the stack's digits. -/
theorem singlyFew {stack : List Entry} : ∀ {s s' : Solver} {st' : List Entry},
    Inv s → StackWF stack → s.nSolved + stack.length ≤ 4 →
    (∀ c, c < 81 → s.mask c ≠ 0 → 9 ≤ popcnt (s.mask c) + s.nSolved) →
    (∀ e ∈ stack, s.mask e.cell ≠ 0) →
    stack.Pairwise (fun a b => a.cell ≠ b.cell) →
    insertEntriesSingly s stack = .ok (s', st') →
    st' = [] ∧ ∀ e ∈ stack, s'.grid.getD e.cell 0 = e.num := by
  induction stack with
  | nil =>
      intro s s' st' inv hwf hB hcnt hm hnd h
      rw [singly_nil] at h
      simp only [Except.ok.injEq, Prod.mk.injEq] at h
      exact ⟨h.2.symm, fun e he => absurd he (List.not_mem_nil e)⟩
  | cons e rest ih =>
      intro s s' st' inv hwf hB hcnt hm hnd h
      have hm0 : s.mask e.cell ≠ 0 := hm e (List.mem_cons_self e rest)
      have hcell : e.cell < 81 := by
        by_contra hge
        push_neg at hge
        apply hm0
        unfold Solver.mask
        rw [List.getD_eq_getElem?_getD, List.getElem?_eq_none (by rw [inv.plen]; omega)]
        rfl
      rw [List.length_cons] at hB
      by_cases himp : s.mask e.cell &&& e.emask = 0
      · rw [insertEntriesSingly] at h
        rw [dif_neg hm0, if_pos himp] at h
        exact absurd h (by simp)
      · rcases hnf : neighFold (insertEntry s e) (neighbours e.cell) e.emask rest
          with _ | ⟨s2, st2⟩
        · rw [singly_cons_err hm0 himp hnf] at h
          exact absurd h (by simp)
        · have hmaskiE : ∀ c, c ≠ e.cell → (insertEntry s e).mask c = s.mask c := by
            intro c hne
            unfold insertEntry Solver.mask
            simp only
            rw [getD_set_ne _ _ _ (fun hx => hne hx.symm)]
          have hemk : e.emask = 1 <<< (e.num - 1) := rfl
          have hpush : st2 = rest := by
            apply neighFold_no_push _ hnf
            intro c hcn hc0
            rcases mem_neighbours.mp hcn with ⟨hc81, hcne, -⟩
            rw [hmaskiE c hcne] at hc0 ⊢
            have h9 := hcnt c hc81 hc0
            have hge := popcnt_maskRemove_ge (m := s.mask c) (k := e.num - 1)
            rw [hemk]
            omega
          rw [hpush] at hnf
          rw [singly_cons_insert hm0 himp hnf] at h
          rw [if_neg (by omega)] at h
          have hwfe := hwf e (List.mem_cons_self e rest)
          obtain ⟨inv2, -⟩ := insert_propagate_inv inv hwfe.1 hwfe.2 himp hnf
          have hwfr : StackWF rest := fun e' he' => hwf e' (List.mem_cons_of_mem e he')
          have hns2 : s2.nSolved = s.nSolved + 1 := by
            rw [(neighFold_frame hnf).2.2.1]
            rfl
          have hB2 : s2.nSolved + rest.length ≤ 4 := by
            rw [hns2]
            omega
          have hmask2 : ∀ c, c ≠ e.cell →
              (s2.mask c = s.mask c ∨ s2.mask c = maskRemove (s.mask c) e.emask) := by
            intro c hne
            have hcase := neighFold_mask_cases hnf c
            rw [hmaskiE c hne] at hcase
            exact hcase
          have hzeroc : s2.mask e.cell = 0 := by
            apply (neighFold_zero_iff hnf e.cell).mpr
            unfold insertEntry Solver.mask
            simp only
            rw [getD_set_self _ _ _ _ (by rw [inv.plen]; omega)]
          have hcnt2 : ∀ c, c < 81 → s2.mask c ≠ 0 → 9 ≤ popcnt (s2.mask c) + s2.nSolved := by
            intro c hc81 hc0
            have hcec : c ≠ e.cell := by
              intro hx
              rw [hx] at hc0
              exact hc0 hzeroc
            rcases hmask2 c hcec with hcase | hcase
            · rw [hcase] at hc0 ⊢
              have := hcnt c hc81 hc0
              rw [hns2]
              omega
            · have hs0 : s.mask c ≠ 0 := by
                intro h0
                apply hc0
                rw [hcase, h0]
                unfold maskRemove
                simp
              have h9 := hcnt c hc81 hs0
              have hge := popcnt_maskRemove_ge (m := s.mask c) (k := e.num - 1)
              rw [hcase, hemk, hns2]
              omega
          have hm2 : ∀ e' ∈ rest, s2.mask e'.cell ≠ 0 := by
            intro e' he'
            have hne : e'.cell ≠ e.cell := by
              have hhead := (List.pairwise_cons.mp hnd).1 e' he'
              exact fun hx => hhead hx.symm
            have hm0' := hm e' (List.mem_cons_of_mem e he')
            have hc81' : e'.cell < 81 := by
              by_contra hge
              push_neg at hge
              apply hm0'
              unfold Solver.mask
              rw [List.getD_eq_getElem?_getD, List.getElem?_eq_none (by rw [inv.plen]; omega)]
              rfl
            rcases hmask2 e'.cell hne with hcase | hcase
            · rw [hcase]
              exact hm0'
            · rw [hcase]
              intro h0
              have h9 := hcnt e'.cell hc81' hm0'
              have hge := popcnt_maskRemove_ge (m := s.mask e'.cell) (k := e.num - 1)
              rw [hemk] at h0
              rw [h0] at hge
              have hz : popcnt 0 = 0 := by decide
              omega
          have hnd2 := (List.pairwise_cons.mp hnd).2
          obtain ⟨hst, hvals⟩ := ih inv2 hwfr hB2 hcnt2 hm2 hnd2 h
          refine ⟨hst, ?_⟩
          intro e' he'
          rcases List.mem_cons.mp he' with he' | he'
          · rw [he']
            have hgE : (insertEntry s e).grid.getD e.cell 0 = e.num := by
              unfold insertEntry
              simp only
              rw [getD_set_self _ _ _ _ (by rw [inv.glen]; omega)]
            have hg2 : s2.grid.getD e.cell 0 = e.num := by
              rw [(neighFold_frame hnf).1]
              exact hgE
            have hext := singly_extends inv2 hwfr h
            have hne0 : s2.grid.getD e.cell 0 ≠ 0 := by
              rw [hg2]
              have h1 := hwfe.1
              omega
            rw [hext e.cell hcell hne0, hg2]
          · exact hvals e' he'

theorem insertEntries_few {s : Solver} {stack : List Entry} {s' : Solver}
    (inv : Inv s) (hwf : StackWF stack) (hB : s.nSolved + stack.length ≤ 4)
    (hcnt : ∀ c, c < 81 → s.mask c ≠ 0 → 9 ≤ popcnt (s.mask c) + s.nSolved)
    (hm : ∀ e ∈ stack, s.mask e.cell ≠ 0)
    (hnd : stack.Pairwise (fun a b => a.cell ≠ b.cell))
    (h : insertEntries s stack = .ok s') :
    ∀ e ∈ stack, s'.grid.getD e.cell 0 = e.num := by
  cases stack with
  | nil =>
      intro e he
      exact absurd he (List.not_mem_nil e)
  | cons e rest =>
      have hlen : (e :: rest).length ≤ 4 := by
        rw [List.length_cons]
        rw [List.length_cons] at hB
        omega
      rcases hs : insertEntriesSingly s (e :: rest) with _ | ⟨s1, st1⟩
      · rw [insertEntries_singly_err hlen hs] at h
        exact absurd h (by simp)
      · obtain ⟨hst1, hvals⟩ := singlyFew inv hwf hB hcnt hm hnd hs
        subst hst1
        rw [insertEntries_singly_ok hlen hs, insertEntries_nil] at h
        simp only [Except.ok.injEq] at h
        rw [← h]
        exact hvals

/-! ## The initial clue stack and first propagation pass -/

theorem mem_stackFromSudoku {g : Grid} {e : Entry} :
    e ∈ stackFromSudoku g ↔
      e.cell < 81 ∧ g.getD e.cell 0 ≠ 0 ∧ e.num = g.getD e.cell 0 := by
  unfold stackFromSudoku
  rw [List.mem_reverse, List.mem_filterMap]
  constructor
  · rintro ⟨c, hc, heq⟩
    rw [List.mem_range] at hc
    by_cases h0 : g.getD c 0 = 0
    · rw [if_pos h0] at heq
      exact absurd heq (by simp)
    · rw [if_neg h0] at heq
      simp only [Option.some.injEq] at heq
      rw [← heq]
      exact ⟨hc, h0, rfl⟩
  · rintro ⟨hc, h0, hnum⟩
    obtain ⟨c0, n0⟩ := e
    refine ⟨c0, List.mem_range.mpr hc, ?_⟩
    have hnum' : n0 = g.getD c0 0 := hnum
    have h0' : ¬g.getD c0 0 = 0 := h0
    rw [if_neg h0', hnum']

theorem stackFromSudoku_nodupcells (g : Grid) :
    (stackFromSudoku g).Pairwise (fun a b => a.cell ≠ b.cell) := by
  unfold stackFromSudoku
  rw [List.pairwise_reverse]
  rw [List.pairwise_filterMap]
  apply List.Pairwise.imp ?_ (List.pairwise_lt_range 81)
  intro a b hab x hx y hy
  by_cases ha : g.getD a 0 = 0
  · rw [if_pos ha] at hx
    exact absurd hx (by simp)
  · rw [if_neg ha] at hx
    by_cases hb : g.getD b 0 = 0
    · rw [if_pos hb] at hy
      exact absurd hy (by simp)
    · rw [if_neg hb] at hy
      simp only [Option.mem_def, Option.some.injEq] at hx hy
      rw [← hx, ← hy]
      intro hcc
      have hyx : b = a := hcc
      omega

theorem stackFromSudoku_wf {g : Grid} (hle : ∀ c, c < 81 → g.getD c 0 ≤ 9) :
    StackWF (stackFromSudoku g) := by
  intro e he
  rcases mem_stackFromSudoku.mp he with ⟨hc, h0, hnum⟩
  constructor
  · rw [hnum]
    omega
  · rw [hnum]
    exact hle e.cell hc

theorem new_mask (c : Nat) (hc : c < 81) : Solver.new.mask c = maskALL := by
  unfold Solver.new Solver.mask
  simp only
  rw [getD_replicate, if_pos hc]

/-- A completed drain on distinct unsolved cells places every entry's digit. -/
theorem batchDrain_all {es : List Entry} : ∀ {s s' : Solver},
    InvB s → StackWF es →
    (∀ e ∈ es, s.mask e.cell ≠ 0) →
    es.Pairwise (fun a b => a.cell ≠ b.cell) →
    batchDrainP s es = (s', true) →
    ∀ e ∈ es, s'.grid.getD e.cell 0 = e.num := by
  induction es with
  | nil =>
      intro s s' _ _ _ _ _ e he
      exact absurd he (List.not_mem_nil e)
  | cons e rest ih =>
      intro s s' inv hwf hm hnd h
      unfold batchDrainP at h
      have hm0 : s.mask e.cell ≠ 0 := hm e (List.mem_cons_self e rest)
      rw [if_neg hm0] at h
      by_cases hz : s.zmask (rowZone e.cell) &&& e.emask ≠ 0 ∨
          s.zmask (colZone e.cell) &&& e.emask ≠ 0 ∨
          s.zmask (fieldZone e.cell) &&& e.emask ≠ 0
      · rw [if_pos hz] at h
        simp at h
      · rw [if_neg hz] at h
        push_neg at hz
        obtain ⟨hz1, hz2, hz3⟩ := hz
        have hzg : e.emask &&& s.zonesMaskOf e.cell = 0 := by
          unfold Solver.zonesMaskOf
          rw [land_lor_eq_zero_iff, land_lor_eq_zero_iff]
          rw [Nat.land_comm] at hz1 hz2 hz3
          exact ⟨⟨hz1, hz2⟩, hz3⟩
        have hwfe := hwf e (List.mem_cons_self e rest)
        have hcell : e.cell < 81 := by
          by_contra hge
          push_neg at hge
          apply hm0
          unfold Solver.mask
          rw [List.getD_eq_getElem?_getD, List.getElem?_eq_none (by rw [inv.plen]; omega)]
          rfl
        have inv2 := insertEntry_invB inv hwfe.1 hwfe.2 hm0 hzg
        have hm2 : ∀ e' ∈ rest, (insertEntry s e).mask e'.cell ≠ 0 := by
          intro e' he'
          have hne : e'.cell ≠ e.cell :=
            fun hx => ((List.pairwise_cons.mp hnd).1 e' he') hx.symm
          unfold insertEntry Solver.mask
          simp only
          rw [getD_set_ne _ _ _ (fun hx => hne hx.symm)]
          exact hm e' (List.mem_cons_of_mem e he')
        have hnd2 := (List.pairwise_cons.mp hnd).2
        have hwfr : StackWF rest := fun x hx => hwf x (List.mem_cons_of_mem e hx)
        intro e' he'
        rcases List.mem_cons.mp he' with he' | he'
        · rw [he']
          have hgE : (insertEntry s e).grid.getD e.cell 0 = e.num := by
            unfold insertEntry
            simp only
            rw [getD_set_self _ _ _ _ (by rw [inv.glen]; omega)]
          have hext := batchDrainP_extends inv2 hwfr h
          have hne0 : (insertEntry s e).grid.getD e.cell 0 ≠ 0 := by
            rw [hgE]
            have h1 := hwfe.1
            omega
          rw [hext e.cell hcell hne0, hgE]
        · exact ih inv2 hwfr hm2 hnd2 h e' he'

/-- A successful first pass places every clue of the grid. -/
theorem firstInsert_clues {g : Grid} {s1 : Solver}
    (hle : ∀ c, c < 81 → g.getD c 0 ≤ 9)
    (h : insertEntries Solver.new (stackFromSudoku g) = .ok s1) :
    ∀ c, c < 81 → g.getD c 0 ≠ 0 → s1.grid.getD c 0 = g.getD c 0 := by
  intro c hc h0
  have hmem : (⟨c, g.getD c 0⟩ : Entry) ∈ stackFromSudoku g :=
    mem_stackFromSudoku.mpr ⟨hc, h0, rfl⟩
  have hwf := stackFromSudoku_wf hle
  have hnd := stackFromSudoku_nodupcells g
  have hmF : ∀ e ∈ stackFromSudoku g, Solver.new.mask e.cell ≠ 0 := by
    intro e he
    rcases mem_stackFromSudoku.mp he with ⟨hc', -, -⟩
    rw [new_mask e.cell hc']
    decide
  cases hstack : stackFromSudoku g with
  | nil =>
      rw [hstack] at hmem
      exact absurd hmem (List.not_mem_nil _)
  | cons e0 rest0 =>
      rw [hstack] at h hmem hwf hnd hmF
      by_cases hlen : (e0 :: rest0).length ≤ 4
      · have hB : Solver.new.nSolved + (e0 :: rest0).length ≤ 4 := by
          show 0 + (e0 :: rest0).length ≤ 4
          omega
        have hcnt : ∀ d, d < 81 → Solver.new.mask d ≠ 0 →
            9 ≤ popcnt (Solver.new.mask d) + Solver.new.nSolved := by
          intro d hd _
          rw [new_mask d hd]
          show 9 ≤ popcnt maskALL + 0
          decide
        exact insertEntries_few inv_new hwf hB hcnt hmF hnd h
          (⟨c, g.getD c 0⟩ : Entry) hmem
      · rcases hb : batchInsertEntries Solver.new ((e0 :: rest0).reverse)
          with _ | ⟨sB, stB⟩
        · rw [insertEntries_batch_err hlen hb] at h
          exact absurd h (by simp)
        · rw [insertEntries_batch_ok hlen hb] at h
          have hbb := hb
          unfold batchInsertEntries at hbb
          rcases hd : batchDrainP Solver.new ((e0 :: rest0).reverse) with ⟨sD, flag⟩
          rw [hd] at hbb
          cases flag
          · exact absurd hbb (by simp)
          · have hwfR := StackWF_reverse hwf
            have hndR : ((e0 :: rest0).reverse).Pairwise (fun a b => a.cell ≠ b.cell) := by
              rw [List.pairwise_reverse]
              exact hnd.imp (fun hx hy => hx hy.symm)
            have hmR : ∀ e ∈ (e0 :: rest0).reverse, Solver.new.mask e.cell ≠ 0 :=
              fun e he => hmF e (List.mem_reverse.mp he)
            have hall := batchDrain_all inv_new.toB hwfR hmR hndR hd
            have hmemR : (⟨c, g.getD c 0⟩ : Entry) ∈ (e0 :: rest0).reverse :=
              List.mem_reverse.mpr hmem
            have hvD : sD.grid.getD c 0 = g.getD c 0 := hall _ hmemR
            have hvB : sB.grid.getD c 0 = g.getD c 0 := by
              rw [(batchRecompute_frame hbb).1]
              exact hvD
            obtain ⟨invB2, hwfB⟩ := batch_inv inv_new hwfR hb
            have hext := insertEntries_extends invB2 hwfB h
            have hne0 : sB.grid.getD c 0 ≠ 0 := by
              rw [hvB]
              exact h0
            rw [hext c hc hne0, hvB]

/-! ## Duplicate clues kill the first pass -/

/-- One eager step on a fresh-enough short stack: the head is committed,
nothing is pushed, and all budget invariants advance. -/
theorem singlyFewStep {s : Solver} {e : Entry} {rest : List Entry}
    {s2 : Solver} {st2 : List Entry}
    (inv : Inv s) (hwf : StackWF (e :: rest))
    (hB : s.nSolved + (e :: rest).length ≤ 4)
    (hcnt : ∀ c, c < 81 → s.mask c ≠ 0 → 9 ≤ popcnt (s.mask c) + s.nSolved)
    (hm : ∀ x ∈ e :: rest, s.mask x.cell ≠ 0)
    (hnd : (e :: rest).Pairwise (fun a b => a.cell ≠ b.cell))
    (himp : ¬s.mask e.cell &&& e.emask = 0)
    (hnf : neighFold (insertEntry s e) (neighbours e.cell) e.emask rest = .ok (s2, st2)) :
    st2 = rest ∧ Inv s2 ∧ s2.nSolved = s.nSolved + 1 ∧
    s2.nSolved + rest.length ≤ 4 ∧
    (∀ c, c < 81 → s2.mask c ≠ 0 → 9 ≤ popcnt (s2.mask c) + s2.nSolved) ∧
    (∀ x ∈ rest, s2.mask x.cell ≠ 0) ∧
    (∀ c, c ≠ e.cell → (s2.mask c = s.mask c ∨ s2.mask c = maskRemove (s.mask c) e.emask)) ∧
    s2.mask e.cell = 0 := by
  have hm0 : s.mask e.cell ≠ 0 := hm e (List.mem_cons_self e rest)
  have hcell : e.cell < 81 := by
    by_contra hge
    push_neg at hge
    apply hm0
    unfold Solver.mask
    rw [List.getD_eq_getElem?_getD, List.getElem?_eq_none (by rw [inv.plen]; omega)]
    rfl
  rw [List.length_cons] at hB
  have hmaskiE : ∀ c, c ≠ e.cell → (insertEntry s e).mask c = s.mask c := by
    intro c hne
    unfold insertEntry Solver.mask
    simp only
    rw [getD_set_ne _ _ _ (fun hx => hne hx.symm)]
  have hemk : e.emask = 1 <<< (e.num - 1) := rfl
  have hpush : st2 = rest := by
    apply neighFold_no_push _ hnf
    intro c hcn hc0
    rcases mem_neighbours.mp hcn with ⟨hc81, hcne, -⟩
    rw [hmaskiE c hcne] at hc0 ⊢
    have h9 := hcnt c hc81 hc0
    have hge := popcnt_maskRemove_ge (m := s.mask c) (k := e.num - 1)
    rw [hemk]
    omega
  have hwfe := hwf e (List.mem_cons_self e rest)
  obtain ⟨inv2, -⟩ := insert_propagate_inv inv hwfe.1 hwfe.2 himp hnf
  have hns2 : s2.nSolved = s.nSolved + 1 := by
    rw [(neighFold_frame hnf).2.2.1]
    rfl
  have hmask2 : ∀ c, c ≠ e.cell →
      (s2.mask c = s.mask c ∨ s2.mask c = maskRemove (s.mask c) e.emask) := by
    intro c hne
    have hcase := neighFold_mask_cases hnf c
    rw [hmaskiE c hne] at hcase
    exact hcase
  have hzeroc : s2.mask e.cell = 0 := by
    apply (neighFold_zero_iff hnf e.cell).mpr
    unfold insertEntry Solver.mask
    simp only
    rw [getD_set_self _ _ _ _ (by rw [inv.plen]; omega)]
  have hcnt2 : ∀ c, c < 81 → s2.mask c ≠ 0 → 9 ≤ popcnt (s2.mask c) + s2.nSolved := by
    intro c hc81 hc0
    have hcec : c ≠ e.cell := by
      intro hx
      rw [hx] at hc0
      exact hc0 hzeroc
    rcases hmask2 c hcec with hcase | hcase
    · rw [hcase] at hc0 ⊢
      have := hcnt c hc81 hc0
      rw [hns2]
      omega
    · have hs0 : s.mask c ≠ 0 := by
        intro h0
        apply hc0
        rw [hcase, h0]
        unfold maskRemove
        simp
      have h9 := hcnt c hc81 hs0
      have hge := popcnt_maskRemove_ge (m := s.mask c) (k := e.num - 1)
      rw [hcase, hemk, hns2]
      omega
  have hm2 : ∀ x ∈ rest, s2.mask x.cell ≠ 0 := by
    intro x hx
    have hne : x.cell ≠ e.cell := by
      have hhead := (List.pairwise_cons.mp hnd).1 x hx
      exact fun hy => hhead hy.symm
    have hm0' := hm x (List.mem_cons_of_mem e hx)
    have hc81' : x.cell < 81 := by
      by_contra hge
      push_neg at hge
      apply hm0'
      unfold Solver.mask
      rw [List.getD_eq_getElem?_getD, List.getElem?_eq_none (by rw [inv.plen]; omega)]
      rfl
    rcases hmask2 x.cell hne with hcase | hcase
    · rw [hcase]
      exact hm0'
    · rw [hcase]
      intro h0
      have h9 := hcnt x.cell hc81' hm0'
      have hge := popcnt_maskRemove_ge (m := s.mask x.cell) (k := e.num - 1)
      rw [hemk] at h0
      rw [h0] at hge
      have hz : popcnt 0 = 0 := by decide
      omega
  exact ⟨hpush, inv2, hns2, by rw [hns2]; omega, hcnt2, hm2, hmask2, hzeroc⟩

/-- On a fresh-enough short stack, an entry whose digit has left its cell's
mask is fatal: the eager pass cannot succeed. -/
theorem singlyFewDead {stack : List Entry} : ∀ {s s' : Solver} {st' : List Entry},
    Inv s → StackWF stack → s.nSolved + stack.length ≤ 4 →
    (∀ c, c < 81 → s.mask c ≠ 0 → 9 ≤ popcnt (s.mask c) + s.nSolved) →
    (∀ x ∈ stack, s.mask x.cell ≠ 0) →
    stack.Pairwise (fun a b => a.cell ≠ b.cell) →
    (∃ b ∈ stack, s.mask b.cell &&& b.emask = 0) →
    insertEntriesSingly s stack = .ok (s', st') → False := by
  induction stack with
  | nil =>
      rintro s s' st' _ _ _ _ _ _ ⟨b, hb, -⟩ _
      exact absurd hb (List.not_mem_nil b)
  | cons e rest ih =>
      rintro s s' st' inv hwf hB hcnt hm hnd ⟨b, hbmem, hbz⟩ h
      have hm0 : s.mask e.cell ≠ 0 := hm e (List.mem_cons_self e rest)
      by_cases himp : s.mask e.cell &&& e.emask = 0
      · rw [insertEntriesSingly] at h
        rw [dif_neg hm0, if_pos himp] at h
        exact absurd h (by simp)
      · rcases List.mem_cons.mp hbmem with hbe | hbr
        · rw [hbe] at hbz
          exact himp hbz
        · rcases hnf : neighFold (insertEntry s e) (neighbours e.cell) e.emask rest
            with _ | ⟨s2, st2⟩
          · rw [singly_cons_err hm0 himp hnf] at h
            exact absurd h (by simp)
          · obtain ⟨hpush, inv2, hns2, hB2, hcnt2, hm2, hmask2, -⟩ :=
              singlyFewStep inv hwf hB hcnt hm hnd himp hnf
            rw [hpush] at hnf
            rw [singly_cons_insert hm0 himp hnf] at h
            rw [List.length_cons] at hB
            rw [if_neg (by omega)] at h
            have hwfr : StackWF rest := fun x hx => hwf x (List.mem_cons_of_mem e hx)
            have hnd2 := (List.pairwise_cons.mp hnd).2
            have hbcell : b.cell ≠ e.cell := by
              have hhead := (List.pairwise_cons.mp hnd).1 b hbr
              exact fun hy => hhead hy.symm
            have hdead2 : s2.mask b.cell &&& b.emask = 0 := by
              rcases hmask2 b.cell hbcell with hcase | hcase
              · rw [hcase]
                exact hbz
              · rw [hcase]
                exact maskRemove_land_zero hbz
            exact ih inv2 hwfr hB2 hcnt2 hm2 hnd2 ⟨b, hbr, hdead2⟩ h

/-- Two same-digit entries in one zone of a fresh-enough short stack make
the eager pass fail. -/
theorem singlyFewConflict {stack : List Entry} : ∀ {s s' : Solver} {st' : List Entry},
    Inv s → StackWF stack → s.nSolved + stack.length ≤ 4 →
    (∀ c, c < 81 → s.mask c ≠ 0 → 9 ≤ popcnt (s.mask c) + s.nSolved) →
    (∀ x ∈ stack, s.mask x.cell ≠ 0) →
    stack.Pairwise (fun a b => a.cell ≠ b.cell) →
    ∀ {a b : Entry}, a ∈ stack → b ∈ stack → a.cell ≠ b.cell →
    inSameZone a.cell b.cell → a.num = b.num →
    insertEntriesSingly s stack = .ok (s', st') → False := by
  induction stack with
  | nil =>
      intro s s' st' _ _ _ _ _ _ a b ha _ _ _ _ _
      exact absurd ha (List.not_mem_nil a)
  | cons e rest ih =>
      intro s s' st' inv hwf hB hcnt hm hnd a b ha hb hab hzab hnum h
      have hm0 : s.mask e.cell ≠ 0 := hm e (List.mem_cons_self e rest)
      by_cases himp : s.mask e.cell &&& e.emask = 0
      · rw [insertEntriesSingly] at h
        rw [dif_neg hm0, if_pos himp] at h
        exact absurd h (by simp)
      · rcases hnf : neighFold (insertEntry s e) (neighbours e.cell) e.emask rest
          with _ | ⟨s2, st2⟩
        · rw [singly_cons_err hm0 himp hnf] at h
          exact absurd h (by simp)
        · obtain ⟨hpush, inv2, hns2, hB2, hcnt2, hm2, hmask2, -⟩ :=
            singlyFewStep inv hwf hB hcnt hm hnd himp hnf
          rw [hpush] at hnf
          rw [singly_cons_insert hm0 himp hnf] at h
          rw [List.length_cons] at hB
          rw [if_neg (by omega)] at h
          have hwfr : StackWF rest := fun x hx => hwf x (List.mem_cons_of_mem e hx)
          have hnd2 := (List.pairwise_cons.mp hnd).2
          have hclears := neighFold_clears hnf
          rcases List.mem_cons.mp ha with hae | har
          · have hbr : b ∈ rest := by
              rcases List.mem_cons.mp hb with hbe | hbr
              · exfalso
                apply hab
                rw [hae, hbe]
              · exact hbr
            have hb81 : b.cell < 81 := by
              by_contra hge
              push_neg at hge
              apply hm b (List.mem_cons_of_mem e hbr)
              unfold Solver.mask
              rw [List.getD_eq_getElem?_getD, List.getElem?_eq_none (by rw [inv.plen]; omega)]
              rfl
            have hbn : b.cell ∈ neighbours e.cell := by
              rw [mem_neighbours]
              refine ⟨hb81, ?_, ?_⟩
              · rw [← hae]
                exact fun hy => hab hy.symm
              · rw [← hae]
                rcases hzab with h1 | h1 | h1
                · exact Or.inl h1.symm
                · exact Or.inr (Or.inl h1.symm)
                · exact Or.inr (Or.inr h1.symm)
            have hbe' : b.emask = e.emask := by
              unfold Entry.emask
              rw [← hae, hnum]
            have hdead : s2.mask b.cell &&& b.emask = 0 := by
              rw [hbe']
              exact hclears b.cell hbn
            exact singlyFewDead inv2 hwfr hB2 hcnt2 hm2 hnd2 ⟨b, hbr, hdead⟩ h
          · rcases List.mem_cons.mp hb with hbe | hbr
            · have ha81 : a.cell < 81 := by
                by_contra hge
                push_neg at hge
                apply hm a (List.mem_cons_of_mem e har)
                unfold Solver.mask
                rw [List.getD_eq_getElem?_getD, List.getElem?_eq_none (by rw [inv.plen]; omega)]
                rfl
              have han : a.cell ∈ neighbours e.cell := by
                rw [mem_neighbours]
                refine ⟨ha81, ?_, ?_⟩
                · rw [← hbe]
                  exact hab
                · rw [← hbe]
                  exact hzab
              have hae' : a.emask = e.emask := by
                unfold Entry.emask
                rw [hnum, hbe]
              have hdead : s2.mask a.cell &&& a.emask = 0 := by
                rw [hae']
                exact hclears a.cell han
              exact singlyFewDead inv2 hwfr hB2 hcnt2 hm2 hnd2 ⟨a, har, hdead⟩ h
            · exact ih inv2 hwfr hB2 hcnt2 hm2 hnd2 har hbr hab hzab hnum h

/-- Placed zone digits survive a drain-step insertion. -/
theorem insertEntry_zonesMaskOf_mono {s : Solver} {e : Entry}
    (hcell : e.cell < 81) (hz27 : s.zoneSolved.length = 27) :
    ∀ d k, (s.zonesMaskOf d).testBit k = true →
      ((insertEntry s e).zonesMaskOf d).testBit k = true := by
  intro d k hk
  have hone : ∀ z, (s.zmask z).testBit k = true →
      ((insertEntry s e).zmask z).testBit k = true := by
    intro z hz
    rw [insertEntry_zmask hcell hz27 z]
    by_cases hcond : z = rowZone e.cell ∨ z = colZone e.cell ∨ z = fieldZone e.cell
    · rw [if_pos hcond, Nat.testBit_lor, hz]
      rfl
    · rw [if_neg hcond]
      exact hz
  unfold Solver.zonesMaskOf at hk ⊢
  rw [Nat.testBit_lor, Nat.testBit_lor] at hk ⊢
  simp only [Bool.or_eq_true] at hk
  rcases hk with (hk1 | hk2) | hk3
  · rw [hone _ hk1]
    rfl
  · rw [hone _ hk2]
    simp
  · rw [hone _ hk3]
    simp

/-- A drained entry whose digit is already placed in one of its zones makes
the drain fail. -/
theorem batchDrain_conflict {es : List Entry} : ∀ {s s' : Solver},
    InvB s → StackWF es →
    (∀ x ∈ es, s.mask x.cell ≠ 0) →
    es.Pairwise (fun a b => a.cell ≠ b.cell) →
    (∃ b ∈ es, (s.zonesMaskOf b.cell).testBit (b.num - 1) = true) →
    batchDrainP s es = (s', true) → False := by
  induction es with
  | nil =>
      rintro s s' _ _ _ _ ⟨b, hb, -⟩ _
      exact absurd hb (List.not_mem_nil b)
  | cons e rest ih =>
      rintro s s' inv hwf hm hnd ⟨b, hbmem, hbit⟩ h
      unfold batchDrainP at h
      have hm0 : s.mask e.cell ≠ 0 := hm e (List.mem_cons_self e rest)
      rw [if_neg hm0] at h
      by_cases hz : s.zmask (rowZone e.cell) &&& e.emask ≠ 0 ∨
          s.zmask (colZone e.cell) &&& e.emask ≠ 0 ∨
          s.zmask (fieldZone e.cell) &&& e.emask ≠ 0
      · rw [if_pos hz] at h
        simp at h
      · rw [if_neg hz] at h
        push_neg at hz
        obtain ⟨hz1, hz2, hz3⟩ := hz
        rcases List.mem_cons.mp hbmem with hbe | hbr
        · rw [hbe] at hbit
          unfold Solver.zonesMaskOf at hbit
          rw [Nat.testBit_lor, Nat.testBit_lor] at hbit
          have hnum : e.num = b.num := by rw [hbe]
          simp only [Bool.or_eq_true] at hbit
          rcases hbit with (hb1 | hb2) | hb3
          · exact (land_single_bit_ne_zero.mpr hb1) hz1
          · exact (land_single_bit_ne_zero.mpr hb2) hz2
          · exact (land_single_bit_ne_zero.mpr hb3) hz3
        · have hzg : e.emask &&& s.zonesMaskOf e.cell = 0 := by
            unfold Solver.zonesMaskOf
            rw [land_lor_eq_zero_iff, land_lor_eq_zero_iff]
            rw [Nat.land_comm] at hz1 hz2 hz3
            exact ⟨⟨hz1, hz2⟩, hz3⟩
          have hwfe := hwf e (List.mem_cons_self e rest)
          have hcell : e.cell < 81 := by
            by_contra hge
            push_neg at hge
            apply hm0
            unfold Solver.mask
            rw [List.getD_eq_getElem?_getD, List.getElem?_eq_none (by rw [inv.plen]; omega)]
            rfl
          have inv2 := insertEntry_invB inv hwfe.1 hwfe.2 hm0 hzg
          have hm2 : ∀ x ∈ rest, (insertEntry s e).mask x.cell ≠ 0 := by
            intro x hx
            have hne : x.cell ≠ e.cell :=
              fun hy => ((List.pairwise_cons.mp hnd).1 x hx) hy.symm
            unfold insertEntry Solver.mask
            simp only
            rw [getD_set_ne _ _ _ (fun hy => hne hy.symm)]
            exact hm x (List.mem_cons_of_mem e hx)
          have hnd2 := (List.pairwise_cons.mp hnd).2
          have hwfr : StackWF rest := fun x hx => hwf x (List.mem_cons_of_mem e hx)
          have hbit2 : ((insertEntry s e).zonesMaskOf b.cell).testBit (b.num - 1) = true :=
            insertEntry_zonesMaskOf_mono hcell inv.zlen b.cell (b.num - 1) hbit
          exact ih inv2 hwfr hm2 hnd2 ⟨b, hbr, hbit2⟩ h

/-- Two same-digit entries sharing a zone make the batch drain fail. -/
theorem batchDrain_dup_false {es : List Entry} : ∀ {s s' : Solver},
    InvB s → StackWF es →
    (∀ x ∈ es, s.mask x.cell ≠ 0) →
    es.Pairwise (fun a b => a.cell ≠ b.cell) →
    ∀ {a b : Entry}, a ∈ es → b ∈ es → a.cell ≠ b.cell →
    inSameZone a.cell b.cell → a.num = b.num →
    batchDrainP s es = (s', true) → False := by
  induction es with
  | nil =>
      intro s s' _ _ _ _ a b ha _ _ _ _ _
      exact absurd ha (List.not_mem_nil a)
  | cons e rest ih =>
      intro s s' inv hwf hm hnd a b ha hb hab hzab hnum h
      unfold batchDrainP at h
      have hm0 : s.mask e.cell ≠ 0 := hm e (List.mem_cons_self e rest)
      rw [if_neg hm0] at h
      by_cases hz : s.zmask (rowZone e.cell) &&& e.emask ≠ 0 ∨
          s.zmask (colZone e.cell) &&& e.emask ≠ 0 ∨
          s.zmask (fieldZone e.cell) &&& e.emask ≠ 0
      · rw [if_pos hz] at h
        simp at h
      · rw [if_neg hz] at h
        push_neg at hz
        obtain ⟨hz1, hz2, hz3⟩ := hz
        have hzg : e.emask &&& s.zonesMaskOf e.cell = 0 := by
          unfold Solver.zonesMaskOf
          rw [land_lor_eq_zero_iff, land_lor_eq_zero_iff]
          rw [Nat.land_comm] at hz1 hz2 hz3
          exact ⟨⟨hz1, hz2⟩, hz3⟩
        have hwfe := hwf e (List.mem_cons_self e rest)
        have hcell : e.cell < 81 := by
          by_contra hge
          push_neg at hge
          apply hm0
          unfold Solver.mask
          rw [List.getD_eq_getElem?_getD, List.getElem?_eq_none (by rw [inv.plen]; omega)]
          rfl
        have inv2 := insertEntry_invB inv hwfe.1 hwfe.2 hm0 hzg
        have hm2 : ∀ x ∈ rest, (insertEntry s e).mask x.cell ≠ 0 := by
          intro x hx
          have hne : x.cell ≠ e.cell :=
            fun hy => ((List.pairwise_cons.mp hnd).1 x hx) hy.symm
          unfold insertEntry Solver.mask
          simp only
          rw [getD_set_ne _ _ _ (fun hy => hne hy.symm)]
          exact hm x (List.mem_cons_of_mem e hx)
        have hnd2 := (List.pairwise_cons.mp hnd).2
        have hwfr : StackWF rest := fun x hx => hwf x (List.mem_cons_of_mem e hx)
        have hzbit : ∀ {p q : Entry}, p = e → q ∈ rest → inSameZone p.cell q.cell →
            p.num = q.num →
            ((insertEntry s e).zonesMaskOf q.cell).testBit (q.num - 1) = true := by
          intro p q hpe hq hzpq hnpq
          have hq81 : q.cell < 81 := by
            by_contra hge
            push_neg at hge
            apply hm q (List.mem_cons_of_mem e hq)
            unfold Solver.mask
            rw [List.getD_eq_getElem?_getD, List.getElem?_eq_none (by rw [inv.plen]; omega)]
            rfl
          have hzone : rowZone q.cell = rowZone e.cell ∨ colZone q.cell = colZone e.cell ∨
              fieldZone q.cell = fieldZone e.cell := by
            rw [← hpe]
            unfold rowZone colZone fieldZone
            rcases hzpq with h1 | h1 | h1
            · exact Or.inl h1.symm
            · exact Or.inr (Or.inl (by rw [h1]))
            · exact Or.inr (Or.inr (by rw [h1]))
          have hbitE : ∀ z, z = rowZone e.cell ∨ z = colZone e.cell ∨ z = fieldZone e.cell →
              ((insertEntry s e).zmask z).testBit (q.num - 1) = true := by
            intro z hcond
            rw [insertEntry_zmask hcell inv.zlen z, if_pos hcond, Nat.testBit_lor]
            have hek : e.emask.testBit (q.num - 1) = true := by
              rw [emask_testBit]
              have : e.num = q.num := by rw [hpe] at hnpq; exact hnpq
              simp [this]
            rw [hek]
            simp
          unfold Solver.zonesMaskOf
          rw [Nat.testBit_lor, Nat.testBit_lor]
          rcases hzone with h1 | h1 | h1
          · rw [hbitE _ (Or.inl h1)]
            rfl
          · rw [hbitE _ (Or.inr (Or.inl h1))]
            simp
          · rw [hbitE _ (Or.inr (Or.inr h1))]
            simp
        rcases List.mem_cons.mp ha with hae | har
        · have hbr : b ∈ rest := by
            rcases List.mem_cons.mp hb with hbe | hbr
            · exfalso
              apply hab
              rw [hae, hbe]
            · exact hbr
          have hbit := hzbit hae hbr hzab hnum
          exact batchDrain_conflict inv2 hwfr hm2 hnd2 ⟨b, hbr, hbit⟩ h
        · rcases List.mem_cons.mp hb with hbe | hbr
          · have hbit := hzbit hbe har (inSameZone_symm hzab) hnum.symm
            exact batchDrain_conflict inv2 hwfr hm2 hnd2 ⟨a, har, hbit⟩ h
          · exact ih inv2 hwfr hm2 hnd2 har hbr hab hzab hnum h

/-- A grid with the same digit twice in one row fails its first insertion
pass from a fresh solver. -/
theorem insertEntries_dup_err {g : Grid}
    (hle : ∀ c, c < 81 → g.getD c 0 ≤ 9)
    {i j : Nat} (hi : i < 81) (hj : j < 81) (hij : i ≠ j)
    (hrow : rowOf i = rowOf j)
    (hvij : g.getD i 0 = g.getD j 0) (hv0 : g.getD i 0 ≠ 0) :
    insertEntries Solver.new (stackFromSudoku g) = .error () := by
  have ha : (⟨i, g.getD i 0⟩ : Entry) ∈ stackFromSudoku g :=
    mem_stackFromSudoku.mpr ⟨hi, hv0, rfl⟩
  have hb : (⟨j, g.getD j 0⟩ : Entry) ∈ stackFromSudoku g :=
    mem_stackFromSudoku.mpr ⟨hj, by rw [← hvij]; exact hv0, rfl⟩
  have hwf := stackFromSudoku_wf hle
  have hnd := stackFromSudoku_nodupcells g
  have hmF : ∀ e ∈ stackFromSudoku g, Solver.new.mask e.cell ≠ 0 := by
    intro e he
    rcases mem_stackFromSudoku.mp he with ⟨hc', -, -⟩
    rw [new_mask e.cell hc']
    decide
  rcases hres : insertEntries Solver.new (stackFromSudoku g) with u | sx
  · cases u
    rfl
  · exfalso
    cases hstack : stackFromSudoku g with
    | nil =>
        rw [hstack] at ha
        exact absurd ha (List.not_mem_nil _)
    | cons e0 rest0 =>
        rw [hstack] at hres ha hb hwf hnd hmF
        by_cases hlen : (e0 :: rest0).length ≤ 4
        · rcases hs : insertEntriesSingly Solver.new (e0 :: rest0) with _ | ⟨sy, sty⟩
          · rw [insertEntries_singly_err hlen hs] at hres
            exact absurd hres (by simp)
          · have hB : Solver.new.nSolved + (e0 :: rest0).length ≤ 4 := by
              show 0 + (e0 :: rest0).length ≤ 4
              omega
            have hcnt : ∀ d, d < 81 → Solver.new.mask d ≠ 0 →
                9 ≤ popcnt (Solver.new.mask d) + Solver.new.nSolved := by
              intro d hd _
              rw [new_mask d hd]
              show 9 ≤ popcnt maskALL + 0
              decide
            exact singlyFewConflict inv_new hwf hB hcnt hmF hnd ha hb
              (by show i ≠ j; exact hij) (Or.inl hrow) (by show g.getD i 0 = g.getD j 0; exact hvij) hs
        · rcases hbb : batchInsertEntries Solver.new ((e0 :: rest0).reverse)
            with _ | ⟨sB, stB⟩
          · rw [insertEntries_batch_err hlen hbb] at hres
            exact absurd hres (by simp)
          · unfold batchInsertEntries at hbb
            rcases hd : batchDrainP Solver.new ((e0 :: rest0).reverse) with ⟨sD, flag⟩
            rw [hd] at hbb
            cases flag
            · exact absurd hbb (by simp)
            · have hwfR := StackWF_reverse hwf
              have hndR : ((e0 :: rest0).reverse).Pairwise (fun a b => a.cell ≠ b.cell) := by
                rw [List.pairwise_reverse]
                exact hnd.imp (fun hx hy => hx hy.symm)
              have hmR : ∀ e ∈ (e0 :: rest0).reverse, Solver.new.mask e.cell ≠ 0 :=
                fun e he => hmF e (List.mem_reverse.mp he)
              exact batchDrain_dup_false inv_new.toB hwfR hmR hndR
                (List.mem_reverse.mpr ha) (List.mem_reverse.mpr hb)
                (by show i ≠ j; exact hij) (Or.inl hrow)
                (by show g.getD i 0 = g.getD j 0; exact hvij) hd

/-- A failing first pass ends the search at once with the accumulated (empty)
solution list. -/
theorem goSolve_err {fuel limit : Nat} {s : Solver} {stack : List Entry}
    {sols : List Grid} (hf : fuel ≠ 0)
    (herr : insertEntriesRun s stack = .error ()) :
    goSolve fuel limit s stack sols = some (sols, 0) := by
  cases fuel with
  | zero => exact absurd rfl hf
  | succ fuel =>
      unfold goSolve
      rw [herr]

/-! ## The drain state read by `is_solved` -/

theorem batchDrainP_invB_any {es : List Entry} : ∀ {s s' : Solver} {b : Bool},
    InvB s → StackWF es → batchDrainP s es = (s', b) → InvB s' := by
  induction es with
  | nil =>
      intro s s' b inv _ h
      unfold batchDrainP at h
      simp only [Prod.mk.injEq] at h
      rw [← h.1]
      exact inv
  | cons e rest ih =>
      intro s s' b inv hwf h
      unfold batchDrainP at h
      have hwfr : StackWF rest := fun x hx => hwf x (List.mem_cons_of_mem e hx)
      have hwfe := hwf e (List.mem_cons_self e rest)
      by_cases h0 : s.mask e.cell = 0
      · rw [if_pos h0] at h
        exact ih inv hwfr h
      · rw [if_neg h0] at h
        by_cases hz : s.zmask (rowZone e.cell) &&& e.emask ≠ 0 ∨
            s.zmask (colZone e.cell) &&& e.emask ≠ 0 ∨
            s.zmask (fieldZone e.cell) &&& e.emask ≠ 0
        · rw [if_pos hz] at h
          simp only [Prod.mk.injEq] at h
          rw [← h.1]
          exact inv
        · rw [if_neg hz] at h
          push_neg at hz
          obtain ⟨hz1, hz2, hz3⟩ := hz
          have hzg : e.emask &&& s.zonesMaskOf e.cell = 0 := by
            unfold Solver.zonesMaskOf
            rw [land_lor_eq_zero_iff, land_lor_eq_zero_iff]
            rw [Nat.land_comm] at hz1 hz2 hz3
            exact ⟨⟨hz1, hz2⟩, hz3⟩
          exact ih (insertEntry_invB inv hwfe.1 hwfe.2 h0 hzg) hwfr h

/-- Drained cells come either from the start grid or from a drained entry. -/
theorem batchDrain_dom {es : List Entry} : ∀ {s s' : Solver} {b : Bool},
    batchDrainP s es = (s', b) →
    ∀ c, s'.grid.getD c 0 = s.grid.getD c 0 ∨
      ∃ e ∈ es, e.cell = c ∧ s'.grid.getD c 0 = e.num := by
  induction es with
  | nil =>
      intro s s' b h c
      unfold batchDrainP at h
      simp only [Prod.mk.injEq] at h
      rw [← h.1]
      exact Or.inl rfl
  | cons e rest ih =>
      intro s s' b h c
      unfold batchDrainP at h
      by_cases h0 : s.mask e.cell = 0
      · rw [if_pos h0] at h
        rcases ih h c with hl | ⟨e', he', hc⟩
        · exact Or.inl hl
        · exact Or.inr ⟨e', List.mem_cons_of_mem e he', hc⟩
      · rw [if_neg h0] at h
        by_cases hz : s.zmask (rowZone e.cell) &&& e.emask ≠ 0 ∨
            s.zmask (colZone e.cell) &&& e.emask ≠ 0 ∨
            s.zmask (fieldZone e.cell) &&& e.emask ≠ 0
        · rw [if_pos hz] at h
          simp only [Prod.mk.injEq] at h
          rw [← h.1]
          exact Or.inl rfl
        · rw [if_neg hz] at h
          rcases ih h c with hl | ⟨e', he', hc⟩
          · by_cases hec : e.cell = c
            · by_cases hrange : e.cell < s.grid.length
              · refine Or.inr ⟨e, List.mem_cons_self e rest, hec, ?_⟩
                rw [hl]
                show (s.grid.set e.cell e.num).getD c 0 = e.num
                rw [← hec]
                exact getD_set_self _ _ _ _ hrange
              · refine Or.inl ?_
                rw [hl]
                show (s.grid.set e.cell e.num).getD c 0 = s.grid.getD c 0
                rw [List.set_eq_of_length_le (by omega)]
            · refine Or.inl ?_
              rw [hl]
              show (s.grid.set e.cell e.num).getD c 0 = s.grid.getD c 0
              exact getD_set_ne _ _ _ hec
          · exact Or.inr ⟨e', List.mem_cons_of_mem e he', hc⟩

/-- A drain over distinct unsolved cells whose digits clash with nothing on
the grid nor with each other succeeds and solves one cell per entry. -/
theorem batchDrain_compat {es : List Entry} : ∀ {s : Solver},
    InvB s → StackWF es →
    (∀ x ∈ es, s.mask x.cell ≠ 0) →
    es.Pairwise (fun a b => a.cell ≠ b.cell) →
    (∀ e ∈ es, ∀ c, c < 81 → inSameZone c e.cell → s.grid.getD c 0 ≠ e.num) →
    es.Pairwise (fun a b => inSameZone a.cell b.cell → a.num ≠ b.num) →
    ∃ s', batchDrainP s es = (s', true) ∧ s'.nSolved = s.nSolved + es.length := by
  induction es with
  | nil =>
      intro s inv _ _ _ _ _
      exact ⟨s, rfl, by simp⟩
  | cons e rest ih =>
      intro s inv hwf hm hnd hcompat hpair
      have hm0 : s.mask e.cell ≠ 0 := hm e (List.mem_cons_self e rest)
      have hwfe := hwf e (List.mem_cons_self e rest)
      have hcell : e.cell < 81 := by
        by_contra hge
        push_neg at hge
        apply hm0
        unfold Solver.mask
        rw [List.getD_eq_getElem?_getD, List.getElem?_eq_none (by rw [inv.plen]; omega)]
        rfl
      have hznot : ∀ z, z < 27 → e.cell ∈ cellsOfZone z → s.zmask z &&& e.emask = 0 := by
        intro z hz27 hzmem
        by_contra hne
        have hbit : (s.zmask z).testBit (e.num - 1) = true :=
          land_single_bit_ne_zero.mp hne
        rw [inv.zoneEq z hz27] at hbit
        obtain ⟨c, hcz, hc0, hci⟩ := zoneUnion_testBit_inv hbit
        have hc81 : c < 81 := (mem_cellsOfZone.mp hcz).1
        have hveq : s.grid.getD c 0 = e.num := by
          have h1 := hwfe.1
          omega
        exact hcompat e (List.mem_cons_self e rest) c hc81
          (mem_cellsOfZone_sameZone hcz hzmem) hveq
      have hz1 : s.zmask (rowZone e.cell) &&& e.emask = 0 :=
        hznot _ (by have := rowZone_lt hcell; omega)
          (mem_cellsOfZone.mpr ⟨hcell, Or.inl rfl⟩)
      have hz2 : s.zmask (colZone e.cell) &&& e.emask = 0 :=
        hznot _ (by have := colZone_bounds e.cell; omega)
          (mem_cellsOfZone.mpr ⟨hcell, Or.inr (Or.inl rfl)⟩)
      have hz3 : s.zmask (fieldZone e.cell) &&& e.emask = 0 :=
        hznot _ (by have := fieldZone_bounds hcell; omega)
          (mem_cellsOfZone.mpr ⟨hcell, Or.inr (Or.inr rfl)⟩)
      have hzg : e.emask &&& s.zonesMaskOf e.cell = 0 := by
        unfold Solver.zonesMaskOf
        rw [land_lor_eq_zero_iff, land_lor_eq_zero_iff]
        rw [Nat.land_comm] at hz1 hz2 hz3
        exact ⟨⟨hz1, hz2⟩, hz3⟩
      have inv2 := insertEntry_invB inv hwfe.1 hwfe.2 hm0 hzg
      have hwfr : StackWF rest := fun x hx => hwf x (List.mem_cons_of_mem e hx)
      have hm2 : ∀ x ∈ rest, (insertEntry s e).mask x.cell ≠ 0 := by
        intro x hx
        have hne : x.cell ≠ e.cell :=
          fun hy => ((List.pairwise_cons.mp hnd).1 x hx) hy.symm
        unfold insertEntry Solver.mask
        simp only
        rw [getD_set_ne _ _ _ (fun hy => hne hy.symm)]
        exact hm x (List.mem_cons_of_mem e hx)
      have hnd2 := (List.pairwise_cons.mp hnd).2
      have hcompat2 : ∀ x ∈ rest, ∀ c, c < 81 → inSameZone c x.cell →
          (insertEntry s e).grid.getD c 0 ≠ x.num := by
        intro x hx c hc81 hzc
        by_cases hec : e.cell = c
        · have hval : (insertEntry s e).grid.getD c 0 = e.num := by
            show (s.grid.set e.cell e.num).getD c 0 = e.num
            rw [← hec]
            exact getD_set_self _ _ _ _ (by rw [inv.glen]; omega)
          rw [hval]
          apply (List.pairwise_cons.mp hpair).1 x hx
          rw [hec]
          exact hzc
        · have hval : (insertEntry s e).grid.getD c 0 = s.grid.getD c 0 := by
            show (s.grid.set e.cell e.num).getD c 0 = s.grid.getD c 0
            exact getD_set_ne _ _ _ hec
          rw [hval]
          exact hcompat x (List.mem_cons_of_mem e hx) c hc81 hzc
      have hpair2 := (List.pairwise_cons.mp hpair).2
      obtain ⟨s', hdr, hns⟩ := ih inv2 hwfr hm2 hnd2 hcompat2 hpair2
      refine ⟨s', ?_, ?_⟩
      · unfold batchDrainP
        rw [if_neg hm0]
        rw [if_neg (by push_neg; exact ⟨hz1, hz2, hz3⟩)]
        exact hdr
      · rw [hns]
        show (insertEntry s e).nSolved + rest.length = s.nSolved + (e :: rest).length
        rw [List.length_cons]
        show s.nSolved + 1 + rest.length = s.nSolved + (rest.length + 1)
        omega

theorem mem_gridEntriesAsc {g : Grid} {e : Entry} :
    e ∈ gridEntriesAsc g ↔
      e.cell < 81 ∧ g.getD e.cell 0 ≠ 0 ∧ e.num = g.getD e.cell 0 := by
  unfold gridEntriesAsc
  rw [List.mem_filterMap]
  constructor
  · rintro ⟨c, hc, heq⟩
    rw [List.mem_range] at hc
    by_cases h0 : g.getD c 0 = 0
    · rw [if_pos h0] at heq
      exact absurd heq (by simp)
    · rw [if_neg h0] at heq
      simp only [Option.some.injEq] at heq
      rw [← heq]
      exact ⟨hc, h0, rfl⟩
  · rintro ⟨hc, h0, hnum⟩
    obtain ⟨c0, n0⟩ := e
    refine ⟨c0, List.mem_range.mpr hc, ?_⟩
    have hnum' : n0 = g.getD c0 0 := hnum
    have h0' : ¬g.getD c0 0 = 0 := h0
    rw [if_neg h0', hnum']

theorem gridEntriesAsc_nodupcells (g : Grid) :
    (gridEntriesAsc g).Pairwise (fun a b => a.cell ≠ b.cell) := by
  unfold gridEntriesAsc
  rw [List.pairwise_filterMap]
  apply List.Pairwise.imp ?_ (List.pairwise_lt_range 81)
  intro a b hab x hx y hy
  by_cases ha : g.getD a 0 = 0
  · rw [if_pos ha] at hx
    exact absurd hx (by simp)
  · rw [if_neg ha] at hx
    by_cases hb : g.getD b 0 = 0
    · rw [if_pos hb] at hy
      exact absurd hy (by simp)
    · rw [if_neg hb] at hy
      simp only [Option.mem_def, Option.some.injEq] at hx hy
      rw [← hx, ← hy]
      intro hcc
      have hyx : a = b := hcc
      omega

theorem gridEntriesAsc_wf {g : Grid} (hle : ∀ c, c < 81 → g.getD c 0 ≤ 9) :
    StackWF (gridEntriesAsc g) := by
  intro e he
  rcases mem_gridEntriesAsc.mp he with ⟨hc, h0, hnum⟩
  constructor
  · rw [hnum]
    omega
  · rw [hnum]
    exact hle e.cell hc

theorem pairwise_range_bounds (n : Nat) :
    (List.range n).Pairwise (fun a b => a < b ∧ a < n ∧ b < n) := by
  rw [List.pairwise_iff_getElem]
  intro i j hi hj hij
  simp only [List.getElem_range]
  have hin : i < n := by simpa using hi
  have hjn : j < n := by simpa using hj
  exact ⟨hij, hin, hjn⟩

/-- Entries of a duplicate-free grid carry pairwise-compatible digits. -/
theorem gridEntriesAsc_compat {g : Grid}
    (hnd : ∀ i j, i < 81 → j < 81 → i ≠ j → inSameZone i j →
      g.getD i 0 ≠ 0 → g.getD i 0 ≠ g.getD j 0) :
    (gridEntriesAsc g).Pairwise (fun a b => inSameZone a.cell b.cell → a.num ≠ b.num) := by
  unfold gridEntriesAsc
  rw [List.pairwise_filterMap]
  apply List.Pairwise.imp ?_ (pairwise_range_bounds 81)
  rintro a b ⟨hab, ha81, hb81⟩ x hx y hy
  by_cases ha : g.getD a 0 = 0
  · rw [if_pos ha] at hx
    exact absurd hx (by simp)
  · rw [if_neg ha] at hx
    by_cases hb : g.getD b 0 = 0
    · rw [if_pos hb] at hy
      exact absurd hy (by simp)
    · rw [if_neg hb] at hy
      simp only [Option.mem_def, Option.some.injEq] at hx hy
      rw [← hx, ← hy]
      intro hz
      have hzz : inSameZone a b := hz
      exact hnd a b ha81 hb81 (by omega) hzz ha

theorem length_filterMap_countP {α β : Type} (f : α → Option β) (l : List α) :
    (l.filterMap f).length = l.countP (fun a => (f a).isSome) := by
  induction l with
  | nil => rfl
  | cons a t ih =>
      rw [List.filterMap_cons, List.countP_cons]
      rcases hfa : f a with _ | b
      · simp [ih]
      · simp [ih]

theorem gridEntriesAsc_length (g : Grid) : (gridEntriesAsc g).length = nClues g := by
  unfold gridEntriesAsc nClues
  rw [length_filterMap_countP]
  apply List.countP_congr
  intro c hc
  by_cases h0 : g.getD c 0 = 0 <;> simp [h0]

theorem gridComplete_iff {g : Grid} :
    gridComplete g = true ↔ ∀ c, c < 81 → 1 ≤ g.getD c 0 ∧ g.getD c 0 ≤ 9 := by
  unfold gridComplete
  rw [List.all_eq_true]
  constructor
  · intro h c hc
    have := h c (List.mem_range.mpr hc)
    simpa using this
  · intro h c hc
    have := h c (List.mem_range.mp hc)
    simpa using this

theorem gridNoDup_iff {g : Grid} :
    gridNoDup g = true ↔ ∀ i j, i < 81 → j < 81 → i ≠ j → inSameZone i j →
      g.getD i 0 ≠ g.getD j 0 := by
  unfold gridNoDup
  constructor
  · intro h i j hi hj hij hz
    have h1 := List.all_eq_true.mp h i (List.mem_range.mpr hi)
    have h2 := List.all_eq_true.mp h1 j (List.mem_range.mpr hj)
    have hszb : sameZoneB i j = true := by
      unfold sameZoneB
      unfold inSameZone at hz
      simp only [Bool.or_eq_true, beq_iff_eq]
      tauto
    simp only [Bool.or_eq_true, beq_iff_eq, Bool.not_eq_true',
      beq_eq_false_iff_ne, ne_eq] at h2
    rcases h2 with (h2 | h2) | h2
    · exact absurd h2 hij
    · rw [hszb] at h2
      exact absurd h2 (by simp)
    · exact h2
  · intro h
    rw [List.all_eq_true]
    intro i hi
    rw [List.all_eq_true]
    intro j hj
    have hi81 := List.mem_range.mp hi
    have hj81 := List.mem_range.mp hj
    by_cases hij : i = j
    · simp [hij]
    · by_cases hsz : sameZoneB i j
      · have hsz' : inSameZone i j := by
          unfold sameZoneB at hsz
          simp only [Bool.or_eq_true, beq_iff_eq] at hsz
          unfold inSameZone
          tauto
        have := h i j hi81 hj81 hij hsz'
        simp only [Bool.or_eq_true, beq_iff_eq, Bool.not_eq_true',
          beq_eq_false_iff_ne, ne_eq]
        tauto
      · simp [hsz]

/-- Pigeonhole: a complete duplicate-free grid covers all nine digits in
every zone. -/
theorem complete_nodup_allOnce {g : Grid}
    (hcomp : gridComplete g = true) (hnd : gridNoDup g = true) :
    allDigitsOnce g = true := by
  have hall := gridComplete_iff.mp hcomp
  have hdup := gridNoDup_iff.mp hnd
  unfold allDigitsOnce
  rw [List.all_eq_true]
  intro z hz
  rw [List.all_eq_true]
  intro k hk
  have hz27 := List.mem_range.mp hz
  have hk9 := List.mem_range.mp hk
  set l := (cellsOfZone z).map (fun c => g.getD c 0) with hl
  have hlen : l.length = 9 := by
    rw [hl, List.length_map]
    exact cellsOfZone_length z hz27
  have hnodup : l.Nodup := by
    rw [hl]
    apply List.Nodup.map_on ?_ (cellsOfZone_nodup z)
    intro x hx y hy hxy
    by_contra hne
    exact hdup x y (mem_cellsOfZone.mp hx).1 (mem_cellsOfZone.mp hy).1 hne
      (mem_cellsOfZone_sameZone hx hy) hxy
  have hmemv : ∀ v ∈ l, v ∈ Finset.Icc 1 9 := by
    intro v hv
    rw [hl] at hv
    rcases List.mem_map.mp hv with ⟨c, hc, hcv⟩
    have hc81 := (mem_cellsOfZone.mp hc).1
    rw [Finset.mem_Icc]
    rw [← hcv]
    exact hall c hc81
  have hsub : l.toFinset ⊆ Finset.Icc 1 9 := by
    intro v hv
    exact hmemv v (List.mem_toFinset.mp hv)
  have hcard : l.toFinset.card = 9 := by
    rw [List.toFinset_card_of_nodup hnodup, hlen]
  have hicc : l.toFinset = Finset.Icc 1 9 := by
    apply Finset.eq_of_subset_of_card_le hsub
    rw [hcard]
    simp
  have hmem : (k + 1) ∈ l := by
    rw [← List.mem_toFinset, hicc, Finset.mem_Icc]
    omega
  have h1 : 1 ≤ l.count (k + 1) := List.count_pos_iff.mpr hmem
  have h2 : l.count (k + 1) ≤ 1 := List.nodup_iff_count_le_one.mp hnodup (k + 1)
  have : l.count (k + 1) = 1 := by omega
  simp [this]

/-- `Sudoku::is_solved` decides exactly completeness plus zone validity. -/
theorem isSolved_iff {g : Grid} (hle : ∀ c, c < 81 → g.getD c 0 ≤ 9) :
    Sudoku.isSolved g = true ↔ gridComplete g = true ∧ gridNoDup g = true := by
  unfold Sudoku.isSolved
  rcases hd : batchDrainP Solver.new (gridEntriesAsc g) with ⟨sD, flag⟩
  rw [beq_iff_eq]
  have hwf := gridEntriesAsc_wf hle
  constructor
  · intro h81
    have h81' : sD.nSolved = 81 := h81
    have invD : InvB sD := batchDrainP_invB_any inv_new.toB hwf hd
    have hall : ∀ c, c < 81 → sD.grid.getD c 0 ≠ 0 := by
      intro c hc
      have hcnt : (List.range 81).countP (fun c => !(sD.grid.getD c 0 == 0)) = 81 := by
        rw [← invD.count, h81']
      have hlen : (List.range 81).countP (fun c => !(sD.grid.getD c 0 == 0)) =
          (List.range 81).length := by
        rw [hcnt]
        simp
      have := List.countP_eq_length.mp hlen c (List.mem_range.mpr hc)
      simp only [Bool.not_eq_true', beq_eq_false_iff_ne, ne_eq] at this
      exact this
    have hvals : ∀ c, c < 81 → sD.grid.getD c 0 = g.getD c 0 := by
      intro c hc
      rcases batchDrain_dom hd c with hl | ⟨e, he, hec, hval⟩
      · exfalso
        apply hall c hc
        rw [hl]
        show (List.replicate 81 0).getD c 0 = 0
        rw [getD_replicate]
        split <;> rfl
      · rcases mem_gridEntriesAsc.mp he with ⟨-, -, hnum⟩
        rw [hval, hnum, hec]
    constructor
    · rw [gridComplete_iff]
      intro c hc
      have h0 := hall c hc
      rw [hvals c hc] at h0
      exact ⟨by omega, hle c hc⟩
    · rw [gridNoDup_iff]
      intro i j hi hj hij hz
      have hres := invD.nodup i j hi hj hij hz (hall i hi)
      rw [hvals i hi, hvals j hj] at hres
      exact hres
  · rintro ⟨hcomp, hnd⟩
    have hcall := gridComplete_iff.mp hcomp
    have hdup := gridNoDup_iff.mp hnd
    have hm : ∀ x ∈ gridEntriesAsc g, Solver.new.mask x.cell ≠ 0 := by
      intro x hx
      rw [new_mask x.cell (mem_gridEntriesAsc.mp hx).1]
      decide
    have hcompat : ∀ e ∈ gridEntriesAsc g, ∀ c, c < 81 → inSameZone c e.cell →
        Solver.new.grid.getD c 0 ≠ e.num := by
      intro e he c hc _
      have h0 : Solver.new.grid.getD c 0 = 0 := by
        show (List.replicate 81 0).getD c 0 = 0
        rw [getD_replicate]
        split <;> rfl
      rw [h0]
      rcases mem_gridEntriesAsc.mp he with ⟨-, hne0, hnum⟩
      rw [hnum]
      exact fun hx => hne0 hx.symm
    have hpairc := gridEntriesAsc_compat (fun i j hi hj hij hz _ => hdup i j hi hj hij hz)
    obtain ⟨s', hdr, hns⟩ := batchDrain_compat inv_new.toB hwf hm
      (gridEntriesAsc_nodupcells g) hcompat hpairc
    rw [hd] at hdr
    simp only [Prod.mk.injEq] at hdr
    show sD.nSolved = 81
    rw [hdr.1, hns]
    show Solver.new.nSolved + (gridEntriesAsc g).length = 81
    rw [gridEntriesAsc_length]
    show 0 + nClues g = 81
    have hnc : nClues g = 81 := by
      unfold nClues
      have hall81 : ∀ c ∈ List.range 81, (fun c => !(g.getD c 0 == 0)) c = true := by
        intro c hc
        have := (hcall c (List.mem_range.mp hc)).1
        simp only [Bool.not_eq_true', beq_eq_false_iff_ne, ne_eq]
        omega
      rw [List.countP_eq_length.mpr hall81]
      simp
    omega

/-! ## The clue-digit census of `solve_unique` -/

theorem numsContained_aux {g : Grid} (k : Nat) :
    ∀ (l : List Nat) (acc : Nat),
    ((l.foldl (fun a c => if g.getD c 0 = 0 then a else a ||| (1 <<< g.getD c 0)) acc).testBit k
        = true) ↔
      (acc.testBit k = true ∨ ∃ c ∈ l, g.getD c 0 ≠ 0 ∧ g.getD c 0 = k) := by
  intro l
  induction l with
  | nil =>
      intro acc
      simp
  | cons c cs ih =>
      intro acc
      rw [List.foldl_cons]
      by_cases h0 : g.getD c 0 = 0
      · rw [if_pos h0, ih]
        constructor
        · rintro (h | ⟨c', hc', hp⟩)
          · exact Or.inl h
          · exact Or.inr ⟨c', List.mem_cons_of_mem c hc', hp⟩
        · rintro (h | ⟨c', hc', hp⟩)
          · exact Or.inl h
          · rcases List.mem_cons.mp hc' with hcc | hcc
            · rw [hcc] at hp
              exact absurd h0 hp.1
            · exact Or.inr ⟨c', hcc, hp⟩
      · rw [if_neg h0, ih]
        have hsh : ((1 <<< g.getD c 0 : Nat).testBit k = true) ↔ g.getD c 0 = k := by
          rw [Nat.one_shiftLeft, Nat.testBit_two_pow]
          simp
        constructor
        · rintro (h | ⟨c', hc', hp⟩)
          · simp only [Nat.testBit_lor, Bool.or_eq_true] at h
            rcases h with h | h
            · exact Or.inl h
            · exact Or.inr ⟨c, List.mem_cons_self c cs, h0, hsh.mp h⟩
          · exact Or.inr ⟨c', List.mem_cons_of_mem c hc', hp⟩
        · rintro (h | ⟨c', hc', hp⟩)
          · refine Or.inl ?_
            simp only [Nat.testBit_lor, Bool.or_eq_true]
            exact Or.inl h
          · rcases List.mem_cons.mp hc' with hcc | hcc
            · refine Or.inl ?_
              simp only [Nat.testBit_lor, Bool.or_eq_true]
              refine Or.inr (hsh.mpr ?_)
              rw [← hcc]
              exact hp.2
            · exact Or.inr ⟨c', hcc, hp⟩

theorem numsContained_testBit {g : Grid} (k : Nat) :
    ((numsContained g).testBit k = true) ↔
      ∃ c ∈ List.range 81, g.getD c 0 ≠ 0 ∧ g.getD c 0 = k := by
  unfold numsContained
  rw [numsContained_aux]
  simp [Nat.zero_testBit]

/-- The set of distinct digit values among a grid's clues. -/
def distinctClueDigits (g : Grid) : Finset Nat :=
  ((Finset.range 81).filter (fun c => g.getD c 0 ≠ 0)).image (fun c => g.getD c 0)

/-- `count_ones` of `nums_contained` is the number of distinct clue digits. -/
theorem popcnt_numsContained {g : Grid} (hle : ∀ c, c < 81 → g.getD c 0 ≤ 9) :
    popcnt (numsContained g) = (distinctClueDigits g).card := by
  unfold popcnt
  have hnd : ((List.range 16).filter (fun i => (numsContained g).testBit i)).Nodup :=
    (List.nodup_range 16).filter _
  rw [← List.toFinset_card_of_nodup hnd]
  congr 1
  apply Finset.ext
  intro k
  rw [List.mem_toFinset, List.mem_filter, List.mem_range]
  unfold distinctClueDigits
  rw [Finset.mem_image]
  constructor
  · rintro ⟨hk16, hbit⟩
    obtain ⟨c, hcr, hc0, hck⟩ := (numsContained_testBit k).mp hbit
    exact ⟨c, Finset.mem_filter.mpr
      ⟨Finset.mem_range.mpr (List.mem_range.mp hcr), hc0⟩, hck⟩
  · rintro ⟨c, hc, hck⟩
    rcases Finset.mem_filter.mp hc with ⟨hcr, hc0⟩
    have hc81 := Finset.mem_range.mp hcr
    constructor
    · have := hle c hc81
      omega
    · exact (numsContained_testBit k).mpr ⟨c, List.mem_range.mpr hc81, hc0, hck⟩

/-! ## Reachable solver states -/

/-- States the search can visit: the fresh solver, successfully inserted
well-formed stacks, successful candidate removals (the guess retraction),
and cursor updates (the guess-cell scan). -/
inductive Reachable : Solver → Prop where
  | new : Reachable Solver.new
  | insert {s : Solver} {stack : List Entry} {s' : Solver} :
      Reachable s → StackWF stack → insertEntries s stack = .ok s' → Reachable s'
  | retract {s : Solver} {cell imp : Nat} {st : List Entry} {s' : Solver}
      {st' : List Entry} :
      Reachable s → removeImposs s cell imp st = .ok (s', st') → Reachable s'
  | cursor {s : Solver} (l : Nat) :
      Reachable s → Reachable { s with lastCell := l }

theorem reachable_inv {s : Solver} (h : Reachable s) : Inv s := by
  induction h with
  | new => exact inv_new
  | insert _ hwf hins ih => exact insertEntries_inv ih hwf hins
  | retract _ hrem ih => exact (removeImposs_inv ih hrem).1
  | cursor l _ ih => exact inv_lastCell ih l

/-! ## Termination and depth accounting for the search drivers -/

theorem countP_mono_pred {l : List Nat} {p q : Nat → Bool}
    (h : ∀ a ∈ l, p a = true → q a = true) : l.countP p ≤ l.countP q := by
  induction l with
  | nil => simp
  | cons a t ih =>
      rw [List.countP_cons, List.countP_cons]
      have ht : ∀ a ∈ t, p a = true → q a = true :=
        fun x hx => h x (List.mem_cons_of_mem a hx)
      by_cases hp : p a = true
      · rw [if_pos hp, if_pos (h a (List.mem_cons_self a t) hp)]
        have := ih ht
        omega
      · rw [if_neg hp]
        have := ih ht
        omega

theorem countP_partition {l : List Nat} {p q r : Nat → Bool}
    (h1 : ∀ a, p a = true ↔ (q a = true ∨ r a = true))
    (h2 : ∀ a, ¬(q a = true ∧ r a = true)) :
    l.countP p = l.countP q + l.countP r := by
  induction l with
  | nil => simp
  | cons a t ih =>
      rw [List.countP_cons, List.countP_cons, List.countP_cons]
      by_cases hp : p a = true
      · rcases (h1 a).mp hp with hq | hr
        · have hrn : ¬r a = true := fun hr => h2 a ⟨hq, hr⟩
          rw [if_pos hp, if_pos hq, if_neg hrn]
          omega
        · have hqn : ¬q a = true := fun hq => h2 a ⟨hq, hr⟩
          rw [if_pos hp, if_neg hqn, if_pos hr]
          omega
      · have hqn : ¬q a = true := fun hq => hp ((h1 a).mpr (Or.inl hq))
        have hrn : ¬r a = true := fun hr => hp ((h1 a).mpr (Or.inr hr))
        rw [if_neg hp, if_neg hqn, if_neg hrn]
        omega

theorem popcnt_eq_countP (m : Nat) :
    popcnt m = (List.range 16).countP (fun i => m.testBit i) := by
  unfold popcnt
  rw [List.countP_eq_length_filter]

/-- Bitwise containment gives a candidate-count bound. -/
theorem popcnt_mono_subset {a b : Nat}
    (h : ∀ i, a.testBit i = true → b.testBit i = true) : popcnt a ≤ popcnt b := by
  rw [popcnt_eq_countP, popcnt_eq_countP]
  exact countP_mono_pred (fun i _ hi => h i hi)

/-- The candidate count splits along any removal. -/
theorem popcnt_split (m o : Nat) :
    popcnt m = popcnt (maskRemove m o) + popcnt (m &&& o) := by
  rw [popcnt_eq_countP, popcnt_eq_countP, popcnt_eq_countP]
  apply countP_partition
  · intro i
    rw [maskRemove_testBit, Nat.testBit_and]
    cases hm : m.testBit i <;> cases ho : o.testBit i <;> simp
  · intro i
    rw [maskRemove_testBit, Nat.testBit_and]
    cases hm : m.testBit i <;> cases ho : o.testBit i <;> simp

/-- A removal that actually deletes a present digit strictly shrinks the
candidate count. -/
theorem popcnt_maskRemove_lt {m o : Nat} (hm : m < 65536)
    (hne : m &&& o ≠ 0) : popcnt (maskRemove m o) < popcnt m := by
  have hsplit := popcnt_split m o
  have hpos : 0 < popcnt (m &&& o) := by
    apply popcnt_pos ?_ hne
    have := Nat.and_le_left (n := m) (m := o)
    omega
  omega

/-- Total number of candidate digits over the whole board. -/
def Bsum (s : Solver) : Nat := ∑ c ∈ Finset.range 81, popcnt (s.mask c)

/-- Per-edge measure of the recursive search: candidates plus unsolved
cells, with a tiebreaker for the no-op empty-stack insertion. -/
def searchMeasure (s : Solver) (stack : List Entry) : Nat :=
  2 * (unsolvedCount s + Bsum s) + (if stack = [] then 1 else 0)

theorem Bsum_le_of_subset {s s' : Solver}
    (h : ∀ c i, (s'.mask c).testBit i = true → (s.mask c).testBit i = true) :
    Bsum s' ≤ Bsum s := by
  unfold Bsum
  exact Finset.sum_le_sum (fun c _ => popcnt_mono_subset (h c))

/-! ### Bitwise containment through every operation -/

theorem removeImposs_testBit {s : Solver} {cell imp : Nat} {st : List Entry}
    {s' : Solver} {st' : List Entry}
    (h : removeImposs s cell imp st = .ok (s', st')) :
    ∀ d i, (s'.mask d).testBit i = true → (s.mask d).testBit i = true := by
  obtain ⟨-, -, -, -, hposs, -, -⟩ := removeImposs_ok h
  intro d i hi
  unfold Solver.mask at hi
  rw [hposs] at hi
  by_cases hdc : cell = d
  · subst hdc
    by_cases hcl : cell < s.cellPoss.length
    · rw [getD_set_self _ _ _ _ hcl] at hi
      exact maskRemove_subset i hi
    · rw [List.set_eq_of_length_le (by omega)] at hi
      exact hi
  · rw [getD_set_ne _ _ _ hdc] at hi
    exact hi

theorem insertEntry_testBit {s : Solver} {e : Entry} :
    ∀ d i, ((insertEntry s e).mask d).testBit i = true → (s.mask d).testBit i = true := by
  intro d i hi
  unfold insertEntry Solver.mask at hi
  simp only at hi
  by_cases hdc : e.cell = d
  · subst hdc
    by_cases hcl : e.cell < s.cellPoss.length
    · rw [getD_set_self _ _ _ _ hcl] at hi
      simp [Nat.zero_testBit] at hi
    · rw [List.set_eq_of_length_le (by omega)] at hi
      exact hi
  · rw [getD_set_ne _ _ _ hdc] at hi
    exact hi

theorem singly_testBit {s : Solver} {stack : List Entry} {s' : Solver}
    {st' : List Entry} (h : insertEntriesSingly s stack = .ok (s', st')) :
    ∀ d i, (s'.mask d).testBit i = true → (s.mask d).testBit i = true := by
  induction s, stack using insertEntriesSingly.induct with
  | case1 s =>
      rw [singly_nil] at h
      simp only [Except.ok.injEq, Prod.mk.injEq] at h
      rw [← h.1]
      exact fun d i hi => hi
  | case2 s e rest hskip ih =>
      rw [insertEntriesSingly] at h
      rw [dif_pos hskip] at h
      exact ih h
  | case3 s e rest hskip himp =>
      rw [insertEntriesSingly] at h
      rw [dif_neg hskip, if_pos himp] at h
      exact absurd h (by simp)
  | case4 s e rest hskip himp u hequ =>
      rw [singly_cons_err hskip himp hequ] at h
      exact absurd h (by simp)
  | case5 s e rest hskip himp s2 st2 hnf hlen =>
      rw [singly_cons_insert hskip himp hnf, if_pos hlen] at h
      simp only [Except.ok.injEq, Prod.mk.injEq] at h
      rw [← h.1]
      intro d i hi
      exact insertEntry_testBit d i (neighFold_testBit hnf d i hi)
  | case6 s e rest hskip himp s2 st2 hnf hlen ih =>
      rw [singly_cons_insert hskip himp hnf, if_neg hlen] at h
      intro d i hi
      exact insertEntry_testBit d i (neighFold_testBit hnf d i (ih h d i hi))

theorem batchDrain_testBit {es : List Entry} : ∀ {s s' : Solver} {b : Bool},
    batchDrainP s es = (s', b) →
    ∀ d i, (s'.mask d).testBit i = true → (s.mask d).testBit i = true := by
  induction es with
  | nil =>
      intro s s' b h
      unfold batchDrainP at h
      simp only [Prod.mk.injEq] at h
      rw [← h.1]
      exact fun d i hi => hi
  | cons e rest ih =>
      intro s s' b h
      unfold batchDrainP at h
      by_cases h0 : s.mask e.cell = 0
      · rw [if_pos h0] at h
        exact ih h
      · rw [if_neg h0] at h
        by_cases hz : s.zmask (rowZone e.cell) &&& e.emask ≠ 0 ∨
            s.zmask (colZone e.cell) &&& e.emask ≠ 0 ∨
            s.zmask (fieldZone e.cell) &&& e.emask ≠ 0
        · rw [if_pos hz] at h
          simp only [Prod.mk.injEq] at h
          rw [← h.1]
          exact fun d i hi => hi
        · rw [if_neg hz] at h
          exact fun d i hi => insertEntry_testBit d i (ih h d i hi)

theorem batchRecompute_testBit {cells : List Nat} : ∀ {s : Solver} {st : List Entry}
    {s' : Solver} {st' : List Entry},
    batchRecompute s cells st = .ok (s', st') →
    ∀ d i, (s'.mask d).testBit i = true → (s.mask d).testBit i = true := by
  induction cells with
  | nil =>
      intro s st s' st' h
      unfold batchRecompute at h
      simp only [Except.ok.injEq, Prod.mk.injEq] at h
      rw [← h.1]
      exact fun d i hi => hi
  | cons c cs ih =>
      intro s st s' st' h
      unfold batchRecompute at h
      by_cases h0 : s.mask c = 0
      · rw [if_pos h0] at h
        exact ih h
      · rw [if_neg h0] at h
        rcases hr : removeImposs s c (s.zonesMaskOf c) st with _ | ⟨s1, st1⟩
        · rw [hr] at h
          exact absurd h (by simp)
        · rw [hr] at h
          exact fun d i hi => removeImposs_testBit hr d i (ih h d i hi)

theorem batch_testBit {es : List Entry} {s s' : Solver} {st' : List Entry}
    (h : batchInsertEntries s es = .ok (s', st')) :
    ∀ d i, (s'.mask d).testBit i = true → (s.mask d).testBit i = true := by
  unfold batchInsertEntries at h
  rcases hd : batchDrainP s es with ⟨s1, b⟩
  rw [hd] at h
  cases b
  · exact absurd h (by simp)
  · have h2 : batchRecompute s1 (List.range 81) [] = .ok (s', st') := h
    exact fun d i hi => batchDrain_testBit hd d i (batchRecompute_testBit h2 d i hi)

theorem insertEntries_testBit {s : Solver} {stack : List Entry} {s' : Solver}
    (h : insertEntries s stack = .ok s') :
    ∀ d i, (s'.mask d).testBit i = true → (s.mask d).testBit i = true := by
  induction s, stack using insertEntries.induct with
  | case1 s =>
      rw [insertEntries_nil] at h
      simp only [Except.ok.injEq] at h
      rw [← h]
      exact fun d i hi => hi
  | case2 s e rest hlen u hequ =>
      rw [insertEntries_singly_err hlen hequ] at h
      exact absurd h (by simp)
  | case3 s e rest hlen s1 st1 hs ih =>
      rw [insertEntries_singly_ok hlen hs] at h
      exact fun d i hi => singly_testBit hs d i (ih h d i hi)
  | case4 s e rest hlen u hequ =>
      rw [insertEntries_batch_err hlen hequ] at h
      exact absurd h (by simp)
  | case5 s e rest hlen s1 st1 hb ih =>
      rw [insertEntries_batch_ok hlen hb] at h
      exact fun d i hi => batch_testBit hb d i (ih h d i hi)

theorem singly_unsolved_le {s : Solver} {stack : List Entry} {s' : Solver}
    {st' : List Entry} (h : insertEntriesSingly s stack = .ok (s', st')) :
    unsolvedCount s' ≤ unsolvedCount s := by
  cases stack with
  | nil =>
      rw [singly_nil] at h
      simp only [Except.ok.injEq, Prod.mk.injEq] at h
      rw [← h.1]
  | cons e rest =>
      rcases singly_measure h (by simp) with h1 | ⟨h1, -⟩
      · omega
      · rw [h1]

theorem insertEntries_unsolved_le {s : Solver} {stack : List Entry} {s' : Solver}
    (h : insertEntries s stack = .ok s') :
    unsolvedCount s' ≤ unsolvedCount s := by
  induction s, stack using insertEntries.induct with
  | case1 s =>
      rw [insertEntries_nil] at h
      simp only [Except.ok.injEq] at h
      rw [← h]
  | case2 s e rest hlen u hequ =>
      rw [insertEntries_singly_err hlen hequ] at h
      exact absurd h (by simp)
  | case3 s e rest hlen s1 st1 hs ih =>
      rw [insertEntries_singly_ok hlen hs] at h
      have h1 := singly_unsolved_le hs
      have h2 := ih h
      omega
  | case4 s e rest hlen u hequ =>
      rw [insertEntries_batch_err hlen hequ] at h
      exact absurd h (by simp)
  | case5 s e rest hlen s1 st1 hb ih =>
      rw [insertEntries_batch_ok hlen hb] at h
      have h2 := ih h
      rcases batch_measure hb with h1 | ⟨h1, -⟩ <;> omega

/-- The eager pass on a stack whose first entry is still unsolved strictly
reduces the unsolved count. -/
theorem singly_head_strict {s : Solver} {e : Entry} {rest : List Entry}
    {s' : Solver} {st' : List Entry} (hm0 : s.mask e.cell ≠ 0)
    (h : insertEntriesSingly s (e :: rest) = .ok (s', st')) :
    unsolvedCount s' < unsolvedCount s := by
  by_cases himp : s.mask e.cell &&& e.emask = 0
  · rw [insertEntriesSingly] at h
    rw [dif_neg hm0, if_pos himp] at h
    exact absurd h (by simp)
  · rcases hnf : neighFold (insertEntry s e) (neighbours e.cell) e.emask rest
      with _ | ⟨s2, st2⟩
    · rw [singly_cons_err hm0 himp hnf] at h
      exact absurd h (by simp)
    · rw [singly_cons_insert hm0 himp hnf] at h
      have hu2 : unsolvedCount s2 < unsolvedCount s := by
        have h1 := insertEntry_unsolved hm0
        have h2 := (neighFold_unsolved hnf).1
        omega
      by_cases hlen : st2.length > 4
      · rw [if_pos hlen] at h
        simp only [Except.ok.injEq, Prod.mk.injEq] at h
        rw [← h.1]
        exact hu2
      · rw [if_neg hlen] at h
        have := singly_unsolved_le h
        omega

/-- Inserting a nonempty stack whose first entry is unsolved strictly
reduces the unsolved count. -/
theorem insertEntries_strict {s : Solver} {e : Entry} {rest : List Entry}
    {s' : Solver} (hm0 : s.mask e.cell ≠ 0)
    (h : insertEntries s (e :: rest) = .ok s') :
    unsolvedCount s' < unsolvedCount s := by
  by_cases hlen : (e :: rest).length ≤ 4
  · rcases hs : insertEntriesSingly s (e :: rest) with _ | ⟨s1, st1⟩
    · rw [insertEntries_singly_err hlen hs] at h
      exact absurd h (by simp)
    · rw [insertEntries_singly_ok hlen hs] at h
      have h1 := singly_head_strict hm0 hs
      have h2 := insertEntries_unsolved_le h
      omega
  · rcases hb : batchInsertEntries s ((e :: rest).reverse) with _ | ⟨s1, st1⟩
    · rw [insertEntries_batch_err hlen hb] at h
      exact absurd h (by simp)
    · rw [insertEntries_batch_ok hlen hb] at h
      have h2 := insertEntries_unsolved_le h
      rcases batch_measure hb with h1 | ⟨-, -, hall⟩
      · omega
      · exfalso
        apply hm0
        apply hall
        rw [List.mem_reverse]
        exact List.mem_cons_self e rest

/-- Retracting a still-present candidate strictly shrinks the board's
candidate total. -/
theorem removeImposs_Bsum_lt {s : Solver} {cell imp : Nat} {st : List Entry}
    {s' : Solver} {st' : List Entry}
    (hm : s.mask cell < 65536) (hne : s.mask cell &&& imp ≠ 0)
    (hcell : cell < 81)
    (h : removeImposs s cell imp st = .ok (s', st')) : Bsum s' < Bsum s := by
  obtain ⟨-, -, -, -, hposs, -, -⟩ := removeImposs_ok h
  have hm0 : s.mask cell ≠ 0 := by
    intro h0
    apply hne
    rw [h0]
    simp
  have hcl : cell < s.cellPoss.length := by
    by_contra hge
    push_neg at hge
    apply hm0
    unfold Solver.mask
    rw [List.getD_eq_getElem?_getD, List.getElem?_eq_none (by omega)]
    rfl
  have hmask : s'.mask cell = maskRemove (s.mask cell) imp := by
    unfold Solver.mask
    rw [hposs]
    exact getD_set_self _ _ _ _ hcl
  unfold Bsum
  apply Finset.sum_lt_sum
  · intro c _
    exact popcnt_mono_subset (removeImposs_testBit h c)
  · refine ⟨cell, Finset.mem_range.mpr hcell, ?_⟩
    rw [hmask]
    exact popcnt_maskRemove_lt hm hne

theorem insertEntries_Bsum_le {s : Solver} {stack : List Entry} {s' : Solver}
    (h : insertEntries s stack = .ok s') : Bsum s' ≤ Bsum s :=
  Bsum_le_of_subset (fun c i => insertEntries_testBit h c i)

/-- The overall measure is bounded on invariant states. -/
theorem searchMeasure_le {s : Solver} (inv : Inv s) (stack : List Entry) :
    searchMeasure s stack ≤ 1621 := by
  unfold searchMeasure
  have hu : unsolvedCount s ≤ 81 := by
    unfold unsolvedCount
    calc (List.range s.cellPoss.length).countP _
        ≤ (List.range s.cellPoss.length).length := List.countP_le_length _
      _ = 81 := by rw [List.length_range, inv.plen]
  have hB : Bsum s ≤ 729 := by
    unfold Bsum
    calc ∑ c ∈ Finset.range 81, popcnt (s.mask c)
        ≤ ∑ _c ∈ Finset.range 81, 9 :=
          Finset.sum_le_sum (fun c hc =>
            popcnt_le_9 (inv.maskLe c (Finset.mem_range.mp hc)))
      _ = 729 := by simp
  by_cases hst : stack = [] <;> simp [hst] <;> omega

/-- The stacks the search hands to the inserter: well-formed, and a nonempty
one starts at a still-unsolved cell. -/
def GoodStack (s : Solver) (stack : List Entry) : Prop :=
  StackWF stack ∧ ∀ e rest, stack = e :: rest → s.mask e.cell ≠ 0

theorem insert_edge {s : Solver} {stack : List Entry} {s1 : Solver}
    (hgood : GoodStack s stack) (h : insertEntries s stack = .ok s1) :
    2 * (unsolvedCount s1 + Bsum s1) + 1 ≤ searchMeasure s stack := by
  cases stack with
  | nil =>
      rw [insertEntries_nil] at h
      simp only [Except.ok.injEq] at h
      rw [← h]
      unfold searchMeasure
      simp
  | cons e rest =>
      have hm0 := hgood.2 e rest rfl
      have h1 := insertEntries_strict hm0 h
      have h2 := insertEntries_Bsum_le h
      unfold searchMeasure
      rw [if_neg (by simp)]
      omega

theorem removeImposs_stack_head {s : Solver} {cell imp : Nat} {s' : Solver}
    {st' : List Entry} (h : removeImposs s cell imp [] = .ok (s', st')) :
    ∀ e rest, st' = e :: rest → s'.mask e.cell ≠ 0 := by
  obtain ⟨-, -, -, -, hposs, hne, hst⟩ := removeImposs_ok h
  intro e rest heq
  rcases hst with hst | hst
  · rw [hst] at heq
    exact absurd heq (by simp)
  · rw [hst] at heq
    simp only [List.cons.injEq] at heq
    have hcl : cell < s.cellPoss.length := by
      by_contra hge
      push_neg at hge
      apply hne
      have h0 : s.mask cell = 0 := by
        unfold Solver.mask
        rw [List.getD_eq_getElem?_getD, List.getElem?_eq_none (by omega)]
        rfl
      rw [h0]
      unfold maskRemove
      simp
    have hmask : s'.mask cell = maskRemove (s.mask cell) imp := by
      unfold Solver.mask
      rw [hposs]
      exact getD_set_self _ _ _ _ hcl
    rw [← heq.1]
    show s'.mask cell ≠ 0
    rw [hmask]
    exact hne

theorem maskDigits_getD_testBit {m r : Nat} (hm : m ≤ 511) (h0 : m ≠ 0) :
    m.testBit ((maskDigits m).getD (r % popcnt m) 0 - 1) = true := by
  have hlen : (maskDigits m).length = popcnt m := by
    unfold maskDigits popcnt
    rw [List.length_map]
  have hpos : 0 < popcnt m := popcnt_pos (by omega) h0
  have hidx : r % popcnt m < (maskDigits m).length := by
    rw [hlen]
    exact Nat.mod_lt _ hpos
  have hmem : (maskDigits m).getD (r % popcnt m) 0 ∈ maskDigits m := by
    rw [List.getD_eq_getElem?_getD, List.getElem?_eq_getElem hidx]
    apply List.getElem_mem
  rcases List.mem_map.mp hmem with ⟨i, hi, hmapeq⟩
  rcases List.mem_filter.mp hi with ⟨hir, hib⟩
  have hib' : m.testBit i = true := hib
  have hval : (maskDigits m).getD (r % popcnt m) 0 = i + 1 := hmapeq.symm
  rw [hval]
  simpa using hib'

/-- With a step budget above the measure, the counting search cannot run
out of budget. -/
theorem goSolve_total : ∀ (fuel : Nat) {limit : Nat} {s : Solver}
    {stack : List Entry} {sols : List Grid}, Inv s → GoodStack s stack →
    searchMeasure s stack < fuel →
    goSolve fuel limit s stack sols ≠ none := by
  intro fuel
  induction fuel with
  | zero =>
      intro limit s stack sols _ _ hm
      exact absurd hm (by omega)
  | succ fuel IH =>
      intro limit s stack sols inv hgood hm
      intro hnone
      unfold goSolve at hnone
      split at hnone
      · simp at hnone
      · rename_i s1 hi
        have hie : insertEntries s stack = .ok s1 := by
          rw [← insertEntriesRun_eq]
          exact hi
        have inv1 : Inv s1 := insertEntries_inv inv hgood.1 hie
        have hedge := insert_edge hgood hie
        split at hnone
        · simp at hnone
        · rename_i hn
          split at hnone
          · simp at hnone
          · rename_i st1 hf
            have hok := findHiddenSingles_ok (inv_maskLe_all inv1) hf
            split at hnone
            · rename_i e rest
              have hgood1 : GoodStack s1 (e :: rest) := by
                refine ⟨hok.toWF, ?_⟩
                intro e' rest' heq
                have hmem : e' ∈ (e :: rest) := by
                  rw [heq]
                  exact List.mem_cons_self e' rest'
                have := (hok e' hmem).2.2
                intro h0
                apply this
                rw [h0]
                simp
              have hms : searchMeasure s1 (e :: rest) < fuel := by
                unfold searchMeasure
                rw [if_neg (by simp)]
                omega
              exact IH inv1 hgood1 hms hnone
            · have inv2 : Inv (findGoodGuess s1).1 := inv_lastCell inv1 _
              have hgc := findCellMinPoss_good inv1 hn
              have hlt511 : s1.mask (findCellMinPoss s1).1 ≤ 511 :=
                inv1.maskLe _ hgc.1
              have hone := onePossibility_bounds hlt511 hgc.2
              have hgood2 : GoodStack (findGoodGuess s1).1 [(findGoodGuess s1).2] := by
                constructor
                · intro e' he'
                  have he2 : e' = (findGoodGuess s1).2 := by simpa using he'
                  rw [he2]
                  exact hone
                · intro e' rest' heq
                  simp only [List.cons.injEq] at heq
                  rw [← heq.1]
                  show s1.mask (findCellMinPoss s1).1 ≠ 0
                  exact hgc.2
              have hmu2 : unsolvedCount (findGoodGuess s1).1 = unsolvedCount s1 := rfl
              have hmB2 : Bsum (findGoodGuess s1).1 = Bsum s1 := rfl
              have hcm : searchMeasure (findGoodGuess s1).1 [(findGoodGuess s1).2] =
                  2 * (unsolvedCount s1 + Bsum s1) := by
                unfold searchMeasure
                rw [if_neg (by simp), hmu2, hmB2]
                omega
              split at hnone
              · rename_i hchild
                exact IH inv2 hgood2 (by omega) hchild
              · rename_i sols1 dchild hchild
                split at hnone
                · simp at hnone
                · split at hnone
                  · simp at hnone
                  · rename_i s3 st3 hr
                    have hri := removeImposs_inv inv2 hr
                    have hgood3 : GoodStack s3 st3 :=
                      ⟨hri.2 StackWF_nil, removeImposs_stack_head hr⟩
                    have hbit : s1.mask (findCellMinPoss s1).1 &&&
                        (findGoodGuess s1).2.emask ≠ 0 := by
                      apply land_single_bit_ne_zero.mpr
                      exact onePossibility_mem (by omega) hgc.2
                    have hmlt : (findGoodGuess s1).1.mask (findGoodGuess s1).2.cell
                        < 65536 := by
                      show s1.mask (findCellMinPoss s1).1 < 65536
                      omega
                    have hbit2 : (findGoodGuess s1).1.mask (findGoodGuess s1).2.cell &&&
                        (findGoodGuess s1).2.emask ≠ 0 := hbit
                    have hcell2 : (findGoodGuess s1).2.cell < 81 := hgc.1
                    have hB3' := removeImposs_Bsum_lt hmlt hbit2 hcell2 hr
                    have hB3 : Bsum s3 < Bsum s1 := by
                      rw [← hmB2]
                      exact hB3'
                    have hu3 : unsolvedCount s3 = unsolvedCount s1 :=
                      (removeImposs_unsolved hr).trans hmu2
                    have hms3 : searchMeasure s3 st3 < fuel := by
                      have hbound : searchMeasure s3 st3 ≤
                          2 * (unsolvedCount s3 + Bsum s3) + 1 := by
                        unfold searchMeasure
                        split <;> omega
                      omega
                    split at hnone
                    · rename_i hrest
                      exact IH hri.1 hgood3 hms3 hrest
                    · simp at hnone

/-- With a step budget above the measure, the randomized search cannot run
out of budget. -/
theorem goRandom_total : ∀ (fuel : Nat) {rng : List Nat} {s : Solver}
    {stack : List Entry}, Inv s → GoodStack s stack →
    searchMeasure s stack < fuel →
    goRandom fuel rng s stack ≠ none := by
  intro fuel
  induction fuel with
  | zero =>
      intro rng s stack _ _ hm
      exact absurd hm (by omega)
  | succ fuel IH =>
      intro rng s stack inv hgood hm
      intro hnone
      unfold goRandom at hnone
      split at hnone
      · simp at hnone
      · rename_i s1 hi
        have hie : insertEntries s stack = .ok s1 := by
          rw [← insertEntriesRun_eq]
          exact hi
        have inv1 : Inv s1 := insertEntries_inv inv hgood.1 hie
        have hedge := insert_edge hgood hie
        split at hnone
        · simp at hnone
        · rename_i hn
          split at hnone
          · simp at hnone
          · rename_i st1 hf
            have hok := findHiddenSingles_ok (inv_maskLe_all inv1) hf
            split at hnone
            · rename_i e rest
              have hgood1 : GoodStack s1 (e :: rest) := by
                refine ⟨hok.toWF, ?_⟩
                intro e' rest' heq
                have hmem : e' ∈ (e :: rest) := by
                  rw [heq]
                  exact List.mem_cons_self e' rest'
                have := (hok e' hmem).2.2
                intro h0
                apply this
                rw [h0]
                simp
              have hms : searchMeasure s1 (e :: rest) < fuel := by
                unfold searchMeasure
                rw [if_neg (by simp)]
                omega
              exact IH inv1 hgood1 hms hnone
            · have inv2 : Inv (findGoodRandomGuess s1 (rng.headD 0)).1 :=
                inv_lastCell inv1 _
              have hgc := findCellMinPoss_good inv1 hn
              have hlt511 : s1.mask (findCellMinPoss s1).1 ≤ 511 :=
                inv1.maskLe _ hgc.1
              have hmd := maskDigits_getD_bounds
                (m := s1.mask (findCellMinPoss s1).1) (r := rng.headD 0)
                hlt511 hgc.2
              have hgood2 : GoodStack (findGoodRandomGuess s1 (rng.headD 0)).1
                  [(findGoodRandomGuess s1 (rng.headD 0)).2] := by
                constructor
                · intro e' he'
                  have he2 : e' = (findGoodRandomGuess s1 (rng.headD 0)).2 := by
                    simpa using he'
                  rw [he2]
                  exact hmd
                · intro e' rest' heq
                  simp only [List.cons.injEq] at heq
                  rw [← heq.1]
                  show s1.mask (findCellMinPoss s1).1 ≠ 0
                  exact hgc.2
              have hmu2 : unsolvedCount (findGoodRandomGuess s1 (rng.headD 0)).1 =
                  unsolvedCount s1 := rfl
              have hmB2 : Bsum (findGoodRandomGuess s1 (rng.headD 0)).1 = Bsum s1 := rfl
              have hcm : searchMeasure (findGoodRandomGuess s1 (rng.headD 0)).1
                  [(findGoodRandomGuess s1 (rng.headD 0)).2] =
                  2 * (unsolvedCount s1 + Bsum s1) := by
                unfold searchMeasure
                rw [if_neg (by simp), hmu2, hmB2]
                omega
              split at hnone
              · rename_i hchild
                exact IH inv2 hgood2 (by omega) hchild
              · simp at hnone
              · rename_i rng2 hchild
                split at hnone
                · simp at hnone
                · rename_i s3 st3 hr
                  have hri := removeImposs_inv inv2 hr
                  have hgood3 : GoodStack s3 st3 :=
                    ⟨hri.2 StackWF_nil, removeImposs_stack_head hr⟩
                  have hbit : s1.mask (findCellMinPoss s1).1 &&&
                      (findGoodRandomGuess s1 (rng.headD 0)).2.emask ≠ 0 := by
                    apply land_single_bit_ne_zero.mpr
                    exact maskDigits_getD_testBit hlt511 hgc.2
                  have hmlt : (findGoodRandomGuess s1 (rng.headD 0)).1.mask
                      (findGoodRandomGuess s1 (rng.headD 0)).2.cell < 65536 := by
                    show s1.mask (findCellMinPoss s1).1 < 65536
                    omega
                  have hbit2 : (findGoodRandomGuess s1 (rng.headD 0)).1.mask
                      (findGoodRandomGuess s1 (rng.headD 0)).2.cell &&&
                      (findGoodRandomGuess s1 (rng.headD 0)).2.emask ≠ 0 := hbit
                  have hcell2 : (findGoodRandomGuess s1 (rng.headD 0)).2.cell < 81 :=
                    hgc.1
                  have hB3' := removeImposs_Bsum_lt hmlt hbit2 hcell2 hr
                  have hB3 : Bsum s3 < Bsum s1 := by
                    rw [← hmB2]
                    exact hB3'
                  have hu3 : unsolvedCount s3 = unsolvedCount s1 :=
                    (removeImposs_unsolved hr).trans hmu2
                  have hms3 : searchMeasure s3 st3 < fuel := by
                    have hbound : searchMeasure s3 st3 ≤
                        2 * (unsolvedCount s3 + Bsum s3) + 1 := by
                      unfold searchMeasure
                      split <;> omega
                    omega
                  exact IH hri.1 hgood3 hms3 hnone

theorem inv_unsolved {s : Solver} (inv : Inv s) :
    unsolvedCount s + s.nSolved = 81 := by
  unfold unsolvedCount
  rw [inv.plen, inv.count]
  have hsplit := List.length_eq_countP_add_countP
    (fun c => !(s.cellPoss.getD c 0 == 0)) (List.range 81)
  rw [List.length_range] at hsplit
  have hcong : (List.range 81).countP (fun c => !(s.grid.getD c 0 == 0)) =
      (List.range 81).countP
        (fun a => decide (¬((!(s.cellPoss.getD a 0 == 0)) = true))) := by
    apply List.countP_congr
    intro c hc
    have hc81 := List.mem_range.mp hc
    have hiff := inv.maskZero c hc81
    unfold Solver.mask at hiff
    constructor
    · intro hx
      have hg : s.grid.getD c 0 ≠ 0 := by simpa using hx
      have hmz : s.cellPoss.getD c 0 = 0 := hiff.mpr hg
      have hb : (s.cellPoss.getD c 0 == 0) = true := by
        rw [hmz]
        rfl
      rw [decide_eq_true_eq, hb]
      simp
    · intro hx
      have hmz : s.cellPoss.getD c 0 = 0 := by
        rw [decide_eq_true_eq] at hx
        by_contra hne
        apply hx
        rw [Bool.not_eq_true', beq_eq_false_iff_ne]
        exact hne
      have hg := hiff.mp hmz
      simpa using hg
  rw [← hcong] at hsplit
  omega

/-- Guess-recursion depth reported by the search: zero when the first pass
fails, and otherwise at most the number of unsolved cells after it. -/
theorem goSolve_depth {fuel : Nat} : ∀ {limit : Nat} {s : Solver}
    {stack : List Entry} {sols r : List Grid} {d : Nat},
    Inv s → StackWF stack → goSolve fuel limit s stack sols = some (r, d) →
    (∀ s1, insertEntriesRun s stack = .ok s1 → d ≤ unsolvedCount s1) ∧
    (∀ u : Unit, insertEntriesRun s stack = .error u → d = 0) := by
  induction fuel with
  | zero =>
      intro limit s stack sols r d _ _ h
      exact absurd h (by simp [goSolve])
  | succ fuel ih =>
      intro limit s stack sols r d inv hwf h
      unfold goSolve at h
      split at h
      · rename_i u hi
        simp only [Option.some.injEq, Prod.mk.injEq] at h
        refine ⟨?_, ?_⟩
        · intro s1 hs1
          rw [hi] at hs1
          exact absurd hs1 (by simp)
        · intro u' _
          exact h.2.symm
      · rename_i s1 hi
        have hie : insertEntries s stack = .ok s1 := by
          rw [← insertEntriesRun_eq]
          exact hi
        have inv1 := insertEntries_inv inv hwf hie
        have hd : d ≤ unsolvedCount s1 := by
          split at h
          · simp only [Option.some.injEq, Prod.mk.injEq] at h
            rw [← h.2]
            exact Nat.zero_le _
          · rename_i hn
            have hu1pos : 1 ≤ unsolvedCount s1 := by
              have := inv_unsolved inv1
              omega
            split at h
            · simp only [Option.some.injEq, Prod.mk.injEq] at h
              rw [← h.2]
              exact Nat.zero_le _
            · rename_i st1 hf
              have hwf1 : StackWF st1 :=
                (findHiddenSingles_ok (inv_maskLe_all inv1) hf).toWF
              split at h
              · have hih := ih inv1 hwf1 h
                rcases hrun : insertEntriesRun s1 _ with u | s1'
                · have := hih.2 u hrun
                  omega
                · have h1 := hih.1 s1' hrun
                  have h2 : unsolvedCount s1' ≤ unsolvedCount s1 :=
                    insertEntries_unsolved_le
                      (by rw [← insertEntriesRun_eq]; exact hrun)
                  omega
              · have inv2 : Inv (findGoodGuess s1).1 := inv_lastCell inv1 _
                have hgc := findCellMinPoss_good inv1 hn
                have hone := onePossibility_bounds (inv1.maskLe _ hgc.1) hgc.2
                have hwfg : StackWF [(findGoodGuess s1).2] := by
                  intro e' he'
                  have he2 : e' = (findGoodGuess s1).2 := by simpa using he'
                  rw [he2]
                  exact hone
                split at h
                · exact absurd h (by simp)
                · rename_i sols1 dchild hchild
                  have hchildIH := ih inv2 hwfg hchild
                  have hdch : dchild + 1 ≤ unsolvedCount s1 := by
                    rcases hrun : insertEntriesRun (findGoodGuess s1).1
                        [(findGoodGuess s1).2] with u | s2'
                    · have := hchildIH.2 u hrun
                      omega
                    · have h1 := hchildIH.1 s2' hrun
                      have h2 : unsolvedCount s2' < unsolvedCount (findGoodGuess s1).1 := by
                        apply insertEntries_strict ?_
                          (by rw [← insertEntriesRun_eq]; exact hrun)
                        show s1.mask (findCellMinPoss s1).1 ≠ 0
                        exact hgc.2
                      have h3 : unsolvedCount (findGoodGuess s1).1 = unsolvedCount s1 := rfl
                      omega
                  split at h
                  · simp only [Option.some.injEq, Prod.mk.injEq] at h
                    rw [← h.2]
                    exact hdch
                  · split at h
                    · simp only [Option.some.injEq, Prod.mk.injEq] at h
                      rw [← h.2]
                      exact hdch
                    · rename_i s3 st3 hr
                      have hri := removeImposs_inv inv2 hr
                      have hwf3 : StackWF st3 := hri.2 StackWF_nil
                      have hu3 : unsolvedCount s3 = unsolvedCount s1 :=
                        (removeImposs_unsolved hr).trans rfl
                      split at h
                      · exact absurd h (by simp)
                      · rename_i sols2 drest hrest
                        have hrestIH := ih hri.1 hwf3 hrest
                        have hdr : drest ≤ unsolvedCount s1 := by
                          rcases hrun : insertEntriesRun s3 st3 with u | s4
                          · have := hrestIH.2 u hrun
                            omega
                          · have h1 := hrestIH.1 s4 hrun
                            have h2 : unsolvedCount s4 ≤ unsolvedCount s3 :=
                              insertEntries_unsolved_le
                                (by rw [← insertEntriesRun_eq]; exact hrun)
                            omega
                        simp only [Option.some.injEq, Prod.mk.injEq] at h
                        rw [← h.2]
                        exact Nat.max_le.mpr ⟨hdch, hdr⟩
        refine ⟨?_, ?_⟩
        · intro s1' hs1'
          rw [hi] at hs1'
          simp only [Except.ok.injEq] at hs1'
          rw [← hs1']
          exact hd
        · intro u hu
          rw [hi] at hu
          exact absurd hu (by simp)

/-- `_randomized_solve_one` with its guess-recursion depth made explicit:
same control flow as `goRandom` (one step per loop iteration and per
recursive branch), returning additionally the depth of nested guess
recursion actually used -- the loop's hidden-single `continue` and the
post-retraction iteration stay in the same call frame and add nothing. -/
def goRandomD (fuel : Nat) (rng : List Nat) (s : Solver) (stack : List Entry) :
    Option ((Except Unit Grid × List Nat) × Nat) :=
  match fuel with
  | 0 => none
  | fuel + 1 =>
    match insertEntriesRun s stack with
    | .error _ => some ((.error (), rng), 0)
    | .ok s1 =>
      if s1.nSolved = 81 then some ((.ok s1.grid, rng), 0)
      else
        match findHiddenSingles s1 (List.range 27) with
        | .error _ => some ((.error (), rng), 0)
        | .ok st1 =>
          match st1 with
          | _ :: _ => goRandomD fuel rng s1 st1
          | [] =>
            match goRandomD fuel rng.tail (findGoodRandomGuess s1 (rng.headD 0)).1
                [(findGoodRandomGuess s1 (rng.headD 0)).2] with
            | none => none
            | some ((.ok g, rng2), dchild) => some ((.ok g, rng2), dchild + 1)
            | some ((.error _, rng2), dchild) =>
              match removeImposs (findGoodRandomGuess s1 (rng.headD 0)).1
                  (findGoodRandomGuess s1 (rng.headD 0)).2.cell
                  (findGoodRandomGuess s1 (rng.headD 0)).2.emask [] with
              | .error _ => some ((.error (), rng2), dchild + 1)
              | .ok (s3, st3) =>
                match goRandomD fuel rng2 s3 st3 with
                | none => none
                | some (res2, drest) => some (res2, max (dchild + 1) drest)

/-- Forgetting the depth component recovers the plain randomized driver. -/
theorem goRandomD_proj : ∀ (fuel : Nat) (rng : List Nat) (s : Solver)
    (stack : List Entry),
    goRandom fuel rng s stack = (goRandomD fuel rng s stack).map (fun p => p.1) := by
  intro fuel
  induction fuel with
  | zero =>
      intro rng s stack
      rfl
  | succ fuel ih =>
      intro rng s stack
      unfold goRandom goRandomD
      split
      · rfl
      · rename_i s1 _
        split
        · rfl
        · split
          · rfl
          · rename_i st1 _
            split
            · apply ih
            · rw [ih]
              rcases hc : goRandomD fuel rng.tail (findGoodRandomGuess s1 (rng.headD 0)).1
                  [(findGoodRandomGuess s1 (rng.headD 0)).2] with _ | ⟨⟨er, rng2⟩, dch⟩
              · rfl
              · rcases er with u2 | g
                · rcases hr : removeImposs (findGoodRandomGuess s1 (rng.headD 0)).1
                      (findGoodRandomGuess s1 (rng.headD 0)).2.cell
                      (findGoodRandomGuess s1 (rng.headD 0)).2.emask []
                    with u3 | ⟨s3, st3⟩
                  · rfl
                  · show goRandom fuel rng2 s3 st3 = Option.map (fun p => p.1)
                        (match goRandomD fuel rng2 s3 st3 with
                          | none => none
                          | some (res2, drest) => some (res2, max (dch + 1) drest))
                    rw [ih]
                    rcases hrest : goRandomD fuel rng2 s3 st3 with _ | ⟨res2, drest⟩
                    · rfl
                    · rfl
                · rfl

/-- Depth accounting for the randomized search: zero when the first pass
fails, otherwise at most the number of cells still unsolved after it. -/
theorem goRandomD_depth {fuel : Nat} : ∀ {rng : List Nat} {s : Solver}
    {stack : List Entry} {res : Except Unit Grid × List Nat} {d : Nat},
    Inv s → StackWF stack → goRandomD fuel rng s stack = some (res, d) →
    (∀ s1, insertEntriesRun s stack = .ok s1 → d ≤ unsolvedCount s1) ∧
    (∀ u : Unit, insertEntriesRun s stack = .error u → d = 0) := by
  induction fuel with
  | zero =>
      intro rng s stack res d _ _ h
      exact absurd h (by simp [goRandomD])
  | succ fuel ih =>
      intro rng s stack res d inv hwf h
      unfold goRandomD at h
      split at h
      · rename_i u hi
        simp only [Option.some.injEq, Prod.mk.injEq] at h
        refine ⟨?_, ?_⟩
        · intro s1 hs1
          rw [hi] at hs1
          exact absurd hs1 (by simp)
        · intro u' _
          exact h.2.symm
      · rename_i s1 hi
        have hie : insertEntries s stack = .ok s1 := by
          rw [← insertEntriesRun_eq]
          exact hi
        have inv1 := insertEntries_inv inv hwf hie
        have hd : d ≤ unsolvedCount s1 := by
          split at h
          · simp only [Option.some.injEq, Prod.mk.injEq] at h
            rw [← h.2]
            exact Nat.zero_le _
          · rename_i hn
            have hu1pos : 1 ≤ unsolvedCount s1 := by
              have := inv_unsolved inv1
              omega
            split at h
            · simp only [Option.some.injEq, Prod.mk.injEq] at h
              rw [← h.2]
              exact Nat.zero_le _
            · rename_i st1 hf
              have hwf1 : StackWF st1 :=
                (findHiddenSingles_ok (inv_maskLe_all inv1) hf).toWF
              split at h
              · have hih := ih inv1 hwf1 h
                rcases hrun : insertEntriesRun s1 _ with u | s1'
                · have := hih.2 u hrun
                  omega
                · have h1 := hih.1 s1' hrun
                  have h2 : unsolvedCount s1' ≤ unsolvedCount s1 :=
                    insertEntries_unsolved_le
                      (by rw [← insertEntriesRun_eq]; exact hrun)
                  omega
              · have inv2 : Inv (findGoodRandomGuess s1 (rng.headD 0)).1 :=
                  inv_lastCell inv1 _
                have hgc := findCellMinPoss_good inv1 hn
                have hmd := maskDigits_getD_bounds
                  (m := s1.mask (findCellMinPoss s1).1) (r := rng.headD 0)
                  (inv1.maskLe _ hgc.1) hgc.2
                have hwfg : StackWF [(findGoodRandomGuess s1 (rng.headD 0)).2] := by
                  intro e' he'
                  have he2 : e' = (findGoodRandomGuess s1 (rng.headD 0)).2 := by
                    simpa using he'
                  rw [he2]
                  exact hmd
                split at h
                · exact absurd h (by simp)
                · rename_i g2 rng2 dchild hchild
                  have hchildIH := ih inv2 hwfg hchild
                  have hdch : dchild + 1 ≤ unsolvedCount s1 := by
                    rcases hrun : insertEntriesRun (findGoodRandomGuess s1 (rng.headD 0)).1
                        [(findGoodRandomGuess s1 (rng.headD 0)).2] with u | s2'
                    · have := hchildIH.2 u hrun
                      omega
                    · have h1 := hchildIH.1 s2' hrun
                      have h2 : unsolvedCount s2' <
                          unsolvedCount (findGoodRandomGuess s1 (rng.headD 0)).1 := by
                        apply insertEntries_strict ?_
                          (by rw [← insertEntriesRun_eq]; exact hrun)
                        show s1.mask (findCellMinPoss s1).1 ≠ 0
                        exact hgc.2
                      have h3 : unsolvedCount (findGoodRandomGuess s1 (rng.headD 0)).1 =
                          unsolvedCount s1 := rfl
                      omega
                  simp only [Option.some.injEq, Prod.mk.injEq] at h
                  rw [← h.2]
                  exact hdch
                · rename_i u2 rng2 dchild hchild
                  have hchildIH := ih inv2 hwfg hchild
                  have hdch : dchild + 1 ≤ unsolvedCount s1 := by
                    rcases hrun : insertEntriesRun (findGoodRandomGuess s1 (rng.headD 0)).1
                        [(findGoodRandomGuess s1 (rng.headD 0)).2] with u | s2'
                    · have := hchildIH.2 u hrun
                      omega
                    · have h1 := hchildIH.1 s2' hrun
                      have h2 : unsolvedCount s2' <
                          unsolvedCount (findGoodRandomGuess s1 (rng.headD 0)).1 := by
                        apply insertEntries_strict ?_
                          (by rw [← insertEntriesRun_eq]; exact hrun)
                        show s1.mask (findCellMinPoss s1).1 ≠ 0
                        exact hgc.2
                      have h3 : unsolvedCount (findGoodRandomGuess s1 (rng.headD 0)).1 =
                          unsolvedCount s1 := rfl
                      omega
                  split at h
                  · simp only [Option.some.injEq, Prod.mk.injEq] at h
                    rw [← h.2]
                    exact hdch
                  · rename_i s3 st3 hr
                    have hri := removeImposs_inv inv2 hr
                    have hwf3 : StackWF st3 := hri.2 StackWF_nil
                    have hu3 : unsolvedCount s3 = unsolvedCount s1 :=
                      (removeImposs_unsolved hr).trans rfl
                    split at h
                    · exact absurd h (by simp)
                    · rename_i res2 drest hrest
                      have hrestIH := ih hri.1 hwf3 hrest
                      have hdr : drest ≤ unsolvedCount s1 := by
                        rcases hrun : insertEntriesRun s3 st3 with u | s4
                        · have := hrestIH.2 u hrun
                          omega
                        · have h1 := hrestIH.1 s4 hrun
                          have h2 : unsolvedCount s4 ≤ unsolvedCount s3 :=
                            insertEntries_unsolved_le
                              (by rw [← insertEntriesRun_eq]; exact hrun)
                          omega
                      simp only [Option.some.injEq, Prod.mk.injEq] at h
                      rw [← h.2]
                      exact Nat.max_le.mpr ⟨hdch, hdr⟩
        refine ⟨?_, ?_⟩
        · intro s1' hs1'
          rw [hi] at hs1'
          simp only [Except.ok.injEq] at hs1'
          rw [← hs1']
          exact hd
        · intro u hu
          rw [hi] at hu
          exact absurd hu (by simp)

/-! ## Concrete boards and helpers for the claim statements -/

/-- A fully solved board (the completion of the worked example). -/
def c1FullGrid : Grid :=
  [5, 3, 4, 6, 7, 8, 9, 1, 2, 6, 7, 2, 1, 9, 5, 3, 4, 8, 1, 9, 8, 3, 4, 2, 5, 6, 7, 8, 5, 9, 7, 6, 1, 4, 2, 3, 4, 2, 6, 8, 5, 3, 7, 9, 1, 7, 1, 3, 9, 2, 4, 8, 5, 6, 9, 6, 1, 5, 3, 7, 2, 8, 4, 2, 8, 7, 4, 1, 9, 6, 3, 5, 3, 4, 5, 2, 8, 6, 1, 7, 9]

/-- The same board with every digit relabelled by `d ↦ d mod 9 + 1`. -/
def c2FullGrid : Grid :=
  [6, 4, 5, 7, 8, 9, 1, 2, 3, 7, 8, 3, 2, 1, 6, 4, 5, 9, 2, 1, 9, 4, 5, 3, 6, 7, 8, 9, 6, 1, 8, 7, 2, 5, 3, 4, 5, 3, 7, 9, 6, 4, 8, 1, 2, 8, 2, 4, 1, 3, 5, 9, 6, 7, 1, 7, 2, 6, 4, 8, 3, 9, 5, 3, 9, 8, 5, 2, 1, 7, 4, 6, 4, 5, 6, 3, 9, 7, 2, 8, 1]

/-- A board with the digit 5 twice in its first row. -/
def c5DupGrid : Grid := 5 :: 5 :: List.replicate 79 0

/-- Bridge from the decidable bounded check to the pointwise bound. -/
theorem forall81_of_all {g : Grid}
    (hb : (List.range 81).all (fun c => decide (g.getD c 0 ≤ 9)) = true) :
    ∀ c, c < 81 → g.getD c 0 ≤ 9 := by
  intro c hc
  have := List.all_eq_true.mp hb c (List.mem_range.mpr hc)
  simpa using this

theorem seedStack_wf {perm : List Nat} (hperm : ∀ x ∈ perm, 1 ≤ x ∧ x ≤ 9) :
    StackWF (seedStack perm) := by
  intro e he
  unfold seedStack at he
  rw [List.mem_reverse] at he
  rcases List.mem_map.mp he with ⟨p, hp, hpe⟩
  have hm2 := List.of_mem_zip hp
  have hv := hperm p.2 hm2.2
  rw [← hpe]
  exact hv

/-! ## The claims -/

/-- C1: the spec claims the counting search returns at most `limit`
solutions for EVERY limit.  Refuted: with limit 0 on a solved board the
search returns one solution — `_solve_at_most` records a solution before
comparing `solutions.len() == limit`, so a limit of 0 is never reached. -/
theorem C1_limit_bound_violation : (Sudoku.solveAtMost c1FullGrid 0).length = 1 := by
  decide

/-- C2: the spec claims limit 0 always yields an empty result.  Refuted:
on this solved board the counting search invoked with limit 0 returns the
board itself. -/
theorem C2_limit_zero_not_empty : Sudoku.solveAtMost c2FullGrid 0 = [c2FullGrid] := by
  decide

/-- C3: `solve_unique` rejects boards with fewer than 17 clues or fewer
than 8 distinct clue digits without searching, and otherwise reports a
solution exactly when the limit-2 counting search finds exactly one. -/
theorem C3_solveUnique_spec {g : Grid} (hle : ∀ c, c < 81 → g.getD c 0 ≤ 9) :
    ((nClues g < 17 ∨ (distinctClueDigits g).card < 8) → Sudoku.solveUnique g = none) ∧
    (¬(nClues g < 17 ∨ (distinctClueDigits g).card < 8) →
      ∀ s, Sudoku.solveUnique g = some s ↔ Sudoku.solveAtMost g 2 = [s]) := by
  constructor
  · intro hpre
    unfold Sudoku.solveUnique
    rw [if_pos (by rw [popcnt_numsContained hle]; exact hpre)]
  · intro hpre s
    unfold Sudoku.solveUnique
    rw [if_neg (by rw [popcnt_numsContained hle]; exact hpre)]
    by_cases hlen1 : (Sudoku.solveAtMost g 2).length = 1
    · rw [if_pos hlen1]
      rcases List.length_eq_one.mp hlen1 with ⟨a, ha⟩
      rw [ha]
      constructor
      · intro h
        simp only [List.head?_cons, Option.some.injEq] at h
        rw [h]
      · intro h
        simp only [List.cons.injEq, and_true] at h
        rw [h]
        rfl
    · rw [if_neg hlen1]
      constructor
      · intro h
        exact absurd h (by simp)
      · intro h
        exfalso
        apply hlen1
        rw [h]
        rfl

theorem C3_witness :
    (∀ c, c < 81 → (([] : Grid).getD c 0 ≤ 9)) ∧
    (((nClues ([] : Grid) < 17 ∨ (distinctClueDigits ([] : Grid)).card < 8) →
        Sudoku.solveUnique ([] : Grid) = none) ∧
      (¬(nClues ([] : Grid) < 17 ∨ (distinctClueDigits ([] : Grid)).card < 8) →
        ∀ s, Sudoku.solveUnique ([] : Grid) = some s ↔
          Sudoku.solveAtMost ([] : Grid) 2 = [s])) :=
  ⟨forall81_of_all (by decide), C3_solveUnique_spec (forall81_of_all (by decide))⟩

/-- C4: `is_solved` holds exactly when all 81 cells carry a digit 1-9 and
no row, column or box repeats a digit — equivalently (by pigeonhole) every
zone carries all nine digits exactly once. -/
theorem C4_isSolved_spec {g : Grid} (hle : ∀ c, c < 81 → g.getD c 0 ≤ 9) :
    Sudoku.isSolved g = true ↔
      (gridComplete g = true ∧ gridNoDup g = true ∧ allDigitsOnce g = true) := by
  constructor
  · intro h
    obtain ⟨hc, hn⟩ := (isSolved_iff hle).mp h
    exact ⟨hc, hn, complete_nodup_allOnce hc hn⟩
  · rintro ⟨hc, hn, -⟩
    exact (isSolved_iff hle).mpr ⟨hc, hn⟩

theorem C4_witness :
    (∀ c, c < 81 → (([] : Grid).getD c 0 ≤ 9)) ∧
    (Sudoku.isSolved ([] : Grid) = true ↔
      (gridComplete ([] : Grid) = true ∧ gridNoDup ([] : Grid) = true ∧
        allDigitsOnce ([] : Grid) = true)) :=
  ⟨forall81_of_all (by decide), C4_isSolved_spec (forall81_of_all (by decide))⟩

/-- C5: a board with one digit twice in a row yields no solutions from
every solving entry point, deterministically, and the inconsistency is not
surfaced as a distinct value: each entry point reports its ordinary empty
result. -/
theorem C5_row_dup_no_solutions {g : Grid}
    (hle : ∀ c, c < 81 → g.getD c 0 ≤ 9)
    {i j : Nat} (hi : i < 81) (hj : j < 81) (hij : i ≠ j)
    (hrow : rowOf i = rowOf j) (hvij : g.getD i 0 = g.getD j 0)
    (hv0 : g.getD i 0 ≠ 0) :
    (∀ limit, Sudoku.solveAtMost g limit = []) ∧
    Sudoku.solveOne g = none ∧
    Sudoku.solve g = (false, g) ∧
    Sudoku.solveUnique g = none := by
  have herr := insertEntries_dup_err hle hi hj hij hrow hvij hv0
  have herr2 : insertEntriesRun Solver.new (stackFromSudoku g) = .error () := by
    rw [insertEntriesRun_eq]
    exact herr
  have hsam : ∀ limit, Sudoku.solveAtMost g limit = [] := by
    intro limit
    unfold Sudoku.solveAtMost
    rw [goSolve_err (by decide) herr2]
  have hone : Sudoku.solveOne g = none := by
    unfold Sudoku.solveOne
    rw [hsam 1]
    rfl
  refine ⟨hsam, hone, ?_, ?_⟩
  · unfold Sudoku.solve
    rw [hone]
  · unfold Sudoku.solveUnique
    by_cases hpre : nClues g < 17 ∨ popcnt (numsContained g) < 8
    · rw [if_pos hpre]
    · rw [if_neg hpre, hsam 2]
      rfl

theorem C5_witness :
    (∀ c, c < 81 → (c5DupGrid.getD c 0 ≤ 9)) ∧
    (0 : Nat) < 81 ∧ (1 : Nat) < 81 ∧ (0 : Nat) ≠ 1 ∧ rowOf 0 = rowOf 1 ∧
    c5DupGrid.getD 0 0 = c5DupGrid.getD 1 0 ∧ c5DupGrid.getD 0 0 ≠ 0 ∧
    ((∀ limit, Sudoku.solveAtMost c5DupGrid limit = []) ∧
      Sudoku.solveOne c5DupGrid = none ∧
      Sudoku.solve c5DupGrid = (false, c5DupGrid) ∧
      Sudoku.solveUnique c5DupGrid = none) :=
  ⟨forall81_of_all (by decide), by decide, by decide, by decide, by decide,
    by decide, by decide,
    C5_row_dup_no_solutions (i := 0) (j := 1) (forall81_of_all (by decide))
      (by decide) (by decide) (by decide) (by decide) (by decide) (by decide)⟩

/-- C6: every grid the randomized full-board generator returns is a valid
completed Sudoku: all 81 cells carry a digit 1-9 and every row, column and
box holds each digit exactly once. -/
theorem C6_generateFilled_valid {perm rng : List Nat}
    (hperm : ∀ x ∈ perm, 1 ≤ x ∧ x ≤ 9) :
    (generateFilled perm rng).all
      (fun g => gridComplete g && gridNoDup g && allDigitsOnce g) = true := by
  unfold generateFilled
  rcases hgo : goRandom driverFuel rng Solver.new (seedStack perm) with _ | ⟨res, rng2⟩
  · rfl
  · rcases res with u | g
    · rfl
    · obtain ⟨⟨hc, hn, ha, -⟩, -⟩ :=
        goRandom_sound inv_new (seedStack_wf hperm) hgo
      show (gridComplete g && gridNoDup g && allDigitsOnce g) = true
      rw [hc, hn, ha]
      rfl

theorem C6_witness :
    (∀ x ∈ ([] : List Nat), 1 ≤ x ∧ x ≤ 9) ∧
    ((generateFilled [] []).all
      (fun g => gridComplete g && gridNoDup g && allDigitsOnce g) = true) :=
  ⟨fun x hx => absurd hx (List.not_mem_nil x),
    C6_generateFilled_valid (fun x hx => absurd hx (List.not_mem_nil x))⟩

/-- C7: in every state reachable from the fresh solver by completed
operations, a cell's candidate mask is empty exactly when the cell holds a
placed digit. -/
theorem C7_mask_empty_iff_placed {s : Solver} (hr : Reachable s) :
    ∀ c, c < 81 → (s.mask c = 0 ↔ s.grid.getD c 0 ≠ 0) :=
  (reachable_inv hr).maskZero

theorem C7_witness :
    Reachable Solver.new ∧
    (Solver.new.mask 0 = 0 ↔ Solver.new.grid.getD 0 0 ≠ 0) :=
  ⟨Reachable.new, C7_mask_empty_iff_placed Reachable.new 0 (by decide)⟩

/-- C8: with the fixed step budget, both recursive searches always
complete (never exhaust the budget, whose sufficiency follows from the
strictly decreasing candidate measure), and for both the counting search
and the randomized search the guess recursion depth is at most the number
of unsolved cells and hence 81 (the depth-instrumented `goRandomD`
projects onto `goRandom`). -/
theorem C8_search_terminates {g : Grid} {limit : Nat} {rng : List Nat}
    (hle : ∀ c, c < 81 → g.getD c 0 ≤ 9) :
    goSolve driverFuel limit Solver.new (stackFromSudoku g) [] ≠ none ∧
    (∀ r d, goSolve driverFuel limit Solver.new (stackFromSudoku g) [] = some (r, d) →
      d ≤ 81) ∧
    goRandom driverFuel rng Solver.new (stackFromSudoku g) ≠ none ∧
    goRandom driverFuel rng Solver.new (stackFromSudoku g) =
      (goRandomD driverFuel rng Solver.new (stackFromSudoku g)).map (fun p => p.1) ∧
    (∀ res d, goRandomD driverFuel rng Solver.new (stackFromSudoku g) = some (res, d) →
      d ≤ 81) := by
  have hwf := stackFromSudoku_wf hle
  have hgood : GoodStack Solver.new (stackFromSudoku g) := by
    refine ⟨hwf, ?_⟩
    intro e rest heq
    have hmem : e ∈ stackFromSudoku g := by
      rw [heq]
      exact List.mem_cons_self e rest
    rcases mem_stackFromSudoku.mp hmem with ⟨hc, -, -⟩
    rw [new_mask e.cell hc]
    decide
  have hms : searchMeasure Solver.new (stackFromSudoku g) < driverFuel := by
    have h1 := searchMeasure_le inv_new (stackFromSudoku g)
    have h2 : driverFuel = 2000 := rfl
    omega
  refine ⟨goSolve_total driverFuel inv_new hgood hms, ?_,
    goRandom_total driverFuel inv_new hgood hms,
    goRandomD_proj driverFuel rng Solver.new (stackFromSudoku g), ?_⟩
  · intro r d h
    have hdep := goSolve_depth inv_new hwf h
    rcases hrun : insertEntriesRun Solver.new (stackFromSudoku g) with u | s1
    · have := hdep.2 u hrun
      omega
    · have h1 := hdep.1 s1 hrun
      have hie : insertEntries Solver.new (stackFromSudoku g) = .ok s1 := by
        rw [← insertEntriesRun_eq]
        exact hrun
      have inv1 := insertEntries_inv inv_new hwf hie
      have h2 := inv_unsolved inv1
      omega
  · intro res d h
    have hdep := goRandomD_depth inv_new hwf h
    rcases hrun : insertEntriesRun Solver.new (stackFromSudoku g) with u | s1
    · have := hdep.2 u hrun
      omega
    · have h1 := hdep.1 s1 hrun
      have hie : insertEntries Solver.new (stackFromSudoku g) = .ok s1 := by
        rw [← insertEntriesRun_eq]
        exact hrun
      have inv1 := insertEntries_inv inv_new hwf hie
      have h2 := inv_unsolved inv1
      omega

theorem C8_witness :
    (∀ c, c < 81 → (([] : Grid).getD c 0 ≤ 9)) ∧
    (goSolve driverFuel 0 Solver.new (stackFromSudoku ([] : Grid)) [] ≠ none ∧
    (∀ r d,
        goSolve driverFuel 0 Solver.new (stackFromSudoku ([] : Grid)) [] = some (r, d) →
        d ≤ 81) ∧
    goRandom driverFuel [] Solver.new (stackFromSudoku ([] : Grid)) ≠ none ∧
    goRandom driverFuel [] Solver.new (stackFromSudoku ([] : Grid)) =
      (goRandomD driverFuel [] Solver.new (stackFromSudoku ([] : Grid))).map
        (fun p => p.1) ∧
    (∀ res d,
        goRandomD driverFuel [] Solver.new (stackFromSudoku ([] : Grid)) =
          some (res, d) →
        d ≤ 81)) :=
  ⟨forall81_of_all (by decide), C8_search_terminates (forall81_of_all (by decide))⟩

/-- C9: an 81-byte array of values 0-9 converts into a Sudoku, and
converting back returns the array unchanged. -/
theorem C9_bytes_roundtrip {bytes : List Nat} (hlen : bytes.length = 81)
    (hle : ∀ b ∈ bytes, b ≤ 9) :
    Sudoku.fromBytes bytes = some bytes ∧
    ∀ g, Sudoku.fromBytes bytes = some g → Sudoku.toBytes g = bytes := by
  have hall : bytes.all (fun b => b ≤ 9) = true := by
    rw [List.all_eq_true]
    intro b hb
    simpa using hle b hb
  constructor
  · unfold Sudoku.fromBytes
    rw [if_pos hall]
  · intro g hg
    unfold Sudoku.fromBytes at hg
    rw [if_pos hall] at hg
    simp only [Option.some.injEq] at hg
    rw [← hg]
    rfl

theorem C9_witness :
    (List.replicate 81 0 : List Nat).length = 81 ∧
    (∀ b ∈ (List.replicate 81 0 : List Nat), b ≤ 9) ∧
    (Sudoku.fromBytes (List.replicate 81 0) = some (List.replicate 81 0) ∧
      ∀ g, Sudoku.fromBytes (List.replicate 81 0) = some g →
        Sudoku.toBytes g = List.replicate 81 0) :=
  ⟨by decide, by decide, C9_bytes_roundtrip (by decide) (by decide)⟩

/-- C10: when the in-place solver reports failure the grid is returned
untouched, and when it reports success every originally placed clue
reappears unchanged in the written solution. -/
theorem C10_solve_inplace {g : Grid} (hle : ∀ c, c < 81 → g.getD c 0 ≤ 9) :
    ((Sudoku.solve g).1 = false → (Sudoku.solve g).2 = g) ∧
    ((Sudoku.solve g).1 = true → ∀ c, c < 81 → g.getD c 0 ≠ 0 →
      (Sudoku.solve g).2.getD c 0 = g.getD c 0) := by
  rcases hso : Sudoku.solveOne g with _ | sol
  · have hsv : Sudoku.solve g = (false, g) := by
      unfold Sudoku.solve
      rw [hso]
    rw [hsv]
    constructor
    · intro _
      rfl
    · intro hT
      exact absurd hT (by simp)
  · have hsv : Sudoku.solve g = (true, sol) := by
      unfold Sudoku.solve
      rw [hso]
    rw [hsv]
    constructor
    · intro hF
      exact absurd hF (by simp)
    · intro _ c hc h0
      show sol.getD c 0 = g.getD c 0
      have hmem : sol ∈ Sudoku.solveAtMost g 1 := by
        unfold Sudoku.solveOne at hso
        rcases hlst : Sudoku.solveAtMost g 1 with _ | ⟨a, t⟩
        · rw [hlst] at hso
          exact absurd hso (by simp)
        · rw [hlst] at hso
          simp only [List.head?_cons, Option.some.injEq] at hso
          rw [← hso]
          exact List.mem_cons_self a t
      have hwf := stackFromSudoku_wf hle
      unfold Sudoku.solveAtMost at hmem
      rcases hgo : goSolve driverFuel 1 Solver.new (stackFromSudoku g) []
        with _ | ⟨sols, dep⟩
      · rw [hgo] at hmem
        exact absurd hmem (List.not_mem_nil sol)
      · rw [hgo] at hmem
        rcases goSolve_sound inv_new hwf hgo sol hmem with hl | ⟨-, s1, hrun, hext⟩
        · exact absurd hl (List.not_mem_nil sol)
        · have hie : insertEntries Solver.new (stackFromSudoku g) = .ok s1 := by
            rw [← insertEntriesRun_eq]
            exact hrun
          have hclue := firstInsert_clues hle hie c hc h0
          have hne : s1.grid.getD c 0 ≠ 0 := by
            rw [hclue]
            exact h0
          rw [hext c hc hne, hclue]

theorem C10_witness :
    (∀ c, c < 81 → (([] : Grid).getD c 0 ≤ 9)) ∧
    (((Sudoku.solve ([] : Grid)).1 = false → (Sudoku.solve ([] : Grid)).2 = []) ∧
      ((Sudoku.solve ([] : Grid)).1 = true → ∀ c, c < 81 →
        ([] : Grid).getD c 0 ≠ 0 →
        (Sudoku.solve ([] : Grid)).2.getD c 0 = ([] : Grid).getD c 0)) :=
  ⟨forall81_of_all (by decide), C10_solve_inplace (forall81_of_all (by decide))⟩

end SudokuV
